import Mathlib

/-!
# ChainSolve-Web engine-core: shallow embedding and verification

This file embeds the evaluation kernel of the `engine-core` crate
(`crates/engine-core/src/{types,ops,graph,eval,validate,lib}.rs`) in Lean 4
and proves/refutes the frozen claims about it.

## Modelling conventions

* **f64.** IEEE-754 binary64 values are modelled by the inductive type `F64`
  which distinguishes exactly the bit-pattern classes the kernel observes:
  NaNs (with an abstract `payload : Nat` standing for the NaN's bit pattern,
  payload `0` being the canonical `f64::NAN` pattern), negative zero,
  finite values (as exact rationals, `num 0` being positive zero), and the
  two infinities.  Structural equality of `F64` corresponds to bit-pattern
  equality (`to_bits`) of the underlying `f64`.  Arithmetic on finite values
  is modelled exactly over `ℚ` (no rounding): IEEE rounding is a function of
  the exact result, so properties that are invariant under rounding
  (commutativity, sign/zero/NaN structure, canonicalization) transfer.
  Where x86-64 hardware propagates the *first* NaN operand's payload, the
  model does the same; all claims about NaN bits factor through
  canonicalization, where any payload choice coincides.
* **HashMap / HashSet.** Modelled as association lists (`List (String × α)`)
  and duplicate-free lists (`List String`) in insertion order.  Rust's
  iteration order is unspecified; the model fixes insertion order.
* **usize.** Arithmetic that can underflow (`*deg -= 1` in Kahn's algorithm)
  is modelled with explicit wrap-around modulo 2^64, matching release-mode
  Rust.
* **serde_json node data.** The kernel reads only the keys `value`,
  `manualValues`, `portOverrides`, `vectorData`, `datasetRef` from a node's
  JSON `data` map; `NodeData` models exactly that projection (non-numeric
  `manualValues` entries are skipped by `as_f64` in the source and are not
  represented).
* **Op dispatch.** `evaluate_node_inner` is instantiated for the block types
  the claims exercise (sources, arithmetic, logic, display, vectorInput);
  all remaining block types fall to the `Unknown block type` arm exactly as
  unknown ids do in the source.  The graph-level theorems are stated
  parametrically in the dispatch function, which is sound because the real
  dispatch is a pure function of the same arguments.
-/

namespace ChainSolve

-- ════════════════════════════════════════════════════════════════════
-- §1  The f64 bit-pattern model
-- ════════════════════════════════════════════════════════════════════

/-- Model of an IEEE-754 binary64 bit pattern as observed by the engine:
NaNs carry an abstract payload (0 = the canonical `f64::NAN` pattern),
`negZero` is `-0.0`, `num q` is a finite value (`num 0` = `+0.0`),
`inf`/`negInf` are the infinities.  `F64` equality = `to_bits` equality. -/
inductive F64 where
  | nan (payload : Nat)
  | negZero
  | num (q : ℚ)
  | inf
  | negInf
deriving DecidableEq

namespace F64

/-- Is this value a NaN? (`f64::is_nan`). -/
def isNan : F64 → Bool
  | nan _ => true
  | _ => false

/-- Extended-real view used to define IEEE comparisons: NaN has no view. -/
inductive Ext where
  | negInfE
  | finE (q : ℚ)
  | infE
deriving DecidableEq

/-- Strict order on the extended-real view. -/
def Ext.ltE : Ext → Ext → Bool
  | Ext.negInfE, Ext.negInfE => false
  | Ext.negInfE, _ => true
  | Ext.finE _, Ext.negInfE => false
  | Ext.finE a, Ext.finE b => a < b
  | Ext.finE _, Ext.infE => true
  | Ext.infE, _ => false

/-- Numeric view of a bit pattern; `-0.0` and `+0.0` both view as `0`. -/
def ext? : F64 → Option Ext
  | nan _ => none
  | negZero => some (Ext.finE 0)
  | num q => some (Ext.finE q)
  | inf => some Ext.infE
  | negInf => some Ext.negInfE

/-- IEEE `<`: false whenever either operand is NaN. -/
def lt (a b : F64) : Bool :=
  match a.ext?, b.ext? with
  | some x, some y => Ext.ltE x y
  | _, _ => false

/-- IEEE `==`: false whenever either operand is NaN; `-0.0 == +0.0`. -/
def ieeeEq (a b : F64) : Bool :=
  match a.ext?, b.ext? with
  | some x, some y => x == y
  | _, _ => false

/-- IEEE `!=` is the negation of IEEE `==` (so `NaN != x` is true). -/
def ne (a b : F64) : Bool := !(ieeeEq a b)

/-- Sign bit (true = negative); used for the sign of products. -/
def isNeg : F64 → Bool
  | nan _ => false
  | negZero => true
  | num q => q < 0
  | inf => false
  | negInf => true

/-- IEEE addition.  NaN propagates (first operand's payload, as on x86-64);
`∞ + -∞` is an invalid operation producing a non-canonical NaN (payload 1);
`-0.0 + -0.0 = -0.0`; finite addition is exact over `ℚ` (see header). -/
def add : F64 → F64 → F64
  | nan p, _ => nan p
  | _, nan p => nan p
  | inf, negInf => nan 1
  | negInf, inf => nan 1
  | inf, _ => inf
  | _, inf => inf
  | negInf, _ => negInf
  | _, negInf => negInf
  | negZero, negZero => negZero
  | negZero, num q => num q
  | num q, negZero => num q
  | num a, num b => num (a + b)

/-- IEEE subtraction (only the structure used by the `equal` op). -/
def sub : F64 → F64 → F64
  | nan p, _ => nan p
  | _, nan p => nan p
  | inf, inf => nan 1
  | negInf, negInf => nan 1
  | inf, _ => inf
  | _, inf => negInf
  | negInf, _ => negInf
  | _, negInf => inf
  | negZero, negZero => num 0
  | negZero, num q => if q = 0 then negZero else num (-q)
  | num q, negZero => num q
  | num a, num b => num (a - b)

/-- IEEE multiplication: sign of a zero/infinite product is the XOR of the
operand signs; `0 × ∞` is invalid (non-canonical NaN payload 1). -/
def mul : F64 → F64 → F64
  | nan p, _ => nan p
  | _, nan p => nan p
  | negZero, negZero => num 0
  | negZero, num q => if q < 0 then num 0 else negZero
  | num q, negZero => if q < 0 then num 0 else negZero
  | negZero, inf => nan 1
  | inf, negZero => nan 1
  | negZero, negInf => nan 1
  | negInf, negZero => nan 1
  | num a, num b =>
      if a = 0 ∨ b = 0 then
        (if (decide (a < 0)).xor (decide (b < 0)) then negZero else num 0)
      else num (a * b)
  | num q, inf => if q = 0 then nan 1 else if q < 0 then negInf else inf
  | inf, num q => if q = 0 then nan 1 else if q < 0 then negInf else inf
  | num q, negInf => if q = 0 then nan 1 else if q < 0 then inf else negInf
  | negInf, num q => if q = 0 then nan 1 else if q < 0 then inf else negInf
  | inf, inf => inf
  | inf, negInf => negInf
  | negInf, inf => negInf
  | negInf, negInf => inf

/-- Rust `f64::max` (IEEE maxNum): a NaN operand yields the other operand;
on a tie (e.g. `+0.0` vs `-0.0`) the source may return either operand and
the model returns the first — every use in the claims goes through
canonicalization, where the two choices coincide. -/
def max (a b : F64) : F64 :=
  match a, b with
  | nan _, y => y
  | x, nan _ => x
  | x, y => if lt x y then y else x

/-- Rust `f64::min`; see `F64.max` for the NaN/tie conventions. -/
def min (a b : F64) : F64 :=
  match a, b with
  | nan _, y => y
  | x, nan _ => x
  | x, y => if lt y x then y else x

/-- Rust unary negation. On a NaN the hardware flips the sign bit; the model
keeps the payload (the difference is unobservable after canonicalization). -/
def neg : F64 → F64
  | nan p => nan p
  | negZero => num 0
  | num q => if q = 0 then negZero else num (-q)
  | inf => negInf
  | negInf => inf

/-- Rust `f64::abs` (clears the sign bit; NaN payload kept, see `neg`). -/
def abs : F64 → F64
  | nan p => nan p
  | negZero => num 0
  | num q => num |q|
  | inf => inf
  | negInf => inf

/-- `f64::EPSILON` = 2⁻⁵². -/
def epsilon : F64 := num (1 / 2 ^ 52)

end F64

-- ════════════════════════════════════════════════════════════════════
-- §2  Association-list models of HashMap / HashSet
-- ════════════════════════════════════════════════════════════════════

/-- `HashMap::get`. -/
def lookupA {α : Type} : List (String × α) → String → Option α
  | [], _ => none
  | (k, v) :: t, key => if k = key then some v else lookupA t key

/-- `HashMap::insert`: replace in place if the key exists, else append
(insertion order is preserved, modelling iteration order). -/
def insertA {α : Type} : List (String × α) → String → α → List (String × α)
  | [], key, v => [(key, v)]
  | (k, w) :: t, key, v =>
      if k = key then (key, v) :: t else (k, w) :: insertA t key v

/-- `HashMap::remove` (by key). -/
def eraseA {α : Type} (m : List (String × α)) (key : String) : List (String × α) :=
  m.filter (fun p => decide (p.1 ≠ key))

/-- `HashMap::contains_key`. -/
def containsA {α : Type} (m : List (String × α)) (key : String) : Bool :=
  (lookupA m key).isSome

/-- `HashMap::entry(k).or_insert(v)` when only the map is needed. -/
def orInsertA {α : Type} (m : List (String × α)) (key : String) (v : α) :
    List (String × α) :=
  if containsA m key then m else insertA m key v

/-- `HashMap::entry(k).or_insert(d) += 1` (the in-degree accumulation). -/
def bumpA (m : List (String × Nat)) (key : String) : List (String × Nat) :=
  match lookupA m key with
  | some d => insertA m key (d + 1)
  | none => insertA m key 1

/-- `HashSet::insert`: returns the new set and whether the id was new. -/
def insertS (s : List String) (key : String) : List String × Bool :=
  if key ∈ s then (s, false) else (s ++ [key], true)

/-- `HashSet::remove`. -/
def removeS (s : List String) (key : String) : List String :=
  s.filter (fun x => decide (x ≠ key))

-- ════════════════════════════════════════════════════════════════════
-- §3  types.rs: Value and the snapshot / result schema
-- ════════════════════════════════════════════════════════════════════

/-- `Value` (types.rs): the polymorphic output of every node evaluation. -/
inductive Value where
  | scalar (value : F64)
  | vector (value : List F64)
  | table (columns : List String) (rows : List (List F64))
  | error (message : String)
deriving DecidableEq

/-- `Value::kind_str`. -/
def Value.kind_str : Value → String
  | .scalar _ => "scalar"
  | .vector _ => "vector"
  | .table _ _ => "table"
  | .error _ => "error"

/-- Projection of a node's JSON `data` map onto the keys the kernel reads
(see the header notes on `serde_json`). -/
structure NodeData where
  value : Option F64 := none
  manualValues : List (String × F64) := []
  portOverrides : List (String × Bool) := []
  vectorData : Option (List F64) := none
  datasetRef : Option String := none
deriving DecidableEq

/-- The all-absent node data (an empty JSON object). -/
def NodeData.empty : NodeData := {}

/-- `NodeDef` (types.rs). -/
structure NodeDef where
  id : String
  block_type : String
  data : NodeData
deriving DecidableEq

/-- `EdgeDef` (types.rs). -/
structure EdgeDef where
  id : String
  source : String
  source_handle : String
  target : String
  target_handle : String
deriving DecidableEq

/-- `EngineSnapshotV1` (types.rs). -/
structure EngineSnapshotV1 where
  version : Nat
  nodes : List NodeDef
  edges : List EdgeDef
deriving DecidableEq

/-- `DiagLevel` (types.rs). -/
inductive DiagLevel where
  | Info
  | Warning
  | Error
deriving DecidableEq

/-- `Diagnostic` (types.rs). -/
structure Diagnostic where
  node_id : Option String
  level : DiagLevel
  code : String
  message : String
deriving DecidableEq

/-- `ValueSummary` (types.rs), the compact trace projection. -/
inductive ValueSummary where
  | scalarS (value : F64)
  | vectorS (length : Nat) (sample : List F64)
  | tableS (rows : Nat) (columns : Nat)
  | errorS (message : String)
deriving DecidableEq

/-- `Value::summarize`. -/
def Value.summarize : Value → ValueSummary
  | .scalar value => .scalarS value
  | .vector value => .vectorS value.length (value.take 5)
  | .table columns rows => .tableS rows.length columns.length
  | .error message => .errorS message

/-- `TraceEntry` (types.rs). -/
structure TraceEntry where
  node_id : String
  op_id : String
  inputs : List (String × ValueSummary)
  output : ValueSummary
  diagnostics : List Diagnostic
deriving DecidableEq

/-- `EvalOptions` (types.rs). -/
structure EvalOptions where
  trace : Bool := false
  max_trace_nodes : Option Nat := none
  time_budget_ms : Nat := 0
deriving DecidableEq

/-- `EvalResult` (types.rs).  The Rust field `partial` is a Lean keyword and
is embedded as `isPartial`. -/
structure EvalResult where
  values : List (String × Value)
  diagnostics : List Diagnostic
  elapsed_us : Nat
  trace : Option (List TraceEntry)
  isPartial : Bool
deriving DecidableEq

/-- `IncrementalEvalResult` (types.rs); `partial` embedded as `isPartial`. -/
structure IncrementalEvalResult where
  changed_values : List (String × Value)
  diagnostics : List Diagnostic
  elapsed_us : Nat
  evaluated_count : Nat
  total_count : Nat
  trace : Option (List TraceEntry)
  isPartial : Bool
deriving DecidableEq

/-- `ErrorCode` (error.rs). -/
inductive ErrorCode where
  | UnsupportedVersion
  | DanglingEdge
  | CycleDetected
  | UnknownBlock
  | MissingInput
  | InvalidSnapshot
deriving DecidableEq

/-- `ErrorCode::as_str`. -/
def ErrorCode.as_str : ErrorCode → String
  | .UnsupportedVersion => "UNSUPPORTED_VERSION"
  | .DanglingEdge => "DANGLING_EDGE"
  | .CycleDetected => "CYCLE_DETECTED"
  | .UnknownBlock => "UNKNOWN_BLOCK"
  | .MissingInput => "MISSING_INPUT"
  | .InvalidSnapshot => "INVALID_SNAPSHOT"

/-- `EngineError` (error.rs). -/
structure EngineError where
  code : ErrorCode
  message : String
deriving DecidableEq

-- ════════════════════════════════════════════════════════════════════
-- §4  ops.rs: canonicalization, broadcasting, per-node dispatch
-- ════════════════════════════════════════════════════════════════════

/-- `canonicalize` (ops.rs): NaN → the canonical `f64::NAN` bit pattern;
`±0.0 → +0.0` (the source's `v == 0.0` branch also matches `+0.0`, for
which returning `0.0` is the identity); all other values unchanged. -/
def canonicalize : F64 → F64
  | F64.nan _ => F64.nan 0
  | F64.negZero => F64.num 0
  | v => v

/-- `canonicalize_value` (ops.rs): canonicalize every scalar slot. -/
def canonicalize_value : Value → Value
  | .scalar value => .scalar (canonicalize value)
  | .vector value => .vector (value.map canonicalize)
  | .table columns rows => .table columns (rows.map (fun row => row.map canonicalize))
  | .error message => .error message

/-- `scalar_or_nan` (ops.rs). -/
def scalar_or_nan (inputs : List (String × Value)) (port : String) : F64 :=
  match lookupA inputs port with
  | some (.scalar v) => v
  | _ => F64.nan 0

/-- `unary_broadcast_port` (ops.rs). -/
def unary_broadcast_port (inputs : List (String × Value)) (port : String)
    (f : F64 → F64) : Value :=
  match lookupA inputs port with
  | some (.scalar value) => .scalar (f value)
  | some (.vector value) => .vector (value.map f)
  | some (.table columns rows) => .table columns (rows.map (fun row => row.map f))
  | some (.error message) => .error message
  | none => .scalar (f (F64.nan 0))

/-- `unary_broadcast` (ops.rs): unary broadcast on port `a`. -/
def unary_broadcast (inputs : List (String × Value)) (f : F64 → F64) : Value :=
  unary_broadcast_port inputs "a" f

/-- `binary_broadcast_ports` (ops.rs).  Arms in source order; the source's
final unreachable `(Some(Error), None)` arms are subsumed by the two
error-propagation arms at the top. -/
def binary_broadcast_ports (inputs : List (String × Value))
    (port_a port_b : String) (f : F64 → F64 → F64) : Value :=
  match lookupA inputs port_a, lookupA inputs port_b with
  | some (.error message), _ => .error message
  | _, some (.error message) => .error message
  | some (.scalar va), some (.scalar vb) => .scalar (f va vb)
  | none, none => .scalar (f (F64.nan 0) (F64.nan 0))
  | some (.scalar va), none => .scalar (f va (F64.nan 0))
  | none, some (.scalar vb) => .scalar (f (F64.nan 0) vb)
  | some (.scalar s), some (.vector vec) => .vector (vec.map (fun x => f s x))
  | some (.vector vec), some (.scalar s) => .vector (vec.map (fun x => f x s))
  | some (.vector va), some (.vector vb) =>
      if va.length ≠ vb.length then
        .error ("Vector length mismatch: " ++ toString va.length ++ " vs "
          ++ toString vb.length)
      else .vector (List.zipWith f va vb)
  | some (.scalar s), some (.table columns rows) =>
      .table columns (rows.map (fun row => row.map (fun x => f s x)))
  | some (.table columns rows), some (.scalar s) =>
      .table columns (rows.map (fun row => row.map (fun x => f x s)))
  | some (.table ca ra), some (.table cb rb) =>
      if ca.length ≠ cb.length ∨ ra.length ≠ rb.length then
        .error ("Table shape mismatch: " ++ toString ra.length ++ "x"
          ++ toString ca.length ++ " vs " ++ toString rb.length ++ "x"
          ++ toString cb.length)
      else .table ca (List.zipWith (fun ra rb => List.zipWith f ra rb) ra rb)
  | some (.vector vec), none => .vector (vec.map (fun x => f x (F64.nan 0)))
  | none, some (.vector vec) => .vector (vec.map (fun x => f (F64.nan 0) x))
  | some (.table columns rows), none =>
      .table columns (rows.map (fun row => row.map (fun x => f x (F64.nan 0))))
  | none, some (.table columns rows) =>
      .table columns (rows.map (fun row => row.map (fun x => f (F64.nan 0) x)))
  | some va, some vb =>
      .error ("Cannot broadcast " ++ va.kind_str ++ " with " ++ vb.kind_str)

/-- `binary_broadcast` (ops.rs): broadcast on ports `a` and `b`. -/
def binary_broadcast (inputs : List (String × Value)) (f : F64 → F64 → F64) :
    Value :=
  binary_broadcast_ports inputs "a" "b" f

/-- `evaluate_node_inner` (ops.rs), instantiated for the block types the
claims exercise (see the header); every other block type takes the
source's `Unknown block type` fall-through arm. -/
def evaluate_node_inner (block_type : String) (inputs : List (String × Value))
    (data : NodeData) (datasets : List (String × List F64)) : Value :=
  match block_type with
  | "number" => .scalar (data.value.getD (F64.num 0))
  | "slider" => .scalar (data.value.getD (F64.num 0))
  | "add" => binary_broadcast inputs F64.add
  | "subtract" => binary_broadcast inputs F64.sub
  | "multiply" => binary_broadcast inputs F64.mul
  | "negate" => unary_broadcast inputs F64.neg
  | "abs" => unary_broadcast inputs F64.abs
  | "greater" =>
      binary_broadcast inputs (fun a b =>
        if F64.lt b a then F64.num 1 else F64.num 0)
  | "less" =>
      binary_broadcast inputs (fun a b =>
        if F64.lt a b then F64.num 1 else F64.num 0)
  | "equal" =>
      binary_broadcast inputs (fun a b =>
        if F64.lt (F64.abs (F64.sub a b)) F64.epsilon then F64.num 1
        else F64.num 0)
  | "max" => binary_broadcast inputs F64.max
  | "min" => binary_broadcast inputs F64.min
  | "ifthenelse" =>
      let cond := scalar_or_nan inputs "cond"
      let thenv := scalar_or_nan inputs "then"
      let elsev := scalar_or_nan inputs "else"
      .scalar (if F64.ne cond (F64.num 0) then thenv else elsev)
  | "display" => (lookupA inputs "value").getD (.scalar (F64.nan 0))
  | "vectorInput" =>
      match data.datasetRef with
      | some ds_id =>
          match lookupA datasets ds_id with
          | some ds => .vector ds
          | none =>
              match data.vectorData with
              | some arr => .vector arr
              | none => .vector []
      | none =>
          match data.vectorData with
          | some arr => .vector arr
          | none => .vector []
  | _ => .error ("Unknown block type: " ++ block_type)

/-- `evaluate_node_with_datasets` (ops.rs): the inner dispatch followed by
canonicalization — the only public entry the evaluators call. -/
def evaluate_node_with_datasets (block_type : String)
    (inputs : List (String × Value)) (data : NodeData)
    (datasets : List (String × List F64)) : Value :=
  canonicalize_value (evaluate_node_inner block_type inputs data datasets)

/-- `evaluate_node` (ops.rs): `evaluate_node_with_datasets` with no dataset
registry (`None` modelled as the empty registry). -/
def evaluate_node (block_type : String) (inputs : List (String × Value))
    (data : NodeData) : Value :=
  evaluate_node_with_datasets block_type inputs data []

-- ════════════════════════════════════════════════════════════════════
-- §5  graph.rs: persistent EngineGraph with dirty tracking
-- ════════════════════════════════════════════════════════════════════

/-- `EvalSignal` (graph.rs). -/
inductive EvalSignal where
  | Continue
  | Abort
deriving DecidableEq

/-- `PatchOp` (graph.rs). -/
inductive PatchOp where
  | addNode (node : NodeDef)
  | removeNode (node_id : String)
  | updateNodeData (node_id : String) (data : NodeData)
  | addEdge (edge : EdgeDef)
  | removeEdge (edge_id : String)
deriving DecidableEq

/-- The type of the op-dispatch function the graph evaluators call
(`evaluate_node_with_datasets`'s signature); the graph-level theorems are
parametric in it (see the header). -/
def Dispatch : Type :=
  String → List (String × Value) → NodeData → List (String × List F64) → Value

/-- `EngineGraph` (graph.rs): the persistent engine state. -/
structure EngineGraph where
  nodes : List (String × NodeDef)
  edges : List (String × EdgeDef)
  /-- source_id → [(edge_id, target_id, target_handle)] -/
  out_adj : List (String × List (String × String × String))
  /-- target_id → [(edge_id, source_id, source_handle, target_handle)] -/
  in_adj : List (String × List (String × String × String × String))
  topo_order : List String
  values : List (String × Value)
  dirty : List String
  topo_dirty : Bool
  datasets : List (String × List F64)
deriving DecidableEq

/-- `EngineGraph::new`. -/
def EngineGraph.new : EngineGraph :=
  { nodes := [], edges := [], out_adj := [], in_adj := [], topo_order := [],
    values := [], dirty := [], topo_dirty := true, datasets := [] }

/-- `values_equal` (graph.rs): bit-identical comparison of `Value`s.  In the
model `to_bits` equality of every slot is structural equality of `F64`. -/
def values_equal : Value → Value → Bool
  | .scalar va, .scalar vb => va == vb
  | .vector va, .vector vb =>
      va.length == vb.length && (List.zip va vb).all (fun p => p.1 == p.2)
  | .table ca ra, .table cb rb =>
      ca == cb && ra.length == rb.length &&
        (List.zip ra rb).all (fun p =>
          p.1.length == p.2.length && (List.zip p.1 p.2).all (fun q => q.1 == q.2))
  | .error ma, .error mb => ma == mb
  | _, _ => false

/-- `entry(k).or_default()` on an adjacency map. -/
def entryOrDefault {α : Type} (m : List (String × List α)) (key : String) :
    List (String × List α) :=
  orInsertA m key []

/-- `entry(k).or_default().push(row)` on an adjacency map. -/
def pushAdj {α : Type} (m : List (String × List α)) (key : String) (row : α) :
    List (String × List α) :=
  insertA m key ((lookupA m key).getD [] ++ [row])

/-- `EngineGraph::add_edge_internal`. -/
def EngineGraph.add_edge_internal (g : EngineGraph) (edge : EdgeDef) :
    EngineGraph :=
  { g with
    out_adj := pushAdj g.out_adj edge.source
      (edge.id, edge.target, edge.target_handle),
    in_adj := pushAdj g.in_adj edge.target
      (edge.id, edge.source, edge.source_handle, edge.target_handle) }

/-- `if let Some(v) = m.get_mut(k) { *v = f(v) }`. -/
def updateIfPresent {α : Type} (m : List (String × α)) (key : String)
    (f : α → α) : List (String × α) :=
  match lookupA m key with
  | some v => insertA m key (f v)
  | none => m

/-- `EngineGraph::remove_edge_internal`. -/
def EngineGraph.remove_edge_internal (g : EngineGraph) (edge_id : String) :
    EngineGraph :=
  match lookupA g.edges edge_id with
  | some edge =>
      { g with
        out_adj := updateIfPresent g.out_adj edge.source
          (List.filter (fun r => decide (r.1 ≠ edge_id))),
        in_adj := updateIfPresent g.in_adj edge.target
          (List.filter (fun r => decide (r.1 ≠ edge_id))) }
  | none => g

/-- `EngineGraph::load_snapshot`: full reset, all nodes marked dirty,
datasets untouched. -/
def EngineGraph.load_snapshot (g : EngineGraph) (snapshot : EngineSnapshotV1) :
    EngineGraph :=
  let g0 := { g with nodes := [], edges := [], out_adj := [], in_adj := [],
                     values := [], dirty := [] }
  let g1 := snapshot.nodes.foldl (fun acc node =>
    { acc with
      dirty := (insertS acc.dirty node.id).1,
      out_adj := entryOrDefault acc.out_adj node.id,
      in_adj := entryOrDefault acc.in_adj node.id,
      nodes := insertA acc.nodes node.id node }) g0
  let g2 := snapshot.edges.foldl (fun acc edge =>
    let acc1 := acc.add_edge_internal edge
    { acc1 with edges := insertA acc1.edges edge.id edge }) g1
  { g2 with topo_dirty := true }

/-- Worklist body of `EngineGraph::mark_dirty` (a BFS over `out_adj`).  The
Rust `while let` loop is modelled with explicit fuel; `mark_dirty` supplies
a fuel that dominates the number of iterations (1 pop for the seed plus at
most one pop per adjacency row, since only newly-inserted ids propagate). -/
def markDirtyGo : Nat → EngineGraph → List String → EngineGraph
  | 0, g, _ => g
  | _ + 1, g, [] => g
  | fuel + 1, g, id :: queue =>
      let (dirty1, fresh) := insertS g.dirty id
      if fresh then
        let nbrs := ((lookupA g.out_adj id).getD []).map (fun r => r.2.1)
        markDirtyGo fuel { g with dirty := dirty1 } (queue ++ nbrs)
      else
        markDirtyGo fuel { g with dirty := dirty1 } queue

/-- Total number of adjacency rows in `out_adj` (fuel bound for the BFS). -/
def EngineGraph.outAdjSize (g : EngineGraph) : Nat :=
  (g.out_adj.map (fun p => p.2.length)).sum

/-- `EngineGraph::mark_dirty`: mark a node and all downstream descendants. -/
def EngineGraph.mark_dirty (g : EngineGraph) (node_id : String) : EngineGraph :=
  markDirtyGo (g.outAdjSize + 2) g [node_id]

/-- Recursive body of `EngineGraph::prune_downstream`.  The source recursion
has no visited set and is bounded only by the acyclic depth of the clean
region; the model makes that bound an explicit fuel (`prune_downstream`
passes `nodes.len() + 1`, a bound on the recursion depth whenever the
region being pruned is acyclic — the only situation reachable from the
public API, since cycle members are never clean). -/
def pruneGo : Nat → EngineGraph → String → EngineGraph
  | 0, g, _ => g
  | fuel + 1, g, node_id =>
      let nbrs := (lookupA g.out_adj node_id).getD []
      nbrs.foldl (fun acc r =>
        let target_id := r.2.1
        let all_parents_clean :=
          match lookupA acc.in_adj target_id with
          | some rows => rows.all (fun q => decide (q.2.1 ∉ acc.dirty))
          | none => true
        if all_parents_clean then
          pruneGo fuel { acc with dirty := removeS acc.dirty target_id }
            target_id
        else acc) g

/-- `EngineGraph::prune_downstream`. -/
def EngineGraph.prune_downstream (g : EngineGraph) (node_id : String) :
    EngineGraph :=
  pruneGo (g.nodes.length + 1) g node_id

/-- One `PatchOp` arm of `EngineGraph::apply_patch`. -/
def EngineGraph.applyOp (g : EngineGraph) : PatchOp → EngineGraph
  | .addNode node =>
      let g1 := { g with out_adj := entryOrDefault g.out_adj node.id,
                         in_adj := entryOrDefault g.in_adj node.id,
                         nodes := insertA g.nodes node.id node }
      { g1.mark_dirty node.id with topo_dirty := true }
  | .removeNode node_id =>
      let edge_ids := (g.edges.filter (fun p =>
        p.2.source == node_id || p.2.target == node_id)).map (fun p => p.1)
      let g1 := edge_ids.foldl (fun acc eid =>
        let acc1 := acc.remove_edge_internal eid
        { acc1 with edges := eraseA acc1.edges eid }) g
      { g1 with nodes := eraseA g1.nodes node_id,
                out_adj := eraseA g1.out_adj node_id,
                in_adj := eraseA g1.in_adj node_id,
                values := eraseA g1.values node_id,
                dirty := removeS g1.dirty node_id,
                topo_dirty := true }
  | .updateNodeData node_id data =>
      match lookupA g.nodes node_id with
      | some node =>
          let g1 := { g with
            nodes := insertA g.nodes node_id { node with data := data } }
          g1.mark_dirty node_id
      | none => g
  | .addEdge edge =>
      let target_id := edge.target
      let g1 := g.add_edge_internal edge
      let g2 := { g1 with edges := insertA g1.edges edge.id edge }
      { g2.mark_dirty target_id with topo_dirty := true }
  | .removeEdge edge_id =>
      match lookupA g.edges edge_id with
      | some edge =>
          let g1 := g.remove_edge_internal edge_id
          let g2 := { g1 with edges := eraseA g1.edges edge_id }
          { g2.mark_dirty edge.target with topo_dirty := true }
      | none => g

/-- `EngineGraph::apply_patch`: process the ops in order. -/
def EngineGraph.apply_patch (g : EngineGraph) (ops : List PatchOp) :
    EngineGraph :=
  ops.foldl EngineGraph.applyOp g

/-- `EngineGraph::set_input`: merge one manual value, mark dirty. -/
def EngineGraph.set_input (g : EngineGraph) (node_id port_id : String)
    (value : F64) : EngineGraph :=
  match lookupA g.nodes node_id with
  | some node =>
      let node1 := { node with data :=
        { node.data with
          manualValues := insertA node.data.manualValues port_id value } }
      ({ g with nodes := insertA g.nodes node_id node1 }).mark_dirty node_id
  | none => g

/-- `EngineGraph::register_dataset`. -/
def EngineGraph.register_dataset (g : EngineGraph) (id : String)
    (data : List F64) : EngineGraph :=
  { g with datasets := insertA g.datasets id data }

/-- `EngineGraph::release_dataset`. -/
def EngineGraph.release_dataset (g : EngineGraph) (id : String) : EngineGraph :=
  { g with datasets := eraseA g.datasets id }

-- ── Kahn's algorithm (shared verbatim by graph.rs and eval.rs) ──────

/-- 2⁶⁴, the modulus of `usize` arithmetic. -/
def USIZE : Nat := 2 ^ 64

/-- One batch of in-degree decrements (`*deg -= 1`, with release-mode
wrap-around) over the popped node's neighbor list; ids whose degree hits
exactly 0 are appended to the FIFO queue. -/
def kahnDecrement (st : List (String × Nat) × List String)
    (targets : List String) : List (String × Nat) × List String :=
  targets.foldl (fun acc t =>
    match lookupA acc.1 t with
    | some deg =>
        let deg1 := (deg + (USIZE - 1)) % USIZE
        (insertA acc.1 t deg1, if deg1 = 0 then acc.2 ++ [t] else acc.2)
    | none => acc) st

/-- The Kahn worklist loop (`while let Some(id) = queue.pop_front()`),
identical in graph.rs `rebuild_topo` and eval.rs `evaluate`; the fuel
supplied by `kahnTopo` dominates the pop count whenever in-degrees are
consistent with the neighbor lists (each node is then popped at most
once). -/
def kahnGo (nbrs : String → List String) :
    Nat → List (String × Nat) → List String → List String → List String
  | 0, _, _, order => order
  | _ + 1, _, [], order => order
  | fuel + 1, remaining, id :: qs, order =>
      let st := kahnDecrement (remaining, qs) (nbrs id)
      kahnGo nbrs fuel st.1 st.2 (order ++ [id])

/-- Kahn's algorithm: seed the FIFO queue with all in-degree-0 ids (in map
iteration order), then run the worklist loop. -/
def kahnTopo (in_degree : List (String × Nat)) (nbrs : String → List String) :
    List String :=
  let seeds := (in_degree.filter (fun p => p.2 == 0)).map (fun p => p.1)
  kahnGo nbrs (in_degree.length + 1) in_degree seeds []

/-- The `CYCLE_DETECTED` diagnostic for one node (the source's message
`Node '<id>' is part of a cycle`; the model omits the quote characters). -/
def cycleDiag (id : String) : Diagnostic :=
  { node_id := some id, level := .Error, code := "CYCLE_DETECTED",
    message := "Node " ++ id ++ " is part of a cycle" }

/-- In-degree map of `rebuild_topo` (graph.rs): 0 for every node key, then
one bump per edge target. -/
def EngineGraph.inDegree (g : EngineGraph) : List (String × Nat) :=
  let base := g.nodes.foldl (fun m p => insertA m p.1 0) []
  g.edges.foldl (fun m p => bumpA m p.2.target) base

/-- `EngineGraph::rebuild_topo`: recompute `topo_order`, emit
`CYCLE_DETECTED` for every node left out (only when some node is left
out). -/
def EngineGraph.rebuild_topo (g : EngineGraph) :
    EngineGraph × List Diagnostic :=
  let in_degree := g.inDegree
  let order := kahnTopo in_degree
    (fun id => ((lookupA g.out_adj id).getD []).map (fun r => r.2.1))
  let diags :=
    if order.length < g.nodes.length then
      (g.nodes.filter (fun p => decide (p.1 ∉ order))).map
        (fun p => cycleDiag p.1)
    else []
  ({ g with topo_order := order }, diags)

-- ── The dirty-evaluation loop ───────────────────────────────────────

/-- Gather a node's inputs from `in_adj` and the cached `values`
(graph.rs): rows are `(edge_id, source_id, source_handle, target_handle)`;
sources without a cached value contribute nothing; a later row on the same
target handle overwrites an earlier one. -/
def gatherInputs (in_adj : List (String × List (String × String × String × String)))
    (values : List (String × Value)) (node_id : String) :
    List (String × Value) :=
  ((lookupA in_adj node_id).getD []).foldl (fun acc r =>
    match lookupA values r.2.1 with
    | some val => insertA acc r.2.2.2 val
    | none => acc) []

/-- Apply `portOverrides` / `manualValues` (identical code in graph.rs and
eval.rs): a manual value fills a port with no edge value, and replaces an
edge value when the port's override flag is true. -/
def applyManuals (data : NodeData) (node_inputs : List (String × Value)) :
    List (String × Value) :=
  data.manualValues.foldl (fun acc pv =>
    let is_overridden := (lookupA data.portOverrides pv.1).getD false
    if !containsA acc pv.1 || is_overridden then
      insertA acc pv.1 (Value.scalar pv.2)
    else acc) node_inputs

/-- Mutable accumulator of the `evaluate_dirty_with_callback` loop. -/
structure LoopAcc where
  changed_values : List (String × Value)
  diagnostics : List Diagnostic
  trace : List TraceEntry
  evaluated_count : Nat
  isPartial : Bool
deriving DecidableEq

/-- The per-node body of the `evaluate_dirty_with_callback` walk (graph.rs),
for a node already removed from `dirty` and found in `nodes`: gather and
override inputs, dispatch, count, record trace and `UNKNOWN_BLOCK`
diagnostics, store the output, and prune downstream when the output is
bit-identical to the cached value. -/
def processNode (E : Dispatch) (opts : EvalOptions) (node : NodeDef)
    (node_id : String) (g : EngineGraph) (acc : LoopAcc) :
    EngineGraph × LoopAcc :=
  let node_inputs :=
    applyManuals node.data (gatherInputs g.in_adj g.values node_id)
  let result := E node.block_type node_inputs node.data g.datasets
  let acc := { acc with evaluated_count := acc.evaluated_count + 1 }
  let acc :=
    if opts.trace then
      let within_limit :=
        match opts.max_trace_nodes with
        | some mx => decide (acc.trace.length < mx)
        | none => true
      if within_limit then
        { acc with trace := acc.trace ++
          [{ node_id := node_id, op_id := node.block_type,
             inputs := node_inputs.map (fun p => (p.1, p.2.summarize)),
             output := result.summarize, diagnostics := [] }] }
      else acc
    else acc
  let acc : LoopAcc :=
    match result with
    | .error message =>
        if message.startsWith "Unknown block type" then
          { acc with diagnostics := acc.diagnostics ++
            [{ node_id := some node_id, level := .Warning,
               code := "UNKNOWN_BLOCK", message := message }] }
        else acc
    | _ => acc
  let value_changed :=
    match lookupA g.values node_id with
    | some old => !values_equal old result
    | none => true
  let g := { g with values := insertA g.values node_id result }
  let acc := { acc with
    changed_values := insertA acc.changed_values node_id result }
  let g := if value_changed then g else g.prune_downstream node_id
  (g, acc)

/-- The walk of `evaluate_dirty_with_callback` over `topo_order` (graph.rs):
skip clean ids, un-dirty and process dirty ones (`processNode`), and stop
— leaving the remaining dirty marks — when the progress callback returns
`Abort`.  The `FnMut` callback is modelled as a pure function of its
`(evaluated_count, dirty_count)` arguments. -/
def evalDirtyGo (E : Dispatch) (opts : EvalOptions)
    (cb : Nat → Nat → EvalSignal) (dirty_count : Nat) :
    List String → EngineGraph → LoopAcc → EngineGraph × LoopAcc
  | [], g, acc => (g, acc)
  | node_id :: rest, g, acc =>
      if node_id ∉ g.dirty then evalDirtyGo E opts cb dirty_count rest g acc
      else
        match lookupA g.nodes node_id with
        | none =>
            evalDirtyGo E opts cb dirty_count rest
              { g with dirty := removeS g.dirty node_id } acc
        | some node =>
            if cb (processNode E opts node node_id
                    { g with dirty := removeS g.dirty node_id } acc).2.evaluated_count
                  dirty_count == EvalSignal.Abort then
              ((processNode E opts node node_id
                  { g with dirty := removeS g.dirty node_id } acc).1,
               { (processNode E opts node node_id
                    { g with dirty := removeS g.dirty node_id } acc).2 with
                 isPartial := true })
            else
              evalDirtyGo E opts cb dirty_count rest
                (processNode E opts node node_id
                  { g with dirty := removeS g.dirty node_id } acc).1
                (processNode E opts node node_id
                  { g with dirty := removeS g.dirty node_id } acc).2

/-- `EngineGraph::evaluate_dirty_with_callback` (graph.rs); `elapsed_us` is
set by the caller in the source and fixed at 0 here. -/
def EngineGraph.evaluate_dirty_with_callback (E : Dispatch) (g : EngineGraph)
    (opts : EvalOptions) (cb : Nat → Nat → EvalSignal) :
    EngineGraph × IncrementalEvalResult :=
  let rebuilt :=
    if g.topo_dirty then
      let gd := g.rebuild_topo
      ({ gd.1 with topo_dirty := false }, gd.2)
    else (g, [])
  let g0 := rebuilt.1
  let total_count := g0.nodes.length
  let dirty_count := g0.dirty.length
  let out := evalDirtyGo E opts cb dirty_count g0.topo_order g0
    { changed_values := [], diagnostics := rebuilt.2, trace := [],
      evaluated_count := 0, isPartial := false }
  (out.1,
   { changed_values := out.2.changed_values,
     diagnostics := out.2.diagnostics,
     elapsed_us := 0,
     evaluated_count := out.2.evaluated_count,
     total_count := total_count,
     trace := if opts.trace then some out.2.trace else none,
     isPartial := out.2.isPartial })

/-- `EngineGraph::evaluate_dirty_with_options`. -/
def EngineGraph.evaluate_dirty_with_options (E : Dispatch) (g : EngineGraph)
    (opts : EvalOptions) : EngineGraph × IncrementalEvalResult :=
  g.evaluate_dirty_with_callback E opts (fun _ _ => EvalSignal.Continue)

/-- `EngineGraph::evaluate_dirty`. -/
def EngineGraph.evaluate_dirty (E : Dispatch) (g : EngineGraph) :
    EngineGraph × IncrementalEvalResult :=
  g.evaluate_dirty_with_options E {}

-- ════════════════════════════════════════════════════════════════════
-- §6  eval.rs: stateless full-graph evaluation
-- ════════════════════════════════════════════════════════════════════

/-- `in_edges` of eval.rs: target → [(source, source_handle, target_handle)],
accumulated over the snapshot's edge list. -/
def statelessInEdges (edges : List EdgeDef) :
    List (String × List (String × String × String)) :=
  edges.foldl (fun m e =>
    pushAdj m e.target (e.source, e.source_handle, e.target_handle)) []

/-- `in_degree` of eval.rs: `or_insert(0)` per node, a bump per edge. -/
def statelessInDegree (snapshot : EngineSnapshotV1) : List (String × Nat) :=
  let base := snapshot.nodes.foldl (fun m n => orInsertA m n.id 0) []
  snapshot.edges.foldl (fun m e => bumpA m e.target) base

/-- `out_adj` of eval.rs: `or_default()` per node, then a pushed target per
edge. -/
def statelessOutAdj (snapshot : EngineSnapshotV1) :
    List (String × List String) :=
  let base := snapshot.nodes.foldl (fun m n => entryOrDefault m n.id) []
  snapshot.edges.foldl (fun m e => pushAdj m e.source e.target) base

/-- Gather a node's inputs in eval.rs: same walk as `gatherInputs` but over
the `(source, source_handle, target_handle)` triples of `in_edges`. -/
def gatherStateless (in_edges : List (String × List (String × String × String)))
    (values : List (String × Value)) (node_id : String) :
    List (String × Value) :=
  ((lookupA in_edges node_id).getD []).foldl (fun acc r =>
    match lookupA values r.1 with
    | some val => insertA acc r.2.2 val
    | none => acc) []

/-- The evaluation walk of eval.rs over the topological order: node lookup,
input gathering, manual/override application, `evaluate_node` (no dataset
registry), `UNKNOWN_BLOCK` reporting, value store. -/
def evalStatelessGo (E : Dispatch)
    (node_map : List (String × NodeDef))
    (in_edges : List (String × List (String × String × String))) :
    List String → List (String × Value) × List Diagnostic →
    List (String × Value) × List Diagnostic
  | [], acc => acc
  | node_id :: rest, acc =>
      match lookupA node_map node_id with
      | none => evalStatelessGo E node_map in_edges rest acc
      | some node =>
          let node_inputs :=
            applyManuals node.data (gatherStateless in_edges acc.1 node_id)
          let result := E node.block_type node_inputs node.data []
          let diags :=
            match result with
            | .error message =>
                if message.startsWith "Unknown block type" then
                  acc.2 ++ [{ node_id := some node_id, level := .Warning,
                              code := "UNKNOWN_BLOCK", message := message }]
                else acc.2
            | _ => acc.2
          evalStatelessGo E node_map in_edges rest
            (insertA acc.1 node_id result, diags)

/-- `evaluate` (eval.rs): Kahn's topological sort over the snapshot, cycle
diagnostics for the nodes left out, then a single evaluation pass.
`elapsed_us` is the caller's concern and fixed to 0, as in the source. -/
def evaluate (E : Dispatch) (snapshot : EngineSnapshotV1) : EvalResult :=
  let in_edges := statelessInEdges snapshot.edges
  let in_degree := statelessInDegree snapshot
  let out_adj := statelessOutAdj snapshot
  let topo := kahnTopo in_degree (fun id => (lookupA out_adj id).getD [])
  let cycle_diags :=
    if topo.length < snapshot.nodes.length then
      (snapshot.nodes.filter (fun n => decide (n.id ∉ topo))).map
        (fun n => cycleDiag n.id)
    else []
  let node_map := snapshot.nodes.foldl (fun m n => insertA m n.id n) []
  let out := evalStatelessGo E node_map in_edges topo ([], cycle_diags)
  { values := out.1, diagnostics := out.2, elapsed_us := 0, trace := none,
    isPartial := false }

-- ════════════════════════════════════════════════════════════════════
-- §7  validate.rs and the lib.rs entry facade
-- ════════════════════════════════════════════════════════════════════

/-- The per-edge dangling checks of `validate` (validate.rs): a
`DANGLING_EDGE` diagnostic per missing endpoint, source first. -/
def validateStep (node_ids : List String) (ds : List Diagnostic)
    (e : EdgeDef) : List Diagnostic :=
  let ds1 :=
    if e.source ∉ node_ids then
      ds ++ [{ node_id := none, level := .Error,
               code := ErrorCode.DanglingEdge.as_str,
               message := "Edge " ++ e.id
                 ++ " references missing source node " ++ e.source }]
    else ds
  if e.target ∉ node_ids then
    ds1 ++ [{ node_id := none, level := .Error,
              code := ErrorCode.DanglingEdge.as_str,
              message := "Edge " ++ e.id
                ++ " references missing target node " ++ e.target }]
  else ds1

/-- The diagnostics `validate` collects over the snapshot's edges. -/
def validateDiags (snapshot : EngineSnapshotV1) : List Diagnostic :=
  snapshot.edges.foldl
    (validateStep (snapshot.nodes.map (fun n => n.id))) []

/-- `validate` (validate.rs): fatal on version ≠ 1, a `DANGLING_EDGE`
diagnostic per missing endpoint.  (The source's messages quote the ids;
the model omits the quote characters.) -/
def validate (snapshot : EngineSnapshotV1) :
    Except EngineError (List Diagnostic) :=
  if snapshot.version ≠ 1 then
    .error { code := .UnsupportedVersion,
             message := "Expected snapshot version 1, got "
               ++ toString snapshot.version }
  else
    .ok (validateDiags snapshot)

/-- `run` (lib.rs), from the parsed snapshot on (JSON parsing is the serde
boundary and outside the kernel): validate, evaluate, append the
validator's diagnostics to the evaluation's. -/
def run (E : Dispatch) (snapshot : EngineSnapshotV1) :
    Except EngineError EvalResult :=
  match validate snapshot with
  | .error e => .error e
  | .ok diags =>
      let result := evaluate E snapshot
      .ok { result with diagnostics := result.diagnostics ++ diags }

/-- `run_load_snapshot` (lib.rs), from the parsed snapshot on: validate
(keeping only the fatal error — the `Ok` diagnostics are discarded by the
`?` operator), load, full dirty evaluation, repackage as an `EvalResult`. -/
def run_load_snapshot (E : Dispatch) (g : EngineGraph)
    (snapshot : EngineSnapshotV1) :
    Except EngineError (EngineGraph × EvalResult) :=
  match validate snapshot with
  | .error e => .error e
  | .ok _ =>
      let g1 := g.load_snapshot snapshot
      let out := g1.evaluate_dirty E
      .ok (out.1,
        { values := out.2.changed_values,
          diagnostics := out.2.diagnostics,
          elapsed_us := out.2.elapsed_us,
          trace := out.2.trace,
          isPartial := out.2.isPartial })

/-- `run_patch` (lib.rs), from the parsed patch on. -/
def run_patch (E : Dispatch) (g : EngineGraph) (ops : List PatchOp) :
    EngineGraph × IncrementalEvalResult :=
  (g.apply_patch ops).evaluate_dirty E

/-- `run_set_input` (lib.rs). -/
def run_set_input (E : Dispatch) (g : EngineGraph) (node_id port_id : String)
    (value : F64) : EngineGraph × IncrementalEvalResult :=
  (g.set_input node_id port_id value).evaluate_dirty E

/-- The snapshot described by a persistent graph's current node and edge
maps — the formal meaning of `S ⊕ P` ("the patched snapshot") in the
incremental-vs-full claims. -/
def EngineGraph.toSnapshot (g : EngineGraph) : EngineSnapshotV1 :=
  { version := 1, nodes := g.nodes.map (fun p => p.2),
    edges := g.edges.map (fun p => p.2) }

-- ════════════════════════════════════════════════════════════════════
-- §8  Claim-level predicates and concrete fixtures
-- ════════════════════════════════════════════════════════════════════

/-- A bit pattern the canonicalizer may emit: NaN only with the canonical
payload, and never `-0.0`. -/
def F64.IsCanonical : F64 → Prop
  | .nan p => p = 0
  | .negZero => False
  | _ => True

/-- A `Value` is canonical when every scalar slot is (Error is opaque). -/
def Value.Canonical : Value → Prop
  | .scalar v => v.IsCanonical
  | .vector l => ∀ x ∈ l, x.IsCanonical
  | .table _ rows => ∀ row ∈ rows, ∀ x ∈ row, x.IsCanonical
  | .error _ => True

/-- The edge ids introduced by a patch's `AddEdge` ops. -/
def addEdgeIds (ops : List PatchOp) : List String :=
  ops.filterMap (fun op =>
    match op with
    | .addEdge e => some e.id
    | _ => none)

/-- A `number` node with a literal value. -/
def numNode (id : String) (v : ℚ) : NodeDef :=
  { id := id, block_type := "number", data := { value := some (F64.num v) } }

/-- A node with empty data. -/
def opNode (id bt : String) : NodeDef :=
  { id := id, block_type := bt, data := {} }

/-- Edge constructor shorthand. -/
def mkEdge (id s sh t th : String) : EdgeDef :=
  { id := id, source := s, source_handle := sh, target := t,
    target_handle := th }

/-- Scenario 1 of §8 of the spec: `3 + 4`. -/
def snap34 : EngineSnapshotV1 :=
  { version := 1,
    nodes := [numNode "n1" 3, numNode "n2" 4, opNode "n3" "add"],
    edges := [mkEdge "e1" "n1" "out" "n3" "a",
              mkEdge "e2" "n2" "out" "n3" "b"] }

/-- The dirty-pruning scenario of §8 of the spec: `add(3,4) → display`. -/
def snapDisp : EngineSnapshotV1 :=
  { version := 1,
    nodes := [numNode "n1" 3, numNode "n2" 4, opNode "add" "add",
              opNode "disp" "display"],
    edges := [mkEdge "e1" "n1" "out" "add" "a",
              mkEdge "e2" "n2" "out" "add" "b",
              mkEdge "e3" "add" "out" "disp" "value"] }

/-- `snapDisp` loaded and fully evaluated. -/
def dispLoaded : EngineGraph × IncrementalEvalResult :=
  (EngineGraph.new.load_snapshot snapDisp).evaluate_dirty
    evaluate_node_with_datasets

/-- `snapDisp` after re-updating the literal-3 node to the value 3 again. -/
def dispPatched : EngineGraph :=
  dispLoaded.1.apply_patch
    [PatchOp.updateNodeData "n1" { value := some (F64.num 3) }]

/-- The incremental evaluation after the no-change update. -/
def dispResult : EngineGraph × IncrementalEvalResult :=
  dispPatched.evaluate_dirty evaluate_node_with_datasets

/-- `number(5) → display`, the C2 failing input. -/
def snapND : EngineSnapshotV1 :=
  { version := 1,
    nodes := [numNode "n1" 5, opNode "disp" "display"],
    edges := [mkEdge "e1" "n1" "out" "disp" "value"] }

/-- `snapND` loaded and fully evaluated. -/
def ndLoaded : EngineGraph × IncrementalEvalResult :=
  (EngineGraph.new.load_snapshot snapND).evaluate_dirty
    evaluate_node_with_datasets

/-- `snapND` after `RemoveNode("n1")`. -/
def ndRemoved : EngineGraph :=
  ndLoaded.1.apply_patch [PatchOp.removeNode "n1"]

/-- C1 counterexample snapshot: `a=1, b=2, t=display`, edge `e1 : a→t.value`. -/
def snapC1 : EngineSnapshotV1 :=
  { version := 1,
    nodes := [numNode "a" 1, numNode "b" 2, opNode "t" "display"],
    edges := [mkEdge "e1" "a" "out" "t" "value"] }

/-- C1 counterexample patch: re-uses the live edge id `e1`. -/
def patchC1 : List PatchOp :=
  [PatchOp.addEdge (mkEdge "e1" "b" "out" "t" "other")]

/-- C1 counterexample: load, patch, evaluate once. -/
def graphC1 : EngineGraph :=
  (EngineGraph.new.load_snapshot snapC1).apply_patch patchC1

/-- C3 counterexample snapshot: two edges share the id `e1`; the second
(`b → t`) wins the edge map but the first (`a → t`) survives in the
adjacency lists, and `b` sits on a cycle. -/
def snapC3 : EngineSnapshotV1 :=
  { version := 1,
    nodes := [numNode "a" 1, opNode "b" "add", opNode "c" "add",
              opNode "t" "display"],
    edges := [mkEdge "e1" "a" "out" "t" "value",
              mkEdge "e1" "b" "out" "t" "value",
              mkEdge "e2" "b" "out" "c" "a",
              mkEdge "e3" "c" "out" "b" "a"] }

/-- Five-node negate chain (the cancellation scenario of §8 of the spec). -/
def snapChain : EngineSnapshotV1 :=
  { version := 1,
    nodes := [numNode "n1" 1, opNode "g1" "negate", opNode "g2" "negate",
              opNode "g3" "negate", opNode "g4" "negate"],
    edges := [mkEdge "e1" "n1" "out" "g1" "a",
              mkEdge "e2" "g1" "out" "g2" "a",
              mkEdge "e3" "g2" "out" "g3" "a",
              mkEdge "e4" "g3" "out" "g4" "a"] }

/-- A version-1 snapshot with a dangling edge target. -/
def snapDangle : EngineSnapshotV1 :=
  { version := 1,
    nodes := [numNode "n1" 1],
    edges := [mkEdge "e1" "n1" "out" "missing" "value"] }

/-- The progress callback that aborts once `k` nodes have been evaluated
(the model of "abort point k"). -/
def abortAfter (k : Nat) : Nat → Nat → EvalSignal :=
  fun evaluated _ => if k ≤ evaluated then .Abort else .Continue

/-- The all-`Continue` progress callback (the default of
`evaluate_dirty`). -/
def contCB : Nat → Nat → EvalSignal := fun _ _ => EvalSignal.Continue

/-- A fresh engine with snapshot `S` loaded (`load_snapshot` from `new`). -/
def loadedGraph (S : EngineSnapshotV1) : EngineGraph :=
  EngineGraph.new.load_snapshot S

/-- The loaded graph right after `evaluate_dirty`'s lazy topo rebuild. -/
def rebuiltGraph (S : EngineSnapshotV1) : EngineGraph :=
  { (loadedGraph S).rebuild_topo.1 with topo_dirty := false }

/-- The loop accumulator right after the rebuild (its diagnostics). -/
def rebuildAcc (S : EngineSnapshotV1) : LoopAcc :=
  { changed_values := [], diagnostics := (loadedGraph S).rebuild_topo.2,
    trace := [], evaluated_count := 0, isPartial := false }

/-- The empty loop accumulator (a second `evaluate_dirty` call starts from
it, since its topo order is already valid). -/
def zeroAcc : LoopAcc :=
  { changed_values := [], diagnostics := [], trace := [],
    evaluated_count := 0, isPartial := false }

/-- Equality of every `EngineGraph` field except `values` and `dirty` (the
evaluation loop touches only those two). -/
def FrameEq (g g' : EngineGraph) : Prop :=
  g'.nodes = g.nodes ∧ g'.edges = g.edges ∧ g'.out_adj = g.out_adj ∧
  g'.in_adj = g.in_adj ∧ g'.topo_order = g.topo_order ∧
  g'.topo_dirty = g.topo_dirty ∧ g'.datasets = g.datasets

/-- The key list of an association map. -/
def keysA {α : Type} (m : List (String × α)) : List String :=
  m.map (fun p => p.1)

/-- The `out_adj` rows demanded by the edge map: one
`(edge_id, target, target_handle)` row per edge with source `k`, in map
order. -/
def outRowsA (edges : List (String × EdgeDef)) (k : String) :
    List (String × String × String) :=
  (edges.filter (fun p => p.2.source == k)).map
    (fun p => (p.1, p.2.target, p.2.target_handle))

/-- The `in_adj` rows demanded by the edge map: one
`(edge_id, source, source_handle, target_handle)` row per edge with
target `k`, in map order. -/
def inRowsA (edges : List (String × EdgeDef)) (k : String) :
    List (String × String × String × String) :=
  (edges.filter (fun p => p.2.target == k)).map
    (fun p => (p.1, p.2.source, p.2.source_handle, p.2.target_handle))

/-- Well-formedness of an engine graph that has been loaded from a
snapshot with pairwise-distinct edge ids and patched with fresh `AddEdge`
ids, but not yet evaluated: empty value cache and dataset registry, a
pending topo rebuild, key-coherent node and edge maps, adjacency lists
that mirror the edge map exactly (no phantom rows), and a dirty set
covering every node. -/
structure Wf (g : EngineGraph) : Prop where
  values_nil : g.values = []
  datasets_nil : g.datasets = []
  topo_dirty_true : g.topo_dirty = true
  nodes_keyed : ∀ p ∈ g.nodes, p.2.id = p.1
  nodes_nodup : (keysA g.nodes).Nodup
  edges_keyed : ∀ p ∈ g.edges, p.2.id = p.1
  edges_nodup : (keysA g.edges).Nodup
  out_fid : ∀ k, ((lookupA g.out_adj k).getD []) = outRowsA g.edges k
  in_fid : ∀ k, ((lookupA g.in_adj k).getD []) = inRowsA g.edges k
  dirty_sup : ∀ p ∈ g.nodes, p.1 ∈ g.dirty

def loadNodesFold (ns : List NodeDef) (acc : EngineGraph) : EngineGraph :=
  ns.foldl (fun acc node =>
    { acc with
      dirty := (insertS acc.dirty node.id).1,
      out_adj := entryOrDefault acc.out_adj node.id,
      in_adj := entryOrDefault acc.in_adj node.id,
      nodes := insertA acc.nodes node.id node }) acc

def loadEdgesFold (es : List EdgeDef) (acc : EngineGraph) : EngineGraph :=
  es.foldl (fun acc edge =>
    let acc1 := acc.add_edge_internal edge
    { acc1 with edges := insertA acc1.edges edge.id edge }) acc

/-- The edge-removal core shared by the `RemoveEdge` and `RemoveNode` arms
of `apply_patch` (graph.rs): drop the edge's adjacency rows, then its edge
map entry. -/
def eraseEdgeCore (g : EngineGraph) (eid : String) : EngineGraph :=
  let g1 := g.remove_edge_internal eid
  { g1 with edges := eraseA g1.edges eid }

/-- The edge-addition core of the `AddEdge` arm of `apply_patch`
(graph.rs): push the adjacency rows, then the edge map entry. -/
def addEdgeCore (g : EngineGraph) (edge : EdgeDef) : EngineGraph :=
  let g1 := g.add_edge_internal edge
  { g1 with edges := insertA g1.edges edge.id edge }

/-- The engine graph right after the lazy topo rebuild inside
`evaluate_dirty_with_callback`. -/
def rebuiltOf (g : EngineGraph) : EngineGraph :=
  { (g.rebuild_topo).1 with topo_dirty := false }

/-- The diagnostics the topo rebuild contributes. -/
def rebuildDiags (g : EngineGraph) : List Diagnostic :=
  (g.rebuild_topo).2

/-- The dispatch result for one node of the incremental loop (the
`evaluate_node_with_datasets` call of graph.rs spelt out). -/
def nodeResult (E : Dispatch) (node : NodeDef) (id : String)
    (g : EngineGraph) : Value :=
  E node.block_type (applyManuals node.data (gatherInputs g.in_adj g.values id))
    node.data g.datasets

/-- `g'` agrees with `g` on every field except that it may carry fewer
dirty marks (the effect of `prune_downstream`). -/
def Shrinks (g g' : EngineGraph) : Prop :=
  g'.nodes = g.nodes ∧ g'.edges = g.edges ∧ g'.out_adj = g.out_adj ∧
  g'.in_adj = g.in_adj ∧ g'.topo_order = g.topo_order ∧
  g'.values = g.values ∧ g'.topo_dirty = g.topo_dirty ∧
  g'.datasets = g.datasets ∧ ∀ t ∈ g'.dirty, t ∈ g.dirty

/-- The diagnostic codes `evaluate_dirty` can emit. -/
def DiagOk (d : Diagnostic) : Prop :=
  d.code = "CYCLE_DETECTED" ∨ d.code = "UNKNOWN_BLOCK"

/-- Dirty-set invariant of the evaluation walk: every dirty id is either
still ahead in the walk (`rest`) or has an in-parent that is itself dirty
and outside the topological order (a cycle-side parent), so it can never
be pruned while stale. -/
@[reducible]
def DirtyInv (inA : List (String × List (String × String × String × String)))
    (topoFull rest dirty : List String) : Prop :=
  ∀ t ∈ dirty, t ∈ rest ∨ ∃ row ∈ (lookupA inA t).getD [],
    row.2.1 ∈ dirty ∧ row.2.1 ∉ topoFull

/-- The `UNKNOWN_BLOCK` diagnostic emitted for one node. -/
def unknownDiag (id msg : String) : Diagnostic :=
  { node_id := some id, level := .Warning, code := "UNKNOWN_BLOCK",
    message := msg }

/-- The diagnostics one `processNode` step appends. -/
def unknownExtra (id : String) : Value → List Diagnostic
  | .error message =>
      if message.startsWith "Unknown block type" then [unknownDiag id message]
      else []
  | _ => []

/-- The trace entries one `processNode` step appends. -/
def traceExtra (opts : EvalOptions) (node : NodeDef) (id : String)
    (node_inputs : List (String × Value)) (result : Value) (curLen : Nat) :
    List TraceEntry :=
  if opts.trace then
    if (match opts.max_trace_nodes with
        | some mx => decide (curLen < mx)
        | none => true) then
      [{ node_id := id, op_id := node.block_type,
         inputs := node_inputs.map (fun p => (p.1, p.2.summarize)),
         output := result.summarize, diagnostics := [] }]
    else []
  else []

-- ════════════════════════════════════════════════════════════════════
-- §9  Value-algebra lemmas and the ops-layer claims (C5, C6, C7)
-- ════════════════════════════════════════════════════════════════════

theorem canonicalize_value_scalar (v : F64) :
    canonicalize_value (.scalar v) = .scalar (canonicalize v) := rfl

theorem canonicalize_value_vector (l : List F64) :
    canonicalize_value (.vector l) = .vector (l.map canonicalize) := rfl

theorem canonicalize_isCanonical (v : F64) : (canonicalize v).IsCanonical := by
  cases v <;> simp [canonicalize, F64.IsCanonical]

theorem canonicalize_value_canonical (x : Value) :
    (canonicalize_value x).Canonical := by
  cases x with
  | scalar v => exact canonicalize_isCanonical v
  | vector l =>
      intro y hy
      obtain ⟨x, -, rfl⟩ := List.mem_map.1 hy
      exact canonicalize_isCanonical x
  | table cols rows =>
      intro row hrow y hy
      obtain ⟨r, -, rfl⟩ := List.mem_map.1 hrow
      obtain ⟨x, -, rfl⟩ := List.mem_map.1 hy
      exact canonicalize_isCanonical x
  | error m => trivial

theorem canonicalize_id {v : F64} (h1 : v.isNan = false) (h2 : v ≠ F64.negZero) :
    canonicalize v = v := by
  cases v <;> simp_all [F64.isNan, canonicalize]

-- Bridge equations (definitional) from `evaluate_node` to the broadcast
-- kernels, used to keep the op proofs independent of string-match
-- reduction inside tactics.

theorem eval_add_def (i : List (String × Value)) (d : NodeData) :
    evaluate_node "add" i d = canonicalize_value (binary_broadcast i F64.add) := rfl

theorem eval_multiply_def (i : List (String × Value)) (d : NodeData) :
    evaluate_node "multiply" i d = canonicalize_value (binary_broadcast i F64.mul) := rfl

theorem eval_max_def (i : List (String × Value)) (d : NodeData) :
    evaluate_node "max" i d = canonicalize_value (binary_broadcast i F64.max) := rfl

theorem eval_min_def (i : List (String × Value)) (d : NodeData) :
    evaluate_node "min" i d = canonicalize_value (binary_broadcast i F64.min) := rfl

theorem eval_greater_def (i : List (String × Value)) (d : NodeData) :
    evaluate_node "greater" i d = canonicalize_value (binary_broadcast i
      (fun a b => if F64.lt b a then F64.num 1 else F64.num 0)) := rfl

theorem eval_less_def (i : List (String × Value)) (d : NodeData) :
    evaluate_node "less" i d = canonicalize_value (binary_broadcast i
      (fun a b => if F64.lt a b then F64.num 1 else F64.num 0)) := rfl

theorem eval_equal_def (i : List (String × Value)) (d : NodeData) :
    evaluate_node "equal" i d = canonicalize_value (binary_broadcast i
      (fun a b => if F64.lt (F64.abs (F64.sub a b)) F64.epsilon then F64.num 1
        else F64.num 0)) := rfl

theorem eval_ifthenelse_def (i : List (String × Value)) (d : NodeData) :
    evaluate_node "ifthenelse" i d = canonicalize_value (.scalar
      (if F64.ne (scalar_or_nan i "cond") (F64.num 0) then
        scalar_or_nan i "then" else scalar_or_nan i "else")) := rfl

theorem binary_scalar_scalar (f : F64 → F64 → F64) (a b : F64) :
    binary_broadcast [("a", .scalar a), ("b", .scalar b)] f = .scalar (f a b) := rfl

theorem binary_scalar_vector (f : F64 → F64 → F64) (s : F64) (v : List F64) :
    binary_broadcast [("a", .scalar s), ("b", .vector v)] f =
      .vector (v.map (fun x => f s x)) := rfl

theorem binary_vector_scalar (f : F64 → F64 → F64) (s : F64) (v : List F64) :
    binary_broadcast [("a", .vector v), ("b", .scalar s)] f =
      .vector (v.map (fun x => f x s)) := rfl

-- Commutativity of the scalar kernels after canonicalization.

theorem canon_add_comm (x y : F64) :
    canonicalize (F64.add x y) = canonicalize (F64.add y x) := by
  cases x <;> cases y <;> simp [F64.add, canonicalize] <;> ring_nf

theorem canon_mul_comm (x y : F64) :
    canonicalize (F64.mul x y) = canonicalize (F64.mul y x) := by
  cases x with
  | nan p => cases y <;> simp [F64.mul, canonicalize]
  | negZero =>
      cases y <;> simp [F64.mul, canonicalize] <;> split_ifs <;>
        simp [canonicalize]
  | num a =>
      cases y with
      | nan q => simp [F64.mul, canonicalize]
      | negZero => simp [F64.mul, canonicalize]
      | num b =>
          by_cases h : a = 0 ∨ b = 0
          · have h' : b = 0 ∨ a = 0 := h.symm
            simp only [F64.mul, if_pos h, if_pos h']
            split_ifs <;> simp [canonicalize]
          · have h' : ¬(b = 0 ∨ a = 0) := fun hc => h hc.symm
            simp only [F64.mul, if_neg h, if_neg h']
            rw [mul_comm]
      | inf => simp [F64.mul, canonicalize]
      | negInf => simp [F64.mul, canonicalize]
  | inf => cases y <;> simp [F64.mul, canonicalize]
  | negInf => cases y <;> simp [F64.mul, canonicalize]

theorem lt_asymm_canon {x y : F64} (hx : x.isNan = false) (hy : y.isNan = false)
    (h1 : F64.lt x y = false) (h2 : F64.lt y x = false) :
    canonicalize x = canonicalize y := by
  cases x <;> cases y <;>
    simp_all [F64.lt, F64.ext?, F64.Ext.ltE, F64.isNan, canonicalize] <;>
    linarith

theorem canon_max_comm (x y : F64) :
    canonicalize (F64.max x y) = canonicalize (F64.max y x) := by
  cases hx : x.isNan with
  | true =>
      cases x <;> simp_all [F64.isNan]
      cases y <;> simp [F64.max, canonicalize]
  | false =>
      cases hy : y.isNan with
      | true =>
          cases y <;> simp_all [F64.isNan]
          cases x <;> simp_all [F64.isNan, F64.max, canonicalize]
      | false =>
          have hmx : F64.max x y = if F64.lt x y then y else x := by
            cases x <;> cases y <;> simp_all [F64.isNan, F64.max]
          have hmy : F64.max y x = if F64.lt y x then x else y := by
            cases x <;> cases y <;> simp_all [F64.isNan, F64.max]
          rw [hmx, hmy]
          cases h1 : F64.lt x y with
          | true =>
              have h2 : F64.lt y x = false := by
                cases x <;> cases y <;>
                  simp_all [F64.lt, F64.ext?, F64.Ext.ltE] <;> linarith
              simp [h2]
          | false =>
              cases h2 : F64.lt y x with
              | true => simp
              | false => simpa using lt_asymm_canon hx hy h1 h2

theorem canon_min_comm (x y : F64) :
    canonicalize (F64.min x y) = canonicalize (F64.min y x) := by
  cases hx : x.isNan with
  | true =>
      cases x <;> simp_all [F64.isNan]
      cases y <;> simp [F64.min, canonicalize]
  | false =>
      cases hy : y.isNan with
      | true =>
          cases y <;> simp_all [F64.isNan]
          cases x <;> simp_all [F64.isNan, F64.min, canonicalize]
      | false =>
          have hmx : F64.min x y = if F64.lt y x then y else x := by
            cases x <;> cases y <;> simp_all [F64.isNan, F64.min]
          have hmy : F64.min y x = if F64.lt x y then x else y := by
            cases x <;> cases y <;> simp_all [F64.isNan, F64.min]
          rw [hmx, hmy]
          cases h1 : F64.lt x y with
          | true =>
              have h2 : F64.lt y x = false := by
                cases x <;> cases y <;>
                  simp_all [F64.lt, F64.ext?, F64.Ext.ltE] <;> linarith
              simp [h1, h2]
          | false =>
              cases h2 : F64.lt y x with
              | true => simp [h1, h2]
              | false => simpa [h1, h2] using lt_asymm_canon hx hy h1 h2

theorem map_canon_comm (f : F64 → F64 → F64)
    (h : ∀ x y, canonicalize (f x y) = canonicalize (f y x)) (s : F64) :
    ∀ v : List F64,
      (v.map (fun x => f s x)).map canonicalize =
        (v.map (fun x => f x s)).map canonicalize
  | [] => rfl
  | a :: t => by
      simp only [List.map_cons]
      rw [h s a, map_canon_comm f h s t]

/-- C5: Every `Value` the engine produces at a node is canonical — in every
scalar slot a NaN has the single canonical `f64::NAN` bit pattern and
`-0.0` never appears — while every other f64 passes through the
canonicalizer unchanged and `Error` values are left opaque. -/
theorem claim_C5_canonical_values :
    (∀ (block_type : String) (inputs : List (String × Value)) (data : NodeData)
       (datasets : List (String × List F64)),
       Value.Canonical
         (evaluate_node_with_datasets block_type inputs data datasets)) ∧
    (∀ v : F64, v.isNan = false → v ≠ F64.negZero → canonicalize v = v) ∧
    (∀ m : String, canonicalize_value (.error m) = .error m) :=
  ⟨fun bt i d ds => canonicalize_value_canonical (evaluate_node_inner bt i d ds),
   fun _ h1 h2 => canonicalize_id h1 h2,
   fun _ => rfl⟩

/-- C6 counterexample: the `max` op does not return a 0.0/1.0 scalar —
`max(3,5)` evaluates to `Scalar(5.0)`, which is neither `0.0` nor `1.0`. -/
theorem counterexample_C6_max_not_boolean :
    evaluate_node "max"
      [("a", Value.scalar (F64.num 3)), ("b", Value.scalar (F64.num 5))]
      NodeData.empty = Value.scalar (F64.num 5) ∧
    (5 : ℚ) ≠ 0 ∧ (5 : ℚ) ≠ 1 := by
  refine ⟨?_, by norm_num, by norm_num⟩
  rfl

/-- C6 (amended): for scalar inputs, `greater`/`less`/`equal` return 0.0/1.0
scalars — 1.0 exactly when `a > b`, `a < b`, `|a − b| < f64::EPSILON`
respectively — while `max`/`min` return the (canonicalized) IEEE
maximum/minimum of the two inputs, and `ifthenelse` selects the `then`
input when `cond != 0` (IEEE `!=`, so a NaN condition selects `then`) and
the `else` input otherwise. -/
theorem claim_C6_logic_ops :
    (∀ a b : F64,
      evaluate_node "greater" [("a", .scalar a), ("b", .scalar b)] NodeData.empty
        = .scalar (if F64.lt b a then F64.num 1 else F64.num 0)) ∧
    (∀ a b : F64,
      evaluate_node "less" [("a", .scalar a), ("b", .scalar b)] NodeData.empty
        = .scalar (if F64.lt a b then F64.num 1 else F64.num 0)) ∧
    (∀ a b : F64,
      evaluate_node "equal" [("a", .scalar a), ("b", .scalar b)] NodeData.empty
        = .scalar (if F64.lt (F64.abs (F64.sub a b)) F64.epsilon then F64.num 1
            else F64.num 0)) ∧
    (∀ a b : F64,
      evaluate_node "max" [("a", .scalar a), ("b", .scalar b)] NodeData.empty
        = .scalar (canonicalize (F64.max a b))) ∧
    (∀ a b : F64,
      evaluate_node "min" [("a", .scalar a), ("b", .scalar b)] NodeData.empty
        = .scalar (canonicalize (F64.min a b))) ∧
    (∀ c t e : F64,
      evaluate_node "ifthenelse"
        [("cond", .scalar c), ("then", .scalar t), ("else", .scalar e)]
        NodeData.empty
        = .scalar (canonicalize (if F64.ne c (F64.num 0) then t else e))) := by
  refine ⟨fun a b => ?_, fun a b => ?_, fun a b => ?_, fun a b => ?_,
    fun a b => ?_, fun c t e => ?_⟩
  · rw [eval_greater_def, binary_scalar_scalar, canonicalize_value_scalar]
    cases hlt : F64.lt b a <;> simp [hlt, canonicalize]
  · rw [eval_less_def, binary_scalar_scalar, canonicalize_value_scalar]
    cases hlt : F64.lt a b <;> simp [hlt, canonicalize]
  · rw [eval_equal_def, binary_scalar_scalar, canonicalize_value_scalar]
    cases hlt : F64.lt (F64.abs (F64.sub a b)) F64.epsilon <;>
      simp [hlt, canonicalize]
  · rw [eval_max_def, binary_scalar_scalar, canonicalize_value_scalar]
  · rw [eval_min_def, binary_scalar_scalar, canonicalize_value_scalar]
  · rw [eval_ifthenelse_def, canonicalize_value_scalar]
    rfl

/-- C7: broadcast `add`, `multiply`, `max`, `min` commute bitwise between a
Scalar and a Vector operand: evaluating with inputs `(s, v)` and `(v, s)`
produces bit-identical Vectors. -/
theorem claim_C7_broadcast_commutativity (s : F64) (v : List F64) :
    (evaluate_node "add" [("a", .scalar s), ("b", .vector v)] NodeData.empty =
      evaluate_node "add" [("a", .vector v), ("b", .scalar s)] NodeData.empty) ∧
    (evaluate_node "multiply" [("a", .scalar s), ("b", .vector v)] NodeData.empty =
      evaluate_node "multiply" [("a", .vector v), ("b", .scalar s)] NodeData.empty) ∧
    (evaluate_node "max" [("a", .scalar s), ("b", .vector v)] NodeData.empty =
      evaluate_node "max" [("a", .vector v), ("b", .scalar s)] NodeData.empty) ∧
    (evaluate_node "min" [("a", .scalar s), ("b", .vector v)] NodeData.empty =
      evaluate_node "min" [("a", .vector v), ("b", .scalar s)] NodeData.empty) := by
  refine ⟨?_, ?_, ?_, ?_⟩
  · rw [eval_add_def, eval_add_def, binary_scalar_vector, binary_vector_scalar,
      canonicalize_value_vector, canonicalize_value_vector]
    exact congrArg Value.vector (map_canon_comm F64.add canon_add_comm s v)
  · rw [eval_multiply_def, eval_multiply_def, binary_scalar_vector,
      binary_vector_scalar, canonicalize_value_vector, canonicalize_value_vector]
    exact congrArg Value.vector (map_canon_comm F64.mul canon_mul_comm s v)
  · rw [eval_max_def, eval_max_def, binary_scalar_vector, binary_vector_scalar,
      canonicalize_value_vector, canonicalize_value_vector]
    exact congrArg Value.vector (map_canon_comm F64.max canon_max_comm s v)
  · rw [eval_min_def, eval_min_def, binary_scalar_vector, binary_vector_scalar,
      canonicalize_value_vector, canonicalize_value_vector]
    exact congrArg Value.vector (map_canon_comm F64.min canon_min_comm s v)

-- ════════════════════════════════════════════════════════════════════
-- §10  Loop infrastructure lemmas; claims C10, C2, C9
-- ════════════════════════════════════════════════════════════════════

theorem shrinks_self {g : EngineGraph} : Shrinks g g :=
  ⟨rfl, rfl, rfl, rfl, rfl, rfl, rfl, rfl, fun _ h => h⟩

theorem shrinks_trans {a b c : EngineGraph} (h1 : Shrinks a b)
    (h2 : Shrinks b c) : Shrinks a c := by
  obtain ⟨n1, e1, o1, i1, t1, v1, td1, d1, s1⟩ := h1
  obtain ⟨n2, e2, o2, i2, t2, v2, td2, d2, s2⟩ := h2
  exact ⟨n2.trans n1, e2.trans e1, o2.trans o1, i2.trans i1, t2.trans t1,
    v2.trans v1, td2.trans td1, d2.trans d1, fun t ht => s1 t (s2 t ht)⟩

theorem shrinks_removeS {g : EngineGraph} {x : String} :
    Shrinks g { g with dirty := removeS g.dirty x } :=
  ⟨rfl, rfl, rfl, rfl, rfl, rfl, rfl, rfl, by
    intro t ht
    simp only [removeS, List.mem_filter] at ht
    exact ht.1⟩

theorem foldl_shrinks {α : Type} (step : EngineGraph → α → EngineGraph)
    (hstep : ∀ g r, Shrinks g (step g r)) :
    ∀ (l : List α) (g : EngineGraph), Shrinks g (l.foldl step g)
  | [], _ => shrinks_self
  | r :: rs, g => shrinks_trans (hstep g r) (foldl_shrinks step hstep rs _)

theorem pruneGo_shrinks : ∀ (fuel : Nat) (g : EngineGraph) (x : String),
    Shrinks g (pruneGo fuel g x) := by
  intro fuel
  induction fuel with
  | zero => intro g x; exact shrinks_self
  | succ fuel ih =>
      intro g x
      rw [pruneGo]
      refine foldl_shrinks _ (fun g r => ?_) _ g
      dsimp only
      split
      · exact shrinks_trans shrinks_removeS (ih _ _)
      · exact shrinks_self

theorem processNode_acc (E : Dispatch) (opts : EvalOptions) (node : NodeDef)
    (id : String) (g : EngineGraph) (acc : LoopAcc) :
    (processNode E opts node id g acc).2 =
      { changed_values := insertA acc.changed_values id (nodeResult E node id g),
        diagnostics := acc.diagnostics
          ++ unknownExtra id (nodeResult E node id g),
        trace := acc.trace
          ++ traceExtra opts node id
              (applyManuals node.data (gatherInputs g.in_adj g.values id))
              (nodeResult E node id g) acc.trace.length,
        evaluated_count := acc.evaluated_count + 1,
        isPartial := acc.isPartial } := by
  simp only [processNode, nodeResult, unknownExtra, unknownDiag, traceExtra]
  repeat' split
  all_goals simp_all

theorem processNode_shrinks (E : Dispatch) (opts : EvalOptions)
    (node : NodeDef) (id : String) (g : EngineGraph) (acc : LoopAcc) :
    Shrinks { g with values := insertA g.values id (nodeResult E node id g) }
      (processNode E opts node id g acc).1 := by
  simp only [processNode, nodeResult]
  split
  · exact shrinks_self
  · exact pruneGo_shrinks _ _ _

theorem processNode_fresh (E : Dispatch) (opts : EvalOptions) (node : NodeDef)
    (id : String) (g : EngineGraph) (acc : LoopAcc)
    (h : lookupA g.values id = none) :
    (processNode E opts node id g acc).1
      = { g with values := insertA g.values id (nodeResult E node id g) } := by
  simp only [processNode, nodeResult, h]
  simp

theorem evalDirtyGo_diags (E : Dispatch) (opts : EvalOptions)
    (cb : Nat → Nat → EvalSignal) (dc : Nat) :
    ∀ (rest : List String) (g : EngineGraph) (acc : LoopAcc),
      (∀ d ∈ acc.diagnostics, DiagOk d) →
      ∀ d ∈ (evalDirtyGo E opts cb dc rest g acc).2.diagnostics, DiagOk d := by
  intro rest
  induction rest with
  | nil => intro g acc hacc; simpa [evalDirtyGo] using hacc
  | cons id rest ih =>
      intro g acc hacc
      have hstep : ∀ (g1 : EngineGraph) (node : NodeDef),
          ∀ d ∈ (processNode E opts node id g1 acc).2.diagnostics, DiagOk d := by
        intro g1 node d hd
        rw [processNode_acc] at hd
        simp only [List.mem_append] at hd
        rcases hd with hd | hd
        · exact hacc d hd
        · simp only [unknownExtra] at hd
          split at hd
          · split at hd
            · simp only [List.mem_singleton] at hd
              subst hd
              right; rfl
            · simp at hd
          · simp at hd
      rw [evalDirtyGo]
      split
      · exact ih _ _ hacc
      · split
        · exact ih _ _ hacc
        · rename_i node _
          split
          · intro d hd
            exact hstep _ node d hd
          · exact ih _ _ (hstep _ node)

theorem rebuild_diags_cycle (g : EngineGraph) :
    ∀ d ∈ g.rebuild_topo.2, d.code = "CYCLE_DETECTED" := by
  intro d hd
  simp only [EngineGraph.rebuild_topo] at hd
  split at hd
  · obtain ⟨p, -, rfl⟩ := List.mem_map.1 hd
    rfl
  · simp at hd

theorem evaluate_dirty_cb_diags (E : Dispatch) (opts : EvalOptions)
    (cb : Nat → Nat → EvalSignal) (g : EngineGraph) :
    ∀ d ∈ (g.evaluate_dirty_with_callback E opts cb).2.diagnostics, DiagOk d := by
  intro d hd
  simp only [EngineGraph.evaluate_dirty_with_callback] at hd
  refine evalDirtyGo_diags E opts cb _ _ _ _ ?_ d hd
  intro d' hd'
  split at hd'
  · exact Or.inl (rebuild_diags_cycle _ d' hd')
  · simp at hd'

/-- C10: mutating operations addressed at an unknown identifier are silent
no-ops — `UpdateNodeData` on a node id not in the graph, `RemoveEdge` on
an edge id not in the graph, and `set_input` on a node id not in the graph
leave the entire engine state unchanged (hence mark nothing dirty and
produce no error or diagnostic). -/
theorem claim_C10_unknown_id_noop (g : EngineGraph) :
    (∀ (node_id : String) (data : NodeData), lookupA g.nodes node_id = none →
      g.apply_patch [PatchOp.updateNodeData node_id data] = g) ∧
    (∀ edge_id : String, lookupA g.edges edge_id = none →
      g.apply_patch [PatchOp.removeEdge edge_id] = g) ∧
    (∀ (node_id port_id : String) (value : F64),
      lookupA g.nodes node_id = none →
      g.set_input node_id port_id value = g) := by
  refine ⟨fun nid d h => ?_, fun eid h => ?_, fun nid pid v h => ?_⟩
  · simp [EngineGraph.apply_patch, EngineGraph.applyOp, h]
  · simp [EngineGraph.apply_patch, EngineGraph.applyOp, h]
  · simp [EngineGraph.set_input, h]

theorem claim_C10_unknown_id_noop_witness :
    EngineGraph.new.apply_patch
      [PatchOp.updateNodeData "x" NodeData.empty] = EngineGraph.new ∧
    EngineGraph.new.apply_patch [PatchOp.removeEdge "e"] = EngineGraph.new ∧
    EngineGraph.new.set_input "x" "a" (F64.num 1) = EngineGraph.new :=
  ⟨(claim_C10_unknown_id_noop EngineGraph.new).1 "x" NodeData.empty rfl,
   (claim_C10_unknown_id_noop EngineGraph.new).2.1 "e" rfl,
   (claim_C10_unknown_id_noop EngineGraph.new).2.2 "x" "a" (F64.num 1) rfl⟩

/-- C2 (code bug): on the loaded graph `number(5) → display`,
`RemoveNode("n1")` removes the node, cascades the edge out of all maps and
drops the node's `values`/`dirty` entries — but, contrary to the module
documentation of graph.rs ("removes node + its edges, marks downstream
dirty") and to §4.6 of the spec, it marks nothing dirty: the dirty set is
empty afterwards, so the next `evaluate_dirty` evaluates nothing and the
removed input's stale value 5 survives at `disp`. -/
theorem claim_C2_removeNode_skips_marking :
    ndRemoved.dirty = [] ∧
    lookupA ndRemoved.nodes "n1" = none ∧
    ndRemoved.edges = [] ∧
    (lookupA ndRemoved.in_adj "disp").getD [] = [] ∧
    lookupA ndRemoved.values "n1" = none ∧
    ndRemoved.topo_dirty = true ∧
    (ndRemoved.evaluate_dirty evaluate_node_with_datasets).2.evaluated_count
      = 0 ∧
    lookupA ((ndRemoved.evaluate_dirty evaluate_node_with_datasets).1.values)
      "disp" = some (.scalar (F64.num 5)) := by
  decide

/-- C9: the persistent load entry point discards validation diagnostics —
for every graph and every version-1 snapshot, a successful
`run_load_snapshot` returns no `DANGLING_EDGE` diagnostic (its
`evaluate_dirty` diagnostics are only `CYCLE_DETECTED`/`UNKNOWN_BLOCK`),
even though the snapshot may contain dangling edges — whereas the
stateless `run` appends the validator's diagnostics, so a dangling edge
target yields a `DANGLING_EDGE` entry in its result. -/
theorem validateStep_mono (ids : List String) (d : Diagnostic) :
    ∀ (l : List EdgeDef) (acc : List Diagnostic), d ∈ acc →
      d ∈ l.foldl (validateStep ids) acc := by
  intro l
  induction l with
  | nil => intro acc h; simpa using h
  | cons e2 t2 ih2 =>
      intro acc h
      simp only [List.foldl_cons]
      refine ih2 _ ?_
      simp only [validateStep]
      split <;> split <;> simp [h]

theorem validateDiags_dangling_target (S : EngineSnapshotV1) (e : EdgeDef)
    (he : e ∈ S.edges) (hmiss : e.target ∉ S.nodes.map NodeDef.id) :
    ∃ d ∈ validateDiags S, d.code = "DANGLING_EDGE" := by
  rw [validateDiags]
  have : ∀ (l : List EdgeDef) (acc : List Diagnostic), e ∈ l →
      ∃ d ∈ l.foldl (validateStep (S.nodes.map (fun n => n.id))) acc,
        d.code = "DANGLING_EDGE" := by
    intro l
    induction l with
    | nil => intro acc h; simp at h
    | cons e1 t ih =>
        intro acc h
        rcases List.mem_cons.1 h with rfl | h
        · simp only [List.foldl_cons]
          refine ⟨{ node_id := none, level := .Error,
                    code := ErrorCode.DanglingEdge.as_str,
                    message := "Edge " ++ e.id
                      ++ " references missing target node " ++ e.target },
                  ?_, rfl⟩
          refine validateStep_mono _ _ t _ ?_
          simp only [validateStep]
          rw [if_pos (by simpa [NodeDef.id] using hmiss)]
          simp
        · simp only [List.foldl_cons]
          exact ih _ h
  exact this S.edges [] he

theorem claim_C9_load_discards_diagnostics (E : Dispatch) (g : EngineGraph)
    (S : EngineSnapshotV1) (hv : S.version = 1) :
    (∀ gr r, run_load_snapshot E g S = .ok (gr, r) →
      ∀ d ∈ r.diagnostics, d.code ≠ "DANGLING_EDGE") ∧
    (∀ r, run E S = .ok r → ∀ e ∈ S.edges,
      e.target ∉ S.nodes.map NodeDef.id →
      ∃ d ∈ r.diagnostics, d.code = "DANGLING_EDGE") := by
  have hval : validate S = .ok (validateDiags S) := by
    simp [validate, hv]
  constructor
  · intro gr r hok d hd
    rw [run_load_snapshot, hval] at hok
    simp only [Except.ok.injEq, Prod.mk.injEq] at hok
    obtain ⟨-, hr⟩ := hok
    subst hr
    have := evaluate_dirty_cb_diags E {} (fun _ _ => EvalSignal.Continue)
      (g.load_snapshot S) d hd
    rcases this with h | h <;> simp [h]
  · intro r hok e he hmiss
    rw [run, hval] at hok
    simp only [Except.ok.injEq] at hok
    subst hok
    obtain ⟨d, hd, hcode⟩ := validateDiags_dangling_target S e he hmiss
    exact ⟨d, by simp [hd], hcode⟩

theorem claim_C9_load_discards_diagnostics_witness :
    snapDangle.version = 1 ∧
    (∀ gr r, run_load_snapshot evaluate_node_with_datasets EngineGraph.new
        snapDangle = .ok (gr, r) →
      ∀ d ∈ r.diagnostics, d.code ≠ "DANGLING_EDGE") ∧
    (∀ r, run evaluate_node_with_datasets snapDangle = .ok r →
      ∃ d ∈ r.diagnostics, d.code = "DANGLING_EDGE") :=
  ⟨rfl,
   (claim_C9_load_discards_diagnostics evaluate_node_with_datasets
      EngineGraph.new snapDangle rfl).1,
   fun r hok =>
     (claim_C9_load_discards_diagnostics evaluate_node_with_datasets
        EngineGraph.new snapDangle rfl).2 r hok (mkEdge "e1" "n1" "out" "missing" "value")
       (by decide) (by decide)⟩

-- ════════════════════════════════════════════════════════════════════
-- §11  Dirty-set invariants and claim C8
-- ════════════════════════════════════════════════════════════════════

theorem foldl_pres {α β : Type} (P : β → Prop) (step : β → α → β)
    (hstep : ∀ b r, P b → P (step b r)) :
    ∀ (l : List α) (b : β), P b → P (l.foldl step b)
  | [], _, h => h
  | r :: rs, b, h => foldl_pres P step hstep rs _ (hstep b r h)

theorem dirtyInv_remove {inA topoFull rest dirty} {x : String}
    (hrest : ∀ y ∈ rest, y ∈ topoFull)
    (hclean : ∀ row ∈ (lookupA inA x).getD [], row.2.1 ∉ dirty)
    (hInv : DirtyInv inA topoFull rest dirty) :
    DirtyInv inA topoFull rest (removeS dirty x) := by
  intro t ht
  have ht' : t ∈ dirty ∧ t ≠ x := by
    simp only [removeS, List.mem_filter, decide_eq_true_eq] at ht
    exact ht
  rcases hInv t ht'.1 with h | ⟨row, hrow, hpd, hpo⟩
  · exact Or.inl h
  · right
    refine ⟨row, hrow, ?_, hpo⟩
    have hpx : row.2.1 ≠ x := by
      intro hpx
      rw [hpx] at hpd hpo
      rcases hInv x hpd with hx | ⟨row2, hrow2, hqd, -⟩
      · exact hpo (hrest x hx)
      · exact hclean row2 hrow2 hqd
    simp only [removeS, List.mem_filter, decide_eq_true_eq]
    exact ⟨hpd, hpx⟩

theorem allCleanOfCond {g1 : EngineGraph} {target : String}
    (h : (match lookupA g1.in_adj target with
          | some rows => rows.all (fun q => decide (q.2.1 ∉ g1.dirty))
          | none => true) = true) :
    ∀ row ∈ (lookupA g1.in_adj target).getD [], row.2.1 ∉ g1.dirty := by
  intro row hrow
  cases hl : lookupA g1.in_adj target with
  | none => simp [hl] at hrow
  | some rows =>
      rw [hl] at h hrow
      simp only [Option.getD_some] at hrow
      have := List.all_eq_true.1 h row hrow
      simpa using this

theorem pruneGo_in_adj (fuel : Nat) (g : EngineGraph) (x : String) :
    (pruneGo fuel g x).in_adj = g.in_adj :=
  (pruneGo_shrinks fuel g x).2.2.2.1

theorem pruneGo_dirtyInv
    (inA : List (String × List (String × String × String × String)))
    (topoFull rest : List String) (hrest : ∀ y ∈ rest, y ∈ topoFull) :
    ∀ (fuel : Nat) (g : EngineGraph) (x : String), g.in_adj = inA →
      DirtyInv inA topoFull rest g.dirty →
      DirtyInv inA topoFull rest (pruneGo fuel g x).dirty := by
  intro fuel
  induction fuel with
  | zero => intro g x _ h; exact h
  | succ fuel ih =>
      intro g x hA hInv
      rw [pruneGo]
      refine (foldl_pres
        (fun g1 : EngineGraph =>
          g1.in_adj = inA ∧ DirtyInv inA topoFull rest g1.dirty)
        _ (fun g1 r h1 => ?_) ((lookupA g.out_adj x).getD []) g ⟨hA, hInv⟩).2
      dsimp only
      split
      · rename_i hcond
        constructor
        · rw [pruneGo_in_adj]
          exact h1.1
        · refine ih _ _ h1.1 ?_
          refine dirtyInv_remove hrest ?_ h1.2
          rw [← h1.1]
          exact allCleanOfCond hcond
      · exact h1

theorem dirtyInv_pop {inA topoFull rest dirty} {id : String}
    (hid : id ∈ topoFull)
    (hInv : DirtyInv inA topoFull (id :: rest) dirty) :
    DirtyInv inA topoFull rest (removeS dirty id) := by
  intro t ht
  have ht' : t ∈ dirty ∧ t ≠ id := by
    simp only [removeS, List.mem_filter, decide_eq_true_eq] at ht
    exact ht
  rcases hInv t ht'.1 with h | ⟨row, hrow, hpd, hpo⟩
  · rcases List.mem_cons.1 h with rfl | h
    · exact absurd rfl ht'.2
    · exact Or.inl h
  · right
    refine ⟨row, hrow, ?_, hpo⟩
    have : row.2.1 ≠ id := fun he => hpo (he ▸ hid)
    simp only [removeS, List.mem_filter, decide_eq_true_eq]
    exact ⟨hpd, this⟩

theorem dirtyInv_skip {inA topoFull rest dirty} {id : String}
    (hid : id ∉ dirty)
    (hInv : DirtyInv inA topoFull (id :: rest) dirty) :
    DirtyInv inA topoFull rest dirty := by
  intro t ht
  rcases hInv t ht with h | h
  · rcases List.mem_cons.1 h with rfl | h
    · exact absurd ht hid
    · exact Or.inl h
  · exact Or.inr h

theorem processNode_dirtyInv (E : Dispatch) (opts : EvalOptions)
    (node : NodeDef) (id : String) (g : EngineGraph) (acc : LoopAcc)
    {inA topoFull rest} (hrest : ∀ y ∈ rest, y ∈ topoFull)
    (hA : g.in_adj = inA) (hInv : DirtyInv inA topoFull rest g.dirty) :
    (processNode E opts node id g acc).1.in_adj = inA ∧
    DirtyInv inA topoFull rest (processNode E opts node id g acc).1.dirty := by
  simp only [processNode]
  split
  · exact ⟨hA, hInv⟩
  · simp only [EngineGraph.prune_downstream]
    constructor
    · rw [pruneGo_in_adj]
      exact hA
    · exact pruneGo_dirtyInv inA topoFull rest hrest _ _ _ hA hInv

theorem evalDirtyGo_dirtyInv (E : Dispatch) (opts : EvalOptions) (dc : Nat)
    (inA : List (String × List (String × String × String × String)))
    (topoFull : List String) :
    ∀ (rest : List String) (g : EngineGraph) (acc : LoopAcc),
      (∀ y ∈ rest, y ∈ topoFull) →
      g.in_adj = inA →
      DirtyInv inA topoFull rest g.dirty →
      (evalDirtyGo E opts (fun _ _ => EvalSignal.Continue) dc rest g acc).1.in_adj
        = inA ∧
      DirtyInv inA topoFull []
        (evalDirtyGo E opts (fun _ _ => EvalSignal.Continue) dc rest g acc).1.dirty := by
  intro rest
  induction rest with
  | nil =>
      intro g acc _ hA hInv
      exact ⟨hA, hInv⟩
  | cons id rest ih =>
      intro g acc hrest hA hInv
      have hrest' : ∀ y ∈ rest, y ∈ topoFull :=
        fun y hy => hrest y (List.mem_cons_of_mem id hy)
      rw [evalDirtyGo]
      split
      · rename_i hid
        exact ih _ _ hrest' hA (dirtyInv_skip hid hInv)
      · rename_i hid
        have hid' : id ∈ g.dirty := by
          by_contra h
          exact hid h
        split
        · exact ih _ _ hrest' hA
            (dirtyInv_pop (hrest id (List.mem_cons_self id rest)) hInv)
        · rename_i node hnode
          have hpn := processNode_dirtyInv E opts node id
            { g with dirty := removeS g.dirty id } acc hrest' hA
            (dirtyInv_pop (hrest id (List.mem_cons_self id rest)) hInv)
          simp only [show ((fun (_ _ : Nat) => EvalSignal.Continue)
            (processNode E opts node id
              { g with dirty := removeS g.dirty id } acc).2.evaluated_count dc
            == EvalSignal.Abort) = false from rfl]
          simp only [Bool.false_eq_true, if_false]
          exact ih _ _ hrest' hpn.1 hpn.2


/-- C8: after a completed `evaluate_dirty` on a graph whose cached topo
order is valid and whose dirty set satisfies the reachable-state invariant
`DirtyInv` (every dirty id still ahead of the walk or fed by a dirty
cycle-side parent), every id all of whose in-parents are clean is not
dirty — in particular no successor of an evaluated node whose output did
not change remains dirty when its parents are all clean; and concretely,
in `add(3,4) → display`, re-updating the literal-3 node to the value 3
again leaves `display` absent from the incremental result's
`changed_values`. -/
theorem claim_C8_dirty_pruning (E : Dispatch) (opts : EvalOptions)
    (g : EngineGraph) (hTopo : g.topo_dirty = false)
    (hInit : DirtyInv g.in_adj g.topo_order g.topo_order g.dirty) :
    (∀ t : String,
      (∀ row ∈ (lookupA (g.evaluate_dirty_with_options E opts).1.in_adj t).getD [],
        row.2.1 ∉ (g.evaluate_dirty_with_options E opts).1.dirty) →
      t ∉ (g.evaluate_dirty_with_options E opts).1.dirty) ∧
    lookupA dispResult.2.changed_values "disp" = none := by
  constructor
  · intro t hclean
    have hred : (g.evaluate_dirty_with_options E opts).1
        = (evalDirtyGo E opts (fun _ _ => EvalSignal.Continue) g.dirty.length
            g.topo_order g
            { changed_values := [], diagnostics := [], trace := [],
              evaluated_count := 0, isPartial := false }).1 := by
      simp only [EngineGraph.evaluate_dirty_with_options,
        EngineGraph.evaluate_dirty_with_callback, hTopo]
      simp
    rw [hred] at hclean ⊢
    have hmain := evalDirtyGo_dirtyInv E opts g.dirty.length g.in_adj
      g.topo_order g.topo_order g
      { changed_values := [], diagnostics := [], trace := [],
        evaluated_count := 0, isPartial := false }
      (fun y hy => hy) rfl hInit
    intro hmem
    rcases hmain.2 t hmem with h | ⟨row, hrow, hp, -⟩
    · simp at h
    · rw [hmain.1] at hclean
      exact hclean row hrow hp
  · decide

theorem claim_C8_dirty_pruning_witness :
    "disp" ∉ (dispPatched.evaluate_dirty_with_options
        evaluate_node_with_datasets {}).1.dirty ∧
    lookupA dispResult.2.changed_values "disp" = none :=
  ⟨(claim_C8_dirty_pruning evaluate_node_with_datasets {} dispPatched
      (by decide) (by decide)).1 "disp" (by decide),
   (claim_C8_dirty_pruning evaluate_node_with_datasets {} dispPatched
      (by decide) (by decide)).2⟩

-- ════════════════════════════════════════════════════════════════════
-- §12  Loop composition lemmas and claim C4 (cancel-resumability)
-- ════════════════════════════════════════════════════════════════════

-- abbreviation for the all-Continue callback
theorem cont_not_abort (a b : Nat) : (contCB a b == EvalSignal.Abort) = false := rfl

-- L3: the loop never adds dirty marks (any callback)
theorem evalDirtyGo_dirty_mono (E : Dispatch) (opts : EvalOptions)
    (cb : Nat → Nat → EvalSignal) (dc : Nat) :
    ∀ (rest : List String) (g : EngineGraph) (acc : LoopAcc) (t : String),
      t ∉ g.dirty → t ∉ (evalDirtyGo E opts cb dc rest g acc).1.dirty := by
  intro rest
  induction rest with
  | nil => intro g acc t ht; exact ht
  | cons id rest ih =>
      intro g acc t ht
      rw [evalDirtyGo]
      split
      · exact ih _ _ _ ht
      · have ht1 : t ∉ removeS g.dirty id := by
          simp only [removeS, List.mem_filter, decide_eq_true_eq]
          intro hc
          exact ht hc.1
        split
        · exact ih _ _ _ ht1
        · rename_i node hnode
          have hpn : t ∉ (processNode E opts node id
              { g with dirty := removeS g.dirty id } acc).1.dirty := by
            intro hc
            exact ht1 ((processNode_shrinks E opts node id
              { g with dirty := removeS g.dirty id } acc).2.2.2.2.2.2.2.2 t hc)
          split
          · exact hpn
          · exact ih _ _ _ hpn

-- L2: every id of the walked list ends clean (any callback that never aborts)
theorem evalDirtyGo_dirty_gone (E : Dispatch) (opts : EvalOptions) (dc : Nat) :
    ∀ (rest : List String) (g : EngineGraph) (acc : LoopAcc) (t : String),
      t ∈ rest →
      t ∉ (evalDirtyGo E opts contCB dc rest g acc).1.dirty := by
  intro rest
  induction rest with
  | nil => intro g acc t ht; simp at ht
  | cons id rest ih =>
      intro g acc t ht
      rw [evalDirtyGo]
      split
      · rename_i hid
        rcases List.mem_cons.1 ht with rfl | ht
        · exact evalDirtyGo_dirty_mono E opts contCB dc rest g acc t hid
        · exact ih _ _ _ ht
      · have hrm : ∀ (u : String), u = id → u ∉ removeS g.dirty id := by
          intro u hu
          simp [removeS, hu]
        split
        · rcases List.mem_cons.1 ht with rfl | ht
          · exact evalDirtyGo_dirty_mono E opts contCB dc rest _ acc t (hrm t rfl)
          · exact ih _ _ _ ht
        · rename_i node hnode
          simp only [cont_not_abort, Bool.false_eq_true, if_false]
          rcases List.mem_cons.1 ht with rfl | ht
          · refine evalDirtyGo_dirty_mono E opts contCB dc rest _ _ t ?_
            intro hc
            exact hrm t rfl ((processNode_shrinks E opts node t
              { g with dirty := removeS g.dirty t } acc).2.2.2.2.2.2.2.2 t hc)
          · exact ih _ _ _ ht


theorem frame_self {g : EngineGraph} : FrameEq g g :=
  ⟨rfl, rfl, rfl, rfl, rfl, rfl, rfl⟩

theorem frame_trans {a b c : EngineGraph} (h1 : FrameEq a b)
    (h2 : FrameEq b c) : FrameEq a c := by
  obtain ⟨x1, x2, x3, x4, x5, x6, x7⟩ := h1
  obtain ⟨y1, y2, y3, y4, y5, y6, y7⟩ := h2
  exact ⟨y1.trans x1, y2.trans x2, y3.trans x3, y4.trans x4, y5.trans x5,
    y6.trans x6, y7.trans x7⟩

theorem processNode_frame (E : Dispatch) (opts : EvalOptions) (node : NodeDef)
    (id : String) (g : EngineGraph) (acc : LoopAcc) :
    FrameEq g (processNode E opts node id g acc).1 := by
  obtain ⟨x1, x2, x3, x4, x5, -, x6, x7, -⟩ :=
    processNode_shrinks E opts node id g acc
  exact ⟨x1, x2, x3, x4, x5, x6, x7⟩

theorem evalDirtyGo_frame (E : Dispatch) (opts : EvalOptions)
    (cb : Nat → Nat → EvalSignal) (dc : Nat) :
    ∀ (rest : List String) (g : EngineGraph) (acc : LoopAcc),
      FrameEq g (evalDirtyGo E opts cb dc rest g acc).1 := by
  intro rest
  induction rest with
  | nil => intro g acc; exact frame_self
  | cons id rest ih =>
      intro g acc
      rw [evalDirtyGo]
      split
      · exact ih _ _
      · split
        · exact frame_trans frame_self (ih _ _)
        · rename_i node hnode
          split
          · exact processNode_frame E opts node id _ acc
          · exact frame_trans
              (processNode_frame E opts node id
                { g with dirty := removeS g.dirty id } acc) (ih _ _)

theorem processNode_graph_acc (E : Dispatch) (opts : EvalOptions)
    (node : NodeDef) (id : String) (g : EngineGraph) (acc acc' : LoopAcc) :
    (processNode E opts node id g acc).1
      = (processNode E opts node id g acc').1 := rfl

theorem evalDirtyGo_append (E : Dispatch) (opts : EvalOptions) (dc : Nat) :
    ∀ (pre post : List String) (g : EngineGraph) (acc : LoopAcc),
      evalDirtyGo E opts contCB dc (pre ++ post) g acc
        = evalDirtyGo E opts contCB dc post
            (evalDirtyGo E opts contCB dc pre g acc).1
            (evalDirtyGo E opts contCB dc pre g acc).2 := by
  intro pre
  induction pre with
  | nil => intro post g acc; rfl
  | cons id pre ih =>
      intro post g acc
      rw [List.cons_append, evalDirtyGo]
      conv_rhs => rw [evalDirtyGo]
      split
      · exact ih _ _ _
      · split
        · exact ih _ _ _
        · rename_i node hnode
          simp only [cont_not_abort, Bool.false_eq_true, if_false]
          exact ih _ _ _

theorem evalDirtyGo_acc_indep (E : Dispatch) (opts : EvalOptions) (dc : Nat) :
    ∀ (rest : List String) (g : EngineGraph) (acc acc' : LoopAcc),
      (evalDirtyGo E opts contCB dc rest g acc).1
        = (evalDirtyGo E opts contCB dc rest g acc').1 ∧
      (evalDirtyGo E opts contCB dc rest g acc).2.evaluated_count
          + acc'.evaluated_count
        = (evalDirtyGo E opts contCB dc rest g acc').2.evaluated_count
          + acc.evaluated_count ∧
      (evalDirtyGo E opts contCB dc rest g acc).2.isPartial = acc.isPartial := by
  intro rest
  induction rest with
  | nil =>
      intro g acc acc'
      refine ⟨rfl, ?_, rfl⟩
      simp only [evalDirtyGo]
      omega
  | cons id rest ih =>
      intro g acc acc'
      simp only [evalDirtyGo]
      split
      · exact ih _ _ _
      · split
        · exact ih _ _ _
        · rename_i node hnode
          simp only [cont_not_abort, Bool.false_eq_true, if_false]
          rw [processNode_graph_acc E opts node id
            { g with dirty := removeS g.dirty id } acc' acc]
          have e1 : (processNode E opts node id
              { g with dirty := removeS g.dirty id } acc).2.evaluated_count
              = acc.evaluated_count + 1 := by
            rw [processNode_acc]
          have e2 : (processNode E opts node id
              { g with dirty := removeS g.dirty id } acc').2.evaluated_count
              = acc'.evaluated_count + 1 := by
            rw [processNode_acc]
          have p1 : (processNode E opts node id
              { g with dirty := removeS g.dirty id } acc).2.isPartial
              = acc.isPartial := by
            rw [processNode_acc]
          have hih := ih (processNode E opts node id
              { g with dirty := removeS g.dirty id } acc).1
            (processNode E opts node id
              { g with dirty := removeS g.dirty id } acc).2
            (processNode E opts node id
              { g with dirty := removeS g.dirty id } acc').2
          refine ⟨hih.1, ?_, hih.2.2.trans p1⟩
          have := hih.2.1
          omega

theorem evalDirtyGo_skip (E : Dispatch) (opts : EvalOptions)
    (cb : Nat → Nat → EvalSignal) (dc : Nat) :
    ∀ (pre post : List String) (g : EngineGraph) (acc : LoopAcc),
      (∀ id ∈ pre, id ∉ g.dirty) →
      evalDirtyGo E opts cb dc (pre ++ post) g acc
        = evalDirtyGo E opts cb dc post g acc := by
  intro pre
  induction pre with
  | nil => intro post g acc _; rfl
  | cons id pre ih =>
      intro post g acc h
      rw [List.cons_append, evalDirtyGo]
      rw [if_pos (h id (List.mem_cons_self id pre))]
      exact ih _ _ _ (fun x hx => h x (List.mem_cons_of_mem id hx))

theorem evalDirtyGo_decomp (E : Dispatch) (opts : EvalOptions)
    (cb : Nat → Nat → EvalSignal) (dc : Nat) :
    ∀ (rest : List String) (g : EngineGraph) (acc : LoopAcc),
      ∃ pre post, rest = pre ++ post ∧
        (evalDirtyGo E opts cb dc rest g acc).1
          = (evalDirtyGo E opts contCB dc pre g acc).1 ∧
        (evalDirtyGo E opts cb dc rest g acc).2
          = { (evalDirtyGo E opts contCB dc pre g acc).2 with
              isPartial := (evalDirtyGo E opts cb dc rest g acc).2.isPartial } := by
  intro rest
  induction rest with
  | nil =>
      intro g acc
      exact ⟨[], [], rfl, rfl, rfl⟩
  | cons id rest ih =>
      intro g acc
      rw [evalDirtyGo]
      split
      · rename_i hid
        obtain ⟨pre, post, hsplit, h1, h2⟩ := ih g acc
        refine ⟨id :: pre, post, by rw [hsplit, List.cons_append], ?_, ?_⟩
        · rw [h1, evalDirtyGo, if_pos hid]
        · rw [h2, evalDirtyGo, if_pos hid]
      · rename_i hid
        split
        · rename_i hnode
          obtain ⟨pre, post, hsplit, h1, h2⟩ :=
            ih { g with dirty := removeS g.dirty id } acc
          refine ⟨id :: pre, post, by rw [hsplit, List.cons_append], ?_, ?_⟩
          · rw [h1, evalDirtyGo, if_neg hid]
            simp only [hnode]
          · rw [h2, evalDirtyGo, if_neg hid]
            simp only [hnode]
        · rename_i node hnode
          split
          · rename_i habort
            refine ⟨[id], rest, rfl, ?_, ?_⟩
            · rw [evalDirtyGo, if_neg hid]
              simp only [hnode]
              simp only [cont_not_abort, Bool.false_eq_true, if_false]
              rfl
            · rw [evalDirtyGo, if_neg hid]
              simp only [hnode]
              simp only [cont_not_abort, Bool.false_eq_true, if_false]
              rfl
          · rename_i habort
            obtain ⟨pre, post, hsplit, h1, h2⟩ :=
              ih (processNode E opts node id
                { g with dirty := removeS g.dirty id } acc).1
                (processNode E opts node id
                  { g with dirty := removeS g.dirty id } acc).2
            refine ⟨id :: pre, post, by rw [hsplit, List.cons_append], ?_, ?_⟩
            · rw [h1, evalDirtyGo, if_neg hid]
              simp only [hnode]
              simp only [cont_not_abort, Bool.false_eq_true, if_false]
            · rw [h2, evalDirtyGo, if_neg hid]
              simp only [hnode]
              simp only [cont_not_abort, Bool.false_eq_true, if_false]


theorem evalDirtyGo_dc_indep (E : Dispatch) (opts : EvalOptions) :
    ∀ (rest : List String) (g : EngineGraph) (acc : LoopAcc) (dc dc' : Nat),
      evalDirtyGo E opts contCB dc rest g acc
        = evalDirtyGo E opts contCB dc' rest g acc := by
  intro rest
  induction rest with
  | nil => intro g acc dc dc'; rfl
  | cons id rest ih =>
      intro g acc dc dc'
      rw [evalDirtyGo]
      conv_rhs => rw [evalDirtyGo]
      split
      · exact ih _ _ _ _
      · split
        · exact ih _ _ _ _
        · rename_i node hnode
          simp only [cont_not_abort, Bool.false_eq_true, if_false]
          exact ih _ _ _ _

theorem with_callback_warm (E : Dispatch) (opts : EvalOptions)
    (cb : Nat → Nat → EvalSignal) (S : EngineSnapshotV1) :
    ((loadedGraph S).evaluate_dirty_with_callback E opts cb).1
        = (evalDirtyGo E opts cb (rebuiltGraph S).dirty.length
            (rebuiltGraph S).topo_order (rebuiltGraph S) (rebuildAcc S)).1 ∧
    ((loadedGraph S).evaluate_dirty_with_callback E opts cb).2.evaluated_count
        = (evalDirtyGo E opts cb (rebuiltGraph S).dirty.length
            (rebuiltGraph S).topo_order (rebuiltGraph S) (rebuildAcc S)).2.evaluated_count ∧
    ((loadedGraph S).evaluate_dirty_with_callback E opts cb).2.isPartial
        = (evalDirtyGo E opts cb (rebuiltGraph S).dirty.length
            (rebuiltGraph S).topo_order (rebuiltGraph S) (rebuildAcc S)).2.isPartial :=
  ⟨rfl, rfl, rfl⟩

theorem with_callback_cold (E : Dispatch) (opts : EvalOptions)
    (cb : Nat → Nat → EvalSignal) (g : EngineGraph) (h : g.topo_dirty = false) :
    (g.evaluate_dirty_with_callback E opts cb).1
        = (evalDirtyGo E opts cb g.dirty.length g.topo_order g zeroAcc).1 ∧
    (g.evaluate_dirty_with_callback E opts cb).2.evaluated_count
        = (evalDirtyGo E opts cb g.dirty.length g.topo_order g zeroAcc).2.evaluated_count ∧
    (g.evaluate_dirty_with_callback E opts cb).2.isPartial
        = (evalDirtyGo E opts cb g.dirty.length g.topo_order g zeroAcc).2.isPartial := by
  refine ⟨?_, ?_, ?_⟩ <;>
    · simp only [EngineGraph.evaluate_dirty_with_callback, h, zeroAcc]
      simp

/-- C4: cancel-resumability.  For every snapshot S (freshly loaded) and
every abort point k: resuming after an aborted `evaluate_dirty` yields an
engine state identical to a single uninterrupted call (hence bit-identical
`values` and the same dirty set, which is empty whenever every node was
placed in the topological order); the resumed call is not partial and the
two calls' evaluated counts sum to the uninterrupted call's; and the
aborted call leaves exactly the state in which only the evaluated prefix
of the topological walk was processed. -/
theorem claim_C4_cancel_resumability (E : Dispatch) (opts : EvalOptions)
    (S : EngineSnapshotV1) (k : Nat) :
    (((loadedGraph S).evaluate_dirty_with_callback E opts
        (abortAfter k)).1.evaluate_dirty_with_callback E opts contCB).1
      = ((loadedGraph S).evaluate_dirty_with_callback E opts contCB).1 ∧
    (((loadedGraph S).evaluate_dirty_with_callback E opts
        (abortAfter k)).1.evaluate_dirty_with_callback E opts contCB).2.isPartial
      = false ∧
    ((loadedGraph S).evaluate_dirty_with_callback E opts
        (abortAfter k)).2.evaluated_count
      + (((loadedGraph S).evaluate_dirty_with_callback E opts
          (abortAfter k)).1.evaluate_dirty_with_callback E opts
            contCB).2.evaluated_count
      = ((loadedGraph S).evaluate_dirty_with_callback E opts
          contCB).2.evaluated_count ∧
    (∃ pre post, (rebuiltGraph S).topo_order = pre ++ post ∧
      ((loadedGraph S).evaluate_dirty_with_callback E opts (abortAfter k)).1
        = (evalDirtyGo E opts contCB (rebuiltGraph S).dirty.length pre
            (rebuiltGraph S) (rebuildAcc S)).1) ∧
    ((∀ id ∈ (rebuiltGraph S).dirty, id ∈ (rebuiltGraph S).topo_order) →
      (((loadedGraph S).evaluate_dirty_with_callback E opts
          (abortAfter k)).1.evaluate_dirty_with_callback E opts
            contCB).1.dirty = []) := by
  obtain ⟨pre, post, hsplit, h1, h2⟩ :=
    evalDirtyGo_decomp E opts (abortAfter k) (rebuiltGraph S).dirty.length
      (rebuiltGraph S).topo_order (rebuiltGraph S) (rebuildAcc S)
  have hwarmA := with_callback_warm E opts (abortAfter k) S
  have hwarmC := with_callback_warm E opts contCB S
  -- the interrupted state
  have hg1 : ((loadedGraph S).evaluate_dirty_with_callback E opts
      (abortAfter k)).1
      = (evalDirtyGo E opts contCB (rebuiltGraph S).dirty.length pre
          (rebuiltGraph S) (rebuildAcc S)).1 := hwarmA.1.trans h1
  have hframe := evalDirtyGo_frame E opts contCB
    (rebuiltGraph S).dirty.length pre (rebuiltGraph S) (rebuildAcc S)
  have hTD : ((loadedGraph S).evaluate_dirty_with_callback E opts
      (abortAfter k)).1.topo_dirty = false := by
    rw [hg1]
    exact hframe.2.2.2.2.2.1
  have hTO : ((loadedGraph S).evaluate_dirty_with_callback E opts
      (abortAfter k)).1.topo_order = pre ++ post := by
    rw [hg1, hframe.2.2.2.2.1]
    exact hsplit
  have hcold := with_callback_cold E opts contCB
    ((loadedGraph S).evaluate_dirty_with_callback E opts (abortAfter k)).1 hTD
  -- prefix ids are clean in the interrupted state
  have hclean : ∀ id ∈ pre,
      id ∉ ((loadedGraph S).evaluate_dirty_with_callback E opts
        (abortAfter k)).1.dirty := by
    intro id hid
    rw [hg1]
    exact evalDirtyGo_dirty_gone E opts (rebuiltGraph S).dirty.length pre
      (rebuiltGraph S) (rebuildAcc S) id hid
  -- the resumed loop skips the prefix
  have hskip : evalDirtyGo E opts contCB
      ((loadedGraph S).evaluate_dirty_with_callback E opts
        (abortAfter k)).1.dirty.length
      (pre ++ post)
      ((loadedGraph S).evaluate_dirty_with_callback E opts (abortAfter k)).1
      zeroAcc
      = evalDirtyGo E opts contCB
          ((loadedGraph S).evaluate_dirty_with_callback E opts
            (abortAfter k)).1.dirty.length post
          ((loadedGraph S).evaluate_dirty_with_callback E opts
            (abortAfter k)).1 zeroAcc :=
    evalDirtyGo_skip E opts contCB _ pre post _ zeroAcc hclean
  -- the uninterrupted run, decomposed at the same prefix
  have happ := evalDirtyGo_append E opts (rebuiltGraph S).dirty.length pre post
    (rebuiltGraph S) (rebuildAcc S)
  have hdc := evalDirtyGo_dc_indep E opts post
    ((loadedGraph S).evaluate_dirty_with_callback E opts (abortAfter k)).1
    zeroAcc
    ((loadedGraph S).evaluate_dirty_with_callback E opts
      (abortAfter k)).1.dirty.length
    (rebuiltGraph S).dirty.length
  have hacc := evalDirtyGo_acc_indep E opts (rebuiltGraph S).dirty.length post
    ((loadedGraph S).evaluate_dirty_with_callback E opts (abortAfter k)).1
    zeroAcc
    (evalDirtyGo E opts contCB (rebuiltGraph S).dirty.length pre
      (rebuiltGraph S) (rebuildAcc S)).2
  -- resumed-state normal form
  have hres : (((loadedGraph S).evaluate_dirty_with_callback E opts
      (abortAfter k)).1.evaluate_dirty_with_callback E opts contCB).1
      = (evalDirtyGo E opts contCB (rebuiltGraph S).dirty.length post
          ((loadedGraph S).evaluate_dirty_with_callback E opts
            (abortAfter k)).1 zeroAcc).1 := by
    rw [hcold.1, hTO, hskip, hdc]
  -- uninterrupted-state normal form
  have huni : ((loadedGraph S).evaluate_dirty_with_callback E opts contCB).1
      = (evalDirtyGo E opts contCB (rebuiltGraph S).dirty.length post
          ((loadedGraph S).evaluate_dirty_with_callback E opts
            (abortAfter k)).1
          (evalDirtyGo E opts contCB (rebuiltGraph S).dirty.length pre
            (rebuiltGraph S) (rebuildAcc S)).2).1 := by
    rw [hwarmC.1, hsplit, happ, ← hg1]
  refine ⟨?_, ?_, ?_, ⟨pre, post, hsplit, hg1⟩, ?_⟩
  · rw [hres, huni, hacc.1]
  · rw [hcold.2.2, hTO, hskip, hdc, hacc.2.2]
    rfl
  · have hic : ((loadedGraph S).evaluate_dirty_with_callback E opts
        (abortAfter k)).2.evaluated_count
        = (evalDirtyGo E opts contCB (rebuiltGraph S).dirty.length pre
            (rebuiltGraph S) (rebuildAcc S)).2.evaluated_count := by
      rw [hwarmA.2.1, h2]
    have hrc : (((loadedGraph S).evaluate_dirty_with_callback E opts
        (abortAfter k)).1.evaluate_dirty_with_callback E opts
          contCB).2.evaluated_count
        = (evalDirtyGo E opts contCB (rebuiltGraph S).dirty.length post
            ((loadedGraph S).evaluate_dirty_with_callback E opts
              (abortAfter k)).1 zeroAcc).2.evaluated_count := by
      rw [hcold.2.1, hTO, hskip, hdc]
    have huc : ((loadedGraph S).evaluate_dirty_with_callback E opts
        contCB).2.evaluated_count
        = (evalDirtyGo E opts contCB (rebuiltGraph S).dirty.length post
            ((loadedGraph S).evaluate_dirty_with_callback E opts
              (abortAfter k)).1
            (evalDirtyGo E opts contCB (rebuiltGraph S).dirty.length pre
              (rebuiltGraph S) (rebuildAcc S)).2).2.evaluated_count := by
      rw [hwarmC.2.1, hsplit, happ, ← hg1]
    have hz : zeroAcc.evaluated_count = 0 := rfl
    have := hacc.2.1
    omega
  · intro hacyc
    rw [hres]
    rw [List.eq_nil_iff_forall_not_mem]
    intro t ht
    have htg1 : t ∈ ((loadedGraph S).evaluate_dirty_with_callback E opts
        (abortAfter k)).1.dirty := by
      by_contra hc
      exact evalDirtyGo_dirty_mono E opts contCB
        (rebuiltGraph S).dirty.length post _ zeroAcc t hc ht
    have htR : t ∈ (rebuiltGraph S).dirty := by
      by_contra hc
      have := evalDirtyGo_dirty_mono E opts contCB
        (rebuiltGraph S).dirty.length pre (rebuiltGraph S) (rebuildAcc S) t hc
      rw [← hg1] at this
      exact this htg1
    rcases List.mem_append.1 (hsplit ▸ hacyc t htR) with hp | hp
    · exact hclean t hp htg1
    · exact evalDirtyGo_dirty_gone E opts (rebuiltGraph S).dirty.length post
        ((loadedGraph S).evaluate_dirty_with_callback E opts
          (abortAfter k)).1 zeroAcc t hp ht

theorem claim_C4_cancel_resumability_witness :
    (((loadedGraph snapChain).evaluate_dirty_with_callback
        evaluate_node_with_datasets {} (abortAfter 2)).1.evaluate_dirty_with_callback
        evaluate_node_with_datasets {} contCB).1
      = ((loadedGraph snapChain).evaluate_dirty_with_callback
          evaluate_node_with_datasets {} contCB).1 ∧
    (((loadedGraph snapChain).evaluate_dirty_with_callback
        evaluate_node_with_datasets {} (abortAfter 2)).1.evaluate_dirty_with_callback
        evaluate_node_with_datasets {} contCB).1.dirty = [] :=
  ⟨(claim_C4_cancel_resumability evaluate_node_with_datasets {} snapChain 2).1,
   (claim_C4_cancel_resumability evaluate_node_with_datasets {} snapChain
      2).2.2.2.2 (by decide)⟩


-- ════════════════════════════════════════════════════════════════════
-- §13  Incremental ↔ stateless equivalence; claims C1 and C3
-- ════════════════════════════════════════════════════════════════════

-- ── §13 defs: well-formedness of loaded-and-patched graphs ────────────

-- ── §13 assoc-list lemmas ────────────────────────────────────────────

theorem keysA_cons {α : Type} (p : String × α) (t : List (String × α)) :
    keysA (p :: t) = p.1 :: keysA t := rfl

theorem keysA_append {α : Type} (m m2 : List (String × α)) :
    keysA (m ++ m2) = keysA m ++ keysA m2 := by
  simp [keysA]

theorem mem_keysA {α : Type} {m : List (String × α)} {p : String × α}
    (h : p ∈ m) : p.1 ∈ keysA m :=
  List.mem_map_of_mem (fun r => r.1) h

theorem lookupA_insertA {α : Type} (m : List (String × α)) (k : String)
    (v : α) (q : String) :
    lookupA (insertA m k v) q = if k = q then some v else lookupA m q := by
  induction m with
  | nil => simp [insertA, lookupA]
  | cons p t ih =>
      by_cases h : p.1 = k
      · by_cases h2 : k = q <;> simp [insertA, h, lookupA, h2]
      · by_cases h2 : p.1 = q <;> by_cases h3 : k = q <;>
          simp_all [insertA, lookupA]

theorem lookupA_none_iff {α : Type} (m : List (String × α)) (k : String) :
    lookupA m k = none ↔ k ∉ keysA m := by
  induction m with
  | nil => simp [lookupA, keysA]
  | cons p t ih =>
      by_cases h : p.1 = k
      · simp [lookupA, h, keysA_cons]
      · have h2 : ¬ k = p.1 := fun heq => h heq.symm
        simp [lookupA, h, keysA_cons, ih, h2]

theorem lookupA_mem {α : Type} {m : List (String × α)} {k : String} {v : α}
    (h : lookupA m k = some v) : (k, v) ∈ m := by
  induction m with
  | nil => simp [lookupA] at h
  | cons p t ih =>
      by_cases h2 : p.1 = k
      · simp [lookupA, h2] at h
        have hp : p = (k, v) := by
          cases p
          simp_all
        rw [hp] at *
        exact List.mem_cons_self _ _
      · simp [lookupA, h2] at h
        exact List.mem_cons_of_mem _ (ih h)

theorem mem_lookupA {α : Type} {m : List (String × α)} {k : String} {v : α}
    (hnd : (keysA m).Nodup) (h : (k, v) ∈ m) : lookupA m k = some v := by
  induction m with
  | nil => simp at h
  | cons p t ih =>
      rw [keysA_cons, List.nodup_cons] at hnd
      rcases List.mem_cons.1 h with rfl | h2
      · simp [lookupA]
      · have hk : ¬ p.1 = k := fun heq => hnd.1 (heq ▸ mem_keysA h2)
        simp only [lookupA, hk, if_false, reduceIte]
        exact ih hnd.2 h2

theorem keysA_insertA {α : Type} (m : List (String × α)) (k : String)
    (v : α) :
    keysA (insertA m k v)
      = if k ∈ keysA m then keysA m else keysA m ++ [k] := by
  induction m with
  | nil => simp [insertA, keysA]
  | cons p t ih =>
      by_cases h : p.1 = k
      · simp [insertA, h, keysA_cons]
      · have h2 : ¬ k = p.1 := fun heq => h heq.symm
        by_cases h3 : k ∈ keysA t <;> simp_all [insertA, keysA_cons]

theorem insertA_append {α : Type} {m : List (String × α)} {k : String}
    (v : α) (h : k ∉ keysA m) : insertA m k v = m ++ [(k, v)] := by
  induction m with
  | nil => simp [insertA]
  | cons p t ih =>
      rw [keysA_cons] at h
      have h1 : ¬ p.1 = k := fun heq => h (by rw [← heq]; exact List.mem_cons_self _ _)
      have h2 : k ∉ keysA t := fun hk => h (List.mem_cons_of_mem _ hk)
      simp [insertA, h1, ih h2]

theorem insertA_forall {α : Type} {P : String × α → Prop}
    {m : List (String × α)} {k : String} {v : α}
    (hm : ∀ p ∈ m, P p) (hv : P (k, v)) : ∀ p ∈ insertA m k v, P p := by
  induction m with
  | nil => simpa [insertA]
  | cons q t ih =>
      by_cases h : q.1 = k
      · intro p hp
        simp only [insertA, h, if_pos] at hp
        rcases List.mem_cons.1 hp with rfl | hp
        · exact hv
        · exact hm p (List.mem_cons_of_mem _ hp)
      · intro p hp
        simp only [insertA, h, if_false, reduceIte] at hp
        rcases List.mem_cons.1 hp with rfl | hp
        · exact hm _ (List.mem_cons_self _ _)
        · exact ih (fun r hr => hm r (List.mem_cons_of_mem _ hr)) _ hp

theorem lookupA_eraseA {α : Type} (m : List (String × α)) (k q : String) :
    lookupA (eraseA m k) q = if q = k then none else lookupA m q := by
  induction m with
  | nil => simp [eraseA, lookupA]
  | cons p t ih =>
      by_cases h : p.1 = k <;> by_cases h2 : p.1 = q <;>
        simp_all [eraseA, lookupA, List.filter]

theorem keysA_eraseA {α : Type} (m : List (String × α)) (k : String) :
    keysA (eraseA m k) = (keysA m).filter (fun x => decide (x ≠ k)) := by
  induction m with
  | nil => simp [eraseA, keysA]
  | cons p t ih =>
      by_cases h : p.1 = k <;> simp_all [eraseA, keysA_cons, List.filter, keysA]

theorem eraseA_sub {α : Type} {m : List (String × α)} {k : String} :
    ∀ p ∈ eraseA m k, p ∈ m := by
  intro p hp
  exact List.mem_of_mem_filter hp

theorem eraseA_not_mem {α : Type} {m : List (String × α)} {k : String}
    (h : k ∉ keysA m) : eraseA m k = m := by
  refine List.filter_eq_self.2 (fun p hp => ?_)
  simp only [decide_eq_true_eq]
  intro heq
  apply h
  rw [← heq]
  exact mem_keysA hp

theorem nodup_keys_unique {α : Type} {m : List (String × α)} {k : String}
    {a b : α} (hnd : (keysA m).Nodup) (ha : (k, a) ∈ m) (hb : (k, b) ∈ m) :
    a = b := by
  have h1 := mem_lookupA hnd ha
  have h2 := mem_lookupA hnd hb
  rw [h1] at h2
  exact Option.some_inj.1 h2

theorem insertA_eq_of_lookup {α : Type} {m : List (String × α)} {k : String}
    {v : α} (h : lookupA m k = some v) : insertA m k v = m := by
  induction m with
  | nil => simp [lookupA] at h
  | cons p t ih =>
      by_cases h2 : p.1 = k
      · simp [lookupA, h2] at h
        have hp : p = (k, v) := by
          cases p
          simp_all
        simp [insertA, h2, hp]
      · simp [lookupA, h2] at h
        simp [insertA, h2, ih h]

theorem lookupA_orInsertA {α : Type} (m : List (String × α)) (k : String)
    (v : α) (q : String) :
    lookupA (orInsertA m k v) q
      = if k = q then some ((lookupA m q).getD v) else lookupA m q := by
  unfold orInsertA containsA
  cases hl : lookupA m k with
  | some w =>
      by_cases h2 : k = q
      · subst h2
        simp [hl]
      · simp [hl, h2]
  | none =>
      by_cases h2 : k = q
      · subst h2
        simp [hl, lookupA_insertA]
      · simp [hl, lookupA_insertA, h2]

theorem keysA_orInsertA {α : Type} (m : List (String × α)) (k : String)
    (v : α) :
    keysA (orInsertA m k v)
      = if k ∈ keysA m then keysA m else keysA m ++ [k] := by
  unfold orInsertA containsA
  by_cases h : k ∈ keysA m
  · have : lookupA m k ≠ none := fun hn => ((lookupA_none_iff m k).1 hn) h
    simp [Option.isSome_iff_ne_none.2 this, h]
  · have hn : lookupA m k = none := (lookupA_none_iff m k).2 h
    simp [hn, h, keysA_insertA]

theorem lookupA_pushAdj {α : Type} (m : List (String × List α)) (k : String)
    (r : α) (q : String) :
    lookupA (pushAdj m k r) q
      = if k = q then some ((lookupA m q).getD [] ++ [r]) else lookupA m q := by
  unfold pushAdj
  rw [lookupA_insertA]
  by_cases h : k = q <;> simp [h]

theorem lookupA_bumpA (m : List (String × Nat)) (k q : String) :
    lookupA (bumpA m k) q
      = if k = q then some ((lookupA m q).getD 0 + 1) else lookupA m q := by
  unfold bumpA
  by_cases h : k = q
  · subst h
    cases hl : lookupA m k <;> simp [hl, lookupA_insertA]
  · cases hl : lookupA m k <;> simp [hl, lookupA_insertA, h]

theorem keysA_bumpA (m : List (String × Nat)) (k : String) :
    keysA (bumpA m k) = if k ∈ keysA m then keysA m else keysA m ++ [k] := by
  unfold bumpA
  by_cases h : k ∈ keysA m
  · have : lookupA m k ≠ none := fun hn => ((lookupA_none_iff m k).1 hn) h
    cases hl : lookupA m k with
    | none => exact (this hl).elim
    | some d => simp [keysA_insertA, h]
  · have hn : lookupA m k = none := (lookupA_none_iff m k).2 h
    simp [hn, keysA_insertA, h]

theorem mem_insertS {s : List String} {k x : String} :
    x ∈ (insertS s k).1 ↔ x ∈ s ∨ x = k := by
  unfold insertS
  by_cases h : k ∈ s <;> simp [h]
  intro hx
  rw [hx] at *
  simp [h]

theorem mem_removeS {s : List String} {k x : String} :
    x ∈ removeS s k ↔ x ∈ s ∧ x ≠ k := by
  unfold removeS
  simp

theorem foldl_insertA_fresh {α β : Type} (key : α → String) (val : α → β) :
    ∀ (xs : List α) (m : List (String × β)),
    (∀ x ∈ xs, key x ∉ keysA m) → (xs.map key).Nodup →
    xs.foldl (fun mm x => insertA mm (key x) (val x)) m
      = m ++ xs.map (fun x => (key x, val x)) := by
  intro xs
  induction xs with
  | nil => simp
  | cons x t ih =>
      intro m hf hnd
      simp only [List.foldl_cons, List.map_cons]
      rw [insertA_append (val x) (hf x (List.mem_cons_self _ _))]
      rw [List.map_cons, List.nodup_cons] at hnd
      rw [ih _ ?_ hnd.2]
      · simp
      · intro y hy
        rw [keysA_append]
        simp only [List.mem_append, not_or]
        refine ⟨hf y (List.mem_cons_of_mem _ hy), ?_⟩
        simp [keysA]
        intro heq
        exact hnd.1 (heq ▸ List.mem_map_of_mem key hy)

theorem foldl_orInsertA_fresh {α β : Type} (key : α → String) (val : α → β) :
    ∀ (xs : List α) (m : List (String × β)),
    (∀ x ∈ xs, key x ∉ keysA m) → (xs.map key).Nodup →
    xs.foldl (fun mm x => orInsertA mm (key x) (val x)) m
      = m ++ xs.map (fun x => (key x, val x)) := by
  intro xs
  induction xs with
  | nil => simp
  | cons x t ih =>
      intro m hf hnd
      simp only [List.foldl_cons, List.map_cons]
      have hfr : key x ∉ keysA m := hf x (List.mem_cons_self _ _)
      have hor : orInsertA m (key x) (val x) = m ++ [(key x, val x)] := by
        unfold orInsertA containsA
        rw [(lookupA_none_iff m (key x)).2 hfr]
        simpa using insertA_append (val x) hfr
      rw [hor]
      rw [List.map_cons, List.nodup_cons] at hnd
      rw [ih _ ?_ hnd.2]
      · simp
      · intro y hy
        rw [keysA_append]
        simp only [List.mem_append, not_or]
        refine ⟨hf y (List.mem_cons_of_mem _ hy), ?_⟩
        simp [keysA]
        intro heq
        exact hnd.1 (heq ▸ List.mem_map_of_mem key hy)

theorem foldl_pushAdj_char {β : Type} (key : EdgeDef → String)
    (f : EdgeDef → β) :
    ∀ (es : List EdgeDef) (m : List (String × List β)) (k : String),
    ((lookupA (es.foldl (fun mm e => pushAdj mm (key e) (f e)) m) k).getD [])
      = ((lookupA m k).getD [])
        ++ (es.filter (fun e => key e == k)).map f := by
  intro es
  induction es with
  | nil => simp
  | cons e t ih =>
      intro m k
      simp only [List.foldl_cons]
      rw [ih]
      by_cases h : key e = k
      · simp [lookupA_pushAdj, h, List.filter_cons]
      · simp [lookupA_pushAdj, h, List.filter_cons]

-- ── §13 row algebra for the adjacency fidelity invariant ─────────────

theorem outRowsA_append (m : List (String × EdgeDef)) (p : String × EdgeDef)
    (k : String) :
    outRowsA (m ++ [p]) k
      = outRowsA m k
        ++ (if p.2.source = k
            then [(p.1, p.2.target, p.2.target_handle)] else []) := by
  unfold outRowsA
  rw [List.filter_append, List.map_append]
  by_cases h : p.2.source = k <;> simp [h]

theorem inRowsA_append (m : List (String × EdgeDef)) (p : String × EdgeDef)
    (k : String) :
    inRowsA (m ++ [p]) k
      = inRowsA m k
        ++ (if p.2.target = k
            then [(p.1, p.2.source, p.2.source_handle, p.2.target_handle)]
            else []) := by
  unfold inRowsA
  rw [List.filter_append, List.map_append]
  by_cases h : p.2.target = k <;> simp [h]

theorem outRowsA_erase (m : List (String × EdgeDef)) (eid k : String) :
    outRowsA (eraseA m eid) k
      = (outRowsA m k).filter (fun r => decide (r.1 ≠ eid)) := by
  induction m with
  | nil => simp [outRowsA, eraseA]
  | cons p t ih =>
      by_cases h : p.1 = eid <;> by_cases h2 : p.2.source = k <;>
        simp_all [outRowsA, eraseA, List.filter_cons]

theorem inRowsA_erase (m : List (String × EdgeDef)) (eid k : String) :
    inRowsA (eraseA m eid) k
      = (inRowsA m k).filter (fun r => decide (r.1 ≠ eid)) := by
  induction m with
  | nil => simp [inRowsA, eraseA]
  | cons p t ih =>
      by_cases h : p.1 = eid <;> by_cases h2 : p.2.target = k <;>
        simp_all [inRowsA, eraseA, List.filter_cons]

theorem mem_outRowsA {m : List (String × EdgeDef)} {k : String}
    {r : String × String × String} (h : r ∈ outRowsA m k) :
    ∃ p ∈ m, p.1 = r.1 ∧ p.2.source = k := by
  unfold outRowsA at h
  rcases List.mem_map.1 h with ⟨p, hp, hr⟩
  exact ⟨p, List.mem_of_mem_filter hp, by rw [← hr],
    by simpa using List.of_mem_filter hp⟩

theorem mem_inRowsA {m : List (String × EdgeDef)} {k : String}
    {r : String × String × String × String} (h : r ∈ inRowsA m k) :
    ∃ p ∈ m, p.1 = r.1 ∧ p.2.target = k := by
  unfold inRowsA at h
  rcases List.mem_map.1 h with ⟨p, hp, hr⟩
  exact ⟨p, List.mem_of_mem_filter hp, by rw [← hr],
    by simpa using List.of_mem_filter hp⟩

theorem outRowsA_filter_sub (m : List (String × EdgeDef)) (q : _ → Bool)
    (k : String) :
    outRowsA (m.filter q) k
      = ((m.filter q).filter (fun p => p.2.source == k)).map
          (fun p => (p.1, p.2.target, p.2.target_handle)) := rfl

-- ── §13 mark_dirty: only the dirty set changes, monotonically ────────

theorem markDirtyGo_fields (fuel : Nat) :
    ∀ (g : EngineGraph) (q : List String),
    ((markDirtyGo fuel g q).nodes = g.nodes ∧
     (markDirtyGo fuel g q).edges = g.edges ∧
     (markDirtyGo fuel g q).out_adj = g.out_adj ∧
     (markDirtyGo fuel g q).in_adj = g.in_adj ∧
     (markDirtyGo fuel g q).topo_order = g.topo_order ∧
     (markDirtyGo fuel g q).values = g.values ∧
     (markDirtyGo fuel g q).topo_dirty = g.topo_dirty ∧
     (markDirtyGo fuel g q).datasets = g.datasets) ∧
    ∀ x ∈ g.dirty, x ∈ (markDirtyGo fuel g q).dirty := by
  induction fuel with
  | zero =>
      intro g q
      simp [markDirtyGo]
  | succ n ih =>
      intro g q
      match q with
      | [] => simp [markDirtyGo]
      | id :: qs =>
          by_cases h : id ∈ g.dirty
          · have hs : insertS g.dirty id = (g.dirty, false) := by
              simp [insertS, h]
            simp only [markDirtyGo, hs]
            obtain ⟨he, hm⟩ := ih { g with dirty := g.dirty } qs
            exact ⟨he, fun x hx => hm x hx⟩
          · have hs : insertS g.dirty id = (g.dirty ++ [id], true) := by
              simp [insertS, h]
            simp only [markDirtyGo, hs]
            obtain ⟨he, hm⟩ := ih { g with dirty := g.dirty ++ [id] } _
            exact ⟨he, fun x hx => hm x (List.mem_append.2 (Or.inl hx))⟩

theorem markDirtyGo_head_mem (n : Nat) (g : EngineGraph) (id : String)
    (qs : List String) :
    id ∈ (markDirtyGo (n + 1) g (id :: qs)).dirty := by
  by_cases h : id ∈ g.dirty
  · have hs : insertS g.dirty id = (g.dirty, false) := by
      simp [insertS, h]
    simp only [markDirtyGo, hs]
    exact (markDirtyGo_fields n _ _).2 id h
  · have hs : insertS g.dirty id = (g.dirty ++ [id], true) := by
      simp [insertS, h]
    simp only [markDirtyGo, hs]
    exact (markDirtyGo_fields n _ _).2 id (by simp)

theorem mark_dirty_fields (g : EngineGraph) (id : String) :
    ((g.mark_dirty id).nodes = g.nodes ∧
     (g.mark_dirty id).edges = g.edges ∧
     (g.mark_dirty id).out_adj = g.out_adj ∧
     (g.mark_dirty id).in_adj = g.in_adj ∧
     (g.mark_dirty id).topo_order = g.topo_order ∧
     (g.mark_dirty id).values = g.values ∧
     (g.mark_dirty id).topo_dirty = g.topo_dirty ∧
     (g.mark_dirty id).datasets = g.datasets) ∧
    (∀ x ∈ g.dirty, x ∈ (g.mark_dirty id).dirty) ∧
    id ∈ (g.mark_dirty id).dirty := by
  refine ⟨(markDirtyGo_fields _ _ _).1, (markDirtyGo_fields _ _ _).2,
    markDirtyGo_head_mem (g.outAdjSize + 1) g id []⟩

-- ── §13 generic foldl invariants ─────────────────────────────────────

theorem foldl_insertA_forall {α β : Type} (key : α → String) (val : α → β)
    (P : String × β → Prop) (hP : ∀ x, P (key x, val x)) :
    ∀ (xs : List α) (m : List (String × β)), (∀ p ∈ m, P p) →
    ∀ p ∈ xs.foldl (fun mm x => insertA mm (key x) (val x)) m, P p := by
  intro xs
  induction xs with
  | nil =>
      intro m hm
      simpa using fun a b hab => hm (a, b) hab
  | cons x t ih =>
      intro m hm
      simp only [List.foldl_cons]
      exact ih _ (insertA_forall hm (hP x))

theorem foldl_insertA_nodup {α β : Type} (key : α → String) (val : α → β) :
    ∀ (xs : List α) (m : List (String × β)), (keysA m).Nodup →
    (keysA (xs.foldl (fun mm x => insertA mm (key x) (val x)) m)).Nodup := by
  intro xs
  induction xs with
  | nil => intro m hm; simpa
  | cons x t ih =>
      intro m hm
      simp only [List.foldl_cons]
      refine ih _ ?_
      rw [keysA_insertA]
      by_cases h : key x ∈ keysA m <;> simp [h, hm, List.nodup_append]

theorem orInsertA_forall {α : Type} {P : String × α → Prop}
    {m : List (String × α)} {k : String} {v : α}
    (hm : ∀ p ∈ m, P p) (hv : P (k, v)) : ∀ p ∈ orInsertA m k v, P p := by
  unfold orInsertA
  by_cases h : containsA m k = true <;> simp only [h, if_true, if_false,
    Bool.false_eq_true, reduceIte]
  · exact hm
  · exact insertA_forall hm hv

theorem getD_nil_of_forall {β : Type} {m : List (String × List β)}
    (hm : ∀ p ∈ m, p.2 = []) (k : String) :
    (lookupA m k).getD [] = [] := by
  cases hl : lookupA m k with
  | none => rfl
  | some v => simpa using hm (k, v) (lookupA_mem hl)

theorem foldl_entry_nilvals {β : Type} :
    ∀ (xs : List NodeDef) (m : List (String × List β)),
    (∀ p ∈ m, p.2 = []) →
    ∀ p ∈ xs.foldl (fun mm x => entryOrDefault mm x.id) m, p.2 = [] := by
  intro xs
  induction xs with
  | nil =>
      intro m hm
      simpa using fun a b hab => hm (a, b) hab
  | cons x t ih =>
      intro m hm
      simp only [List.foldl_cons]
      exact ih _ (orInsertA_forall hm rfl)

theorem mem_insertS_foldl :
    ∀ (ns : List NodeDef) (d : List String) (x : String),
    (x ∈ d ∨ ∃ n ∈ ns, n.id = x) →
    x ∈ ns.foldl (fun dd n => (insertS dd n.id).1) d := by
  intro ns
  induction ns with
  | nil =>
      intro d x h
      simpa using h.resolve_right (by simp)
  | cons n t ih =>
      intro d x h
      simp only [List.foldl_cons]
      rcases h with h | ⟨m, hm, hid⟩
      · exact ih _ _ (Or.inl (mem_insertS.2 (Or.inl h)))
      · rcases List.mem_cons.1 hm with rfl | hm2
        · exact ih _ _ (Or.inl (mem_insertS.2 (Or.inr hid.symm)))
        · exact ih _ _ (Or.inr ⟨m, hm2, hid⟩)

theorem outRowsA_of_map (es : List EdgeDef) (k : String) :
    outRowsA (es.map (fun e => (e.id, e))) k
      = (es.filter (fun e => e.source == k)).map
          (fun e => (e.id, e.target, e.target_handle)) := by
  induction es with
  | nil => simp [outRowsA]
  | cons e t ih =>
      by_cases h : e.source = k <;>
        simp_all [outRowsA, List.filter_cons]

theorem inRowsA_of_map (es : List EdgeDef) (k : String) :
    inRowsA (es.map (fun e => (e.id, e))) k
      = (es.filter (fun e => e.target == k)).map
          (fun e => (e.id, e.source, e.source_handle, e.target_handle)) := by
  induction es with
  | nil => simp [inRowsA]
  | cons e t ih =>
      by_cases h : e.target = k <;>
        simp_all [inRowsA, List.filter_cons]

-- ── §13 load_snapshot characterization ───────────────────────────────

theorem load_snapshot_eq (g : EngineGraph) (S : EngineSnapshotV1) :
    g.load_snapshot S
      = { loadEdgesFold S.edges
            (loadNodesFold S.nodes
              { g with nodes := [], edges := [], out_adj := [], in_adj := [],
                       values := [], dirty := [] })
          with topo_dirty := true } := rfl

theorem loadNodesFold_fields (ns : List NodeDef) :
    ∀ (acc : EngineGraph),
    (loadNodesFold ns acc).nodes
        = ns.foldl (fun m n => insertA m n.id n) acc.nodes ∧
    (loadNodesFold ns acc).out_adj
        = ns.foldl (fun m n => entryOrDefault m n.id) acc.out_adj ∧
    (loadNodesFold ns acc).in_adj
        = ns.foldl (fun m n => entryOrDefault m n.id) acc.in_adj ∧
    (loadNodesFold ns acc).dirty
        = ns.foldl (fun d n => (insertS d n.id).1) acc.dirty ∧
    (loadNodesFold ns acc).edges = acc.edges ∧
    (loadNodesFold ns acc).values = acc.values ∧
    (loadNodesFold ns acc).topo_order = acc.topo_order ∧
    (loadNodesFold ns acc).topo_dirty = acc.topo_dirty ∧
    (loadNodesFold ns acc).datasets = acc.datasets := by
  induction ns with
  | nil => intro acc; simp [loadNodesFold]
  | cons n t ih =>
      intro acc
      simp only [loadNodesFold, List.foldl_cons] at *
      exact ih _

theorem loadEdgesFold_fields (es : List EdgeDef) :
    ∀ (acc : EngineGraph),
    (loadEdgesFold es acc).edges
        = es.foldl (fun m e => insertA m e.id e) acc.edges ∧
    (loadEdgesFold es acc).out_adj
        = es.foldl (fun m e =>
            pushAdj m e.source (e.id, e.target, e.target_handle)) acc.out_adj ∧
    (loadEdgesFold es acc).in_adj
        = es.foldl (fun m e =>
            pushAdj m e.target
              (e.id, e.source, e.source_handle, e.target_handle)) acc.in_adj ∧
    (loadEdgesFold es acc).nodes = acc.nodes ∧
    (loadEdgesFold es acc).values = acc.values ∧
    (loadEdgesFold es acc).dirty = acc.dirty ∧
    (loadEdgesFold es acc).topo_order = acc.topo_order ∧
    (loadEdgesFold es acc).topo_dirty = acc.topo_dirty ∧
    (loadEdgesFold es acc).datasets = acc.datasets := by
  induction es with
  | nil => intro acc; simp [loadEdgesFold]
  | cons e t ih =>
      intro acc
      simp only [loadEdgesFold, List.foldl_cons,
        EngineGraph.add_edge_internal] at *
      exact ih _

theorem insertA_mem_src {α : Type} {m : List (String × α)} {k : String}
    {v : α} {p : String × α} (h : p ∈ insertA m k v) : p ∈ m ∨ p = (k, v) := by
  induction m with
  | nil =>
      simp [insertA] at h
      exact Or.inr h
  | cons q t ih =>
      by_cases h2 : q.1 = k
      · simp only [insertA, h2, if_pos] at h
        rcases List.mem_cons.1 h with rfl | h3
        · exact Or.inr rfl
        · exact Or.inl (List.mem_cons_of_mem _ h3)
      · simp only [insertA, h2, if_false, reduceIte] at h
        rcases List.mem_cons.1 h with rfl | h3
        · exact Or.inl (List.mem_cons_self _ _)
        · rcases ih h3 with h4 | h4
          · exact Or.inl (List.mem_cons_of_mem _ h4)
          · exact Or.inr h4

theorem foldl_insertA_mem_src {α β : Type} (key : α → String) (val : α → β) :
    ∀ (xs : List α) (m : List (String × β)) (p : String × β),
    p ∈ xs.foldl (fun mm x => insertA mm (key x) (val x)) m →
    p ∈ m ∨ ∃ x ∈ xs, p = (key x, val x) := by
  intro xs
  induction xs with
  | nil =>
      intro m p h
      exact Or.inl h
  | cons x t ih =>
      intro m p h
      simp only [List.foldl_cons] at h
      rcases ih _ _ h with h2 | ⟨y, hy, h2⟩
      · rcases insertA_mem_src h2 with h3 | h3
        · exact Or.inl h3
        · exact Or.inr ⟨x, List.mem_cons_self _ _, h3⟩
      · exact Or.inr ⟨y, List.mem_cons_of_mem _ hy, h2⟩

theorem load_new_eq (S : EngineSnapshotV1) :
    EngineGraph.new.load_snapshot S
      = { loadEdgesFold S.edges (loadNodesFold S.nodes EngineGraph.new) with topo_dirty := true } := rfl

theorem new_fields :
    EngineGraph.new.nodes = [] ∧ EngineGraph.new.edges = [] ∧
    EngineGraph.new.out_adj = [] ∧ EngineGraph.new.in_adj = [] ∧
    EngineGraph.new.values = [] ∧ EngineGraph.new.dirty = [] ∧
    EngineGraph.new.datasets = [] :=
  ⟨rfl, rfl, rfl, rfl, rfl, rfl, rfl⟩

theorem Wf_load (S : EngineSnapshotV1)
    (he : (S.edges.map (fun e => e.id)).Nodup) :
    Wf (EngineGraph.new.load_snapshot S) ∧
    (EngineGraph.new.load_snapshot S).edges
      = S.edges.map (fun e => (e.id, e)) ∧
    (EngineGraph.new.load_snapshot S).nodes
      = S.nodes.foldl (fun m n => insertA m n.id n) [] := by
  obtain ⟨n1, n2, n3, n4, n5, n6, n7, n8, n9⟩ :=
    loadNodesFold_fields S.nodes EngineGraph.new
  obtain ⟨e1, e2, e3, e4, e5, e6, e7, e8, e9⟩ :=
    loadEdgesFold_fields S.edges (loadNodesFold S.nodes EngineGraph.new)
  have hLnodes : (EngineGraph.new.load_snapshot S).nodes
      = S.nodes.foldl (fun m n => insertA m n.id n) [] := by
    rw [load_new_eq]
    show (loadEdgesFold _ _).nodes = _
    rw [e4, n1, new_fields.1]
  have hLedges : (EngineGraph.new.load_snapshot S).edges
      = S.edges.map (fun e => (e.id, e)) := by
    rw [load_new_eq]
    show (loadEdgesFold _ _).edges = _
    rw [e1, n5, new_fields.2.1]
    have hfr := foldl_insertA_fresh (fun e : EdgeDef => e.id) (fun e => e)
      S.edges [] (by simp [keysA]) (by simpa using he)
    simpa using hfr
  have hLvalues : (EngineGraph.new.load_snapshot S).values = [] := by
    rw [load_new_eq]
    show (loadEdgesFold _ _).values = _
    rw [e5, n6, new_fields.2.2.2.2.1]
  have hLdatasets : (EngineGraph.new.load_snapshot S).datasets = [] := by
    rw [load_new_eq]
    show (loadEdgesFold _ _).datasets = _
    rw [e9, n9, new_fields.2.2.2.2.2.2]
  have hLdirty : (EngineGraph.new.load_snapshot S).dirty
      = S.nodes.foldl (fun d n => (insertS d n.id).1) [] := by
    rw [load_new_eq]
    show (loadEdgesFold _ _).dirty = _
    rw [e6, n4, new_fields.2.2.2.2.2.1]
  have hbaseOut : ∀ k,
      (lookupA (S.nodes.foldl (fun m n => entryOrDefault m n.id)
        ([] : List (String × List (String × String × String)))) k).getD []
      = [] :=
    fun k => getD_nil_of_forall
      (foldl_entry_nilvals S.nodes [] (by simp)) k
  have hbaseIn : ∀ k,
      (lookupA (S.nodes.foldl (fun m n => entryOrDefault m n.id)
        ([] : List (String × List (String × String × String × String)))) k).getD []
      = [] :=
    fun k => getD_nil_of_forall
      (foldl_entry_nilvals S.nodes [] (by simp)) k
  have hLout : ∀ k, ((lookupA (EngineGraph.new.load_snapshot S).out_adj k).getD [])
      = outRowsA (S.edges.map (fun e => (e.id, e))) k := by
    intro k
    rw [load_new_eq]
    show ((lookupA (loadEdgesFold _ _).out_adj k).getD []) = _
    rw [e2, n2, new_fields.2.2.1]
    have h := foldl_pushAdj_char (fun e => e.source)
      (fun e => (e.id, e.target, e.target_handle)) S.edges
      (S.nodes.foldl (fun m n => entryOrDefault m n.id) []) k
    rw [outRowsA_of_map]
    exact h.trans (by rw [hbaseOut k]; simp)
  have hLin : ∀ k, ((lookupA (EngineGraph.new.load_snapshot S).in_adj k).getD [])
      = inRowsA (S.edges.map (fun e => (e.id, e))) k := by
    intro k
    rw [load_new_eq]
    show ((lookupA (loadEdgesFold _ _).in_adj k).getD []) = _
    rw [e3, n3, new_fields.2.2.2.1]
    have h := foldl_pushAdj_char (fun e => e.target)
      (fun e => (e.id, e.source, e.source_handle, e.target_handle)) S.edges
      (S.nodes.foldl (fun m n => entryOrDefault m n.id) []) k
    rw [inRowsA_of_map]
    exact h.trans (by rw [hbaseIn k]; simp)
  refine ⟨⟨hLvalues, hLdatasets, by rw [load_new_eq], ?_, ?_, ?_, ?_, ?_, ?_, ?_⟩,
    hLedges, hLnodes⟩
  · rw [hLnodes]
    exact foldl_insertA_forall (fun n : NodeDef => n.id) (fun n => n)
      (fun p => p.2.id = p.1) (fun x => rfl) S.nodes [] (by simp)
  · rw [hLnodes]
    exact foldl_insertA_nodup (fun n : NodeDef => n.id) (fun n => n)
      S.nodes [] (by simp [keysA])
  · rw [hLedges]
    intro p hp
    rcases List.mem_map.1 hp with ⟨e, _, rfl⟩
    rfl
  · rw [hLedges]
    have hk : keysA (S.edges.map (fun e => (e.id, e)))
        = S.edges.map (fun e => e.id) := by
      simp [keysA, List.map_map]
    rw [hk]
    exact he
  · intro k
    rw [hLedges]
    exact hLout k
  · intro k
    rw [hLedges]
    exact hLin k
  · rw [hLnodes, hLdirty]
    intro p hp
    rcases foldl_insertA_mem_src (fun n : NodeDef => n.id) (fun n => n)
      S.nodes [] p hp with h | ⟨x, hx, rfl⟩
    · simp at h
    · exact mem_insertS_foldl S.nodes [] _ (Or.inr ⟨x, hx, rfl⟩)

theorem lookupA_updateIfPresent {α : Type} (m : List (String × α)) (k : String)
    (f : α → α) (q : String) :
    lookupA (updateIfPresent m k f) q
      = if k = q then (lookupA m q).map f else lookupA m q := by
  unfold updateIfPresent
  cases hl : lookupA m k with
  | none =>
      by_cases h : k = q
      · subst h
        simp [hl]
      · simp [h]
  | some v =>
      by_cases h : k = q
      · subst h
        simp [lookupA_insertA, hl]
      · simp [lookupA_insertA, h]

theorem eraseEdgeCore_fields (g : EngineGraph) (eid : String) :
    (eraseEdgeCore g eid).nodes = g.nodes ∧
    (eraseEdgeCore g eid).values = g.values ∧
    (eraseEdgeCore g eid).dirty = g.dirty ∧
    (eraseEdgeCore g eid).topo_order = g.topo_order ∧
    (eraseEdgeCore g eid).topo_dirty = g.topo_dirty ∧
    (eraseEdgeCore g eid).datasets = g.datasets ∧
    (eraseEdgeCore g eid).edges = eraseA g.edges eid := by
  unfold eraseEdgeCore EngineGraph.remove_edge_internal
  cases lookupA g.edges eid <;> simp

theorem Wf_eraseEdgeCore {g : EngineGraph} (hw : Wf g) (eid : String) :
    Wf (eraseEdgeCore g eid) := by
  obtain ⟨f1, f2, f3, f4, f5, f6, f7⟩ := eraseEdgeCore_fields g eid
  cases hl : lookupA g.edges eid with
  | none =>
      have hne : eid ∉ keysA g.edges := (lookupA_none_iff _ _).1 hl
      have hcore : eraseEdgeCore g eid = g := by
        unfold eraseEdgeCore EngineGraph.remove_edge_internal
        rw [hl]
        simp [eraseA_not_mem hne]
      rw [hcore]
      exact hw
  | some edge =>
      have hout : (eraseEdgeCore g eid).out_adj
          = updateIfPresent g.out_adj edge.source
              (List.filter (fun r => decide (r.1 ≠ eid))) := by
        unfold eraseEdgeCore EngineGraph.remove_edge_internal
        rw [hl]
      have hin : (eraseEdgeCore g eid).in_adj
          = updateIfPresent g.in_adj edge.target
              (List.filter (fun r => decide (r.1 ≠ eid))) := by
        unfold eraseEdgeCore EngineGraph.remove_edge_internal
        rw [hl]
      have hmem : (eid, edge) ∈ g.edges := lookupA_mem hl
      refine ⟨f2 ▸ hw.values_nil, f6 ▸ hw.datasets_nil, f5 ▸ hw.topo_dirty_true,
        f1 ▸ hw.nodes_keyed, f1 ▸ hw.nodes_nodup, ?_, ?_, ?_, ?_, ?_⟩
      · rw [f7]
        exact fun p hp => hw.edges_keyed p (eraseA_sub p hp)
      · rw [f7, keysA_eraseA]
        exact hw.edges_nodup.filter _
      · intro k
        rw [f7, hout, lookupA_updateIfPresent, outRowsA_erase]
        by_cases hk : edge.source = k
        · subst hk
          cases hrows : lookupA g.out_adj edge.source with
          | none =>
              have h0 := hw.out_fid edge.source
              rw [hrows] at h0
              simp only [Option.getD_none] at h0
              rw [← h0]
              simp
          | some rows =>
              have h0 := hw.out_fid edge.source
              rw [hrows] at h0
              simp only [Option.getD_some] at h0
              simp [h0]
        · simp only [hk, if_false, reduceIte]
          rw [hw.out_fid k]
          refine (List.filter_eq_self.2 (fun r hr => ?_)).symm
          simp only [decide_eq_true_eq]
          intro heq
          rcases mem_outRowsA hr with ⟨p, hp, hpid, hpsrc⟩
          have hpe : p = (eid, p.2) := by
            cases p
            simp_all
          rw [hpe] at hp
          have := nodup_keys_unique hw.edges_nodup hp hmem
          rw [this] at hpsrc
          exact hk hpsrc
      · intro k
        rw [f7, hin, lookupA_updateIfPresent, inRowsA_erase]
        by_cases hk : edge.target = k
        · subst hk
          cases hrows : lookupA g.in_adj edge.target with
          | none =>
              have h0 := hw.in_fid edge.target
              rw [hrows] at h0
              simp only [Option.getD_none] at h0
              rw [← h0]
              simp
          | some rows =>
              have h0 := hw.in_fid edge.target
              rw [hrows] at h0
              simp only [Option.getD_some] at h0
              simp [h0]
        · simp only [hk, if_false, reduceIte]
          rw [hw.in_fid k]
          refine (List.filter_eq_self.2 (fun r hr => ?_)).symm
          simp only [decide_eq_true_eq]
          intro heq
          rcases mem_inRowsA hr with ⟨p, hp, hpid, hptgt⟩
          have hpe : p = (eid, p.2) := by
            cases p
            simp_all
          rw [hpe] at hp
          have := nodup_keys_unique hw.edges_nodup hp hmem
          rw [this] at hptgt
          exact hk hptgt
      · intro p hp
        rw [f3]
        exact hw.dirty_sup p (f1 ▸ hp)

theorem addEdgeCore_fields (g : EngineGraph) (edge : EdgeDef) :
    (addEdgeCore g edge).nodes = g.nodes ∧
    (addEdgeCore g edge).values = g.values ∧
    (addEdgeCore g edge).dirty = g.dirty ∧
    (addEdgeCore g edge).topo_order = g.topo_order ∧
    (addEdgeCore g edge).topo_dirty = g.topo_dirty ∧
    (addEdgeCore g edge).datasets = g.datasets ∧
    (addEdgeCore g edge).edges = insertA g.edges edge.id edge ∧
    (addEdgeCore g edge).out_adj
      = pushAdj g.out_adj edge.source (edge.id, edge.target, edge.target_handle) ∧
    (addEdgeCore g edge).in_adj
      = pushAdj g.in_adj edge.target
          (edge.id, edge.source, edge.source_handle, edge.target_handle) := by
  unfold addEdgeCore EngineGraph.add_edge_internal
  simp

theorem Wf_addEdgeCore {g : EngineGraph} (hw : Wf g) {edge : EdgeDef}
    (hfresh : edge.id ∉ keysA g.edges) : Wf (addEdgeCore g edge) := by
  obtain ⟨f1, f2, f3, f4, f5, f6, f7, f8, f9⟩ := addEdgeCore_fields g edge
  have hedges : (addEdgeCore g edge).edges = g.edges ++ [(edge.id, edge)] := by
    rw [f7, insertA_append _ hfresh]
  refine ⟨f2 ▸ hw.values_nil, f6 ▸ hw.datasets_nil, f5 ▸ hw.topo_dirty_true,
    f1 ▸ hw.nodes_keyed, f1 ▸ hw.nodes_nodup, ?_, ?_, ?_, ?_, ?_⟩
  · rw [hedges]
    intro p hp
    rcases List.mem_append.1 hp with h | h
    · exact hw.edges_keyed p h
    · simp at h
      rw [h]
  · rw [hedges, keysA_append]
    rw [List.nodup_append]
    refine ⟨hw.edges_nodup, by simp [keysA], ?_⟩
    intro x hx
    simp [keysA]
    intro heq
    rw [heq] at hx
    exact hfresh hx
  · intro k
    rw [hedges, f8, outRowsA_append, lookupA_pushAdj]
    by_cases hk : edge.source = k
    · subst hk
      simp [hw.out_fid edge.source]
    · simp [hk, hw.out_fid k]
  · intro k
    rw [hedges, f9, inRowsA_append, lookupA_pushAdj]
    by_cases hk : edge.target = k
    · subst hk
      simp [hw.in_fid edge.target]
    · simp [hk, hw.in_fid k]
  · intro p hp
    rw [f3]
    exact hw.dirty_sup p (f1 ▸ hp)

theorem removeFold_spec :
    ∀ (ids : List String) (g : EngineGraph), Wf g → ids.Nodup →
    (∀ i ∈ ids, i ∈ keysA g.edges) →
    Wf (ids.foldl eraseEdgeCore g) ∧
    (ids.foldl eraseEdgeCore g).edges
        = g.edges.filter (fun p => decide (p.1 ∉ ids)) ∧
    (ids.foldl eraseEdgeCore g).nodes = g.nodes ∧
    (ids.foldl eraseEdgeCore g).values = g.values ∧
    (ids.foldl eraseEdgeCore g).dirty = g.dirty ∧
    (ids.foldl eraseEdgeCore g).topo_dirty = g.topo_dirty ∧
    (ids.foldl eraseEdgeCore g).datasets = g.datasets := by
  intro ids
  induction ids with
  | nil =>
      intro g hw _ _
      simp [hw]
  | cons eid rest ih =>
      intro g hw hnd hmem
      rw [List.nodup_cons] at hnd
      obtain ⟨c1, c2, c3, c4, c5, c6, c7⟩ := eraseEdgeCore_fields g eid
      have hw1 : Wf (eraseEdgeCore g eid) := Wf_eraseEdgeCore hw eid
      have hmem1 : ∀ i ∈ rest, i ∈ keysA (eraseEdgeCore g eid).edges := by
        intro i hi
        rw [c7, keysA_eraseA, List.mem_filter]
        refine ⟨hmem i (List.mem_cons_of_mem _ hi), ?_⟩
        simp only [decide_eq_true_eq]
        intro heq
        exact hnd.1 (heq ▸ hi)
      obtain ⟨w1, w2, w3, w4, w5, w6, w7⟩ :=
        ih (eraseEdgeCore g eid) hw1 hnd.2 hmem1
      simp only [List.foldl_cons]
      refine ⟨w1, ?_, w3.trans c1, w4.trans c2, w5.trans c3, w6.trans c5,
        w7.trans c6⟩
      rw [w2, c7]
      unfold eraseA
      rw [List.filter_filter]
      refine List.filter_congr (fun p _ => ?_)
      by_cases h1 : p.1 = eid <;> by_cases h2 : p.1 ∈ rest <;>
        simp [h1, h2]

theorem Wf_mark {g : EngineGraph} (seed : String)
    (hv : g.values = []) (hd : g.datasets = []) (ht : g.topo_dirty = true)
    (hnk : ∀ p ∈ g.nodes, p.2.id = p.1) (hnn : (keysA g.nodes).Nodup)
    (hek : ∀ p ∈ g.edges, p.2.id = p.1) (hen : (keysA g.edges).Nodup)
    (hof : ∀ k, ((lookupA g.out_adj k).getD []) = outRowsA g.edges k)
    (hif : ∀ k, ((lookupA g.in_adj k).getD []) = inRowsA g.edges k)
    (hds : ∀ p ∈ g.nodes, p.1 ∈ g.dirty ∨ p.1 = seed) :
    Wf (g.mark_dirty seed) := by
  obtain ⟨⟨m1, m2, m3, m4, m5, m6, m7, m8⟩, mono, hseed⟩ :=
    mark_dirty_fields g seed
  refine ⟨m6.trans hv, m8.trans hd, m7.trans ht, m1 ▸ hnk, m1 ▸ hnn,
    m2 ▸ hek, m2 ▸ hen, ?_, ?_, ?_⟩
  · intro k
    rw [m3, m2]
    exact hof k
  · intro k
    rw [m4, m2]
    exact hif k
  · intro p hp
    rcases hds p (m1 ▸ hp) with h | h
    · exact mono p.1 h
    · exact h ▸ hseed

theorem Wf_mark_topo {g : EngineGraph} (seed : String)
    (hv : g.values = []) (hd : g.datasets = [])
    (hnk : ∀ p ∈ g.nodes, p.2.id = p.1) (hnn : (keysA g.nodes).Nodup)
    (hek : ∀ p ∈ g.edges, p.2.id = p.1) (hen : (keysA g.edges).Nodup)
    (hof : ∀ k, ((lookupA g.out_adj k).getD []) = outRowsA g.edges k)
    (hif : ∀ k, ((lookupA g.in_adj k).getD []) = inRowsA g.edges k)
    (hds : ∀ p ∈ g.nodes, p.1 ∈ g.dirty ∨ p.1 = seed) :
    Wf { g.mark_dirty seed with topo_dirty := true } := by
  obtain ⟨⟨m1, m2, m3, m4, m5, m6, m7, m8⟩, mono, hseed⟩ :=
    mark_dirty_fields g seed
  refine ⟨m6.trans hv, m8.trans hd, rfl, m1 ▸ hnk, m1 ▸ hnn,
    m2 ▸ hek, m2 ▸ hen, ?_, ?_, ?_⟩
  · intro k
    show ((lookupA (g.mark_dirty seed).out_adj k).getD [])
      = outRowsA (g.mark_dirty seed).edges k
    rw [m3, m2]
    exact hof k
  · intro k
    show ((lookupA (g.mark_dirty seed).in_adj k).getD [])
      = inRowsA (g.mark_dirty seed).edges k
    rw [m4, m2]
    exact hif k
  · intro p hp
    show p.1 ∈ (g.mark_dirty seed).dirty
    rcases hds p (m1 ▸ hp) with h | h
    · exact mono p.1 h
    · exact h ▸ hseed

theorem applyOp_removeNode_eq (g : EngineGraph) (node_id : String) :
    g.applyOp (PatchOp.removeNode node_id)
      = (let gf := ((g.edges.filter (fun p =>
            p.2.source == node_id || p.2.target == node_id)).map
              (fun p => p.1)).foldl eraseEdgeCore g
         { gf with nodes := eraseA gf.nodes node_id,
                   out_adj := eraseA gf.out_adj node_id,
                   in_adj := eraseA gf.in_adj node_id,
                   values := eraseA gf.values node_id,
                   dirty := removeS gf.dirty node_id,
                   topo_dirty := true }) := rfl

theorem keysA_mark_edges (g : EngineGraph) (seed : String) :
    keysA (g.mark_dirty seed).edges = keysA g.edges := by
  rw [(mark_dirty_fields g seed).1.2.1]

theorem Wf_applyOp {g : EngineGraph} (hw : Wf g) (op : PatchOp)
    (hfresh : ∀ e, op = PatchOp.addEdge e → e.id ∉ keysA g.edges) :
    Wf (g.applyOp op) ∧
    ∀ k ∈ keysA (g.applyOp op).edges, k ∈ keysA g.edges ++ addEdgeIds [op] := by
  cases op with
  | addNode node =>
      simp only [EngineGraph.applyOp]
      constructor
      · refine Wf_mark_topo node.id hw.values_nil hw.datasets_nil
          (insertA_forall hw.nodes_keyed rfl) ?_ hw.edges_keyed
          hw.edges_nodup ?_ ?_ ?_
        · rw [keysA_insertA]
          by_cases h : node.id ∈ keysA g.nodes <;>
            simp [h, hw.nodes_nodup, List.nodup_append]
        · intro k
          show ((lookupA (entryOrDefault g.out_adj node.id) k).getD []) = _
          unfold entryOrDefault
          rw [lookupA_orInsertA]
          by_cases h : node.id = k
          · subst h
            simp [hw.out_fid node.id]
          · simp [h, hw.out_fid k]
        · intro k
          show ((lookupA (entryOrDefault g.in_adj node.id) k).getD []) = _
          unfold entryOrDefault
          rw [lookupA_orInsertA]
          by_cases h : node.id = k
          · subst h
            simp [hw.in_fid node.id]
          · simp [h, hw.in_fid k]
        · intro p hp
          rcases insertA_mem_src hp with h | h
          · exact Or.inl (hw.dirty_sup p h)
          · rw [h]
            exact Or.inr rfl
      · intro k hk
        refine List.mem_append.2 (Or.inl ?_)
        rw [keysA_mark_edges] at hk
        exact hk
  | removeNode node_id =>
      simp only [applyOp_removeNode_eq]
      have hidsnd : ((g.edges.filter (fun p =>
          p.2.source == node_id || p.2.target == node_id)).map
            (fun p => p.1)).Nodup :=
        (((List.filter_sublist g.edges).map
          (fun p : String × EdgeDef => p.1)).nodup hw.edges_nodup)
      have hidsmem : ∀ i ∈ (g.edges.filter (fun p =>
          p.2.source == node_id || p.2.target == node_id)).map (fun p => p.1),
          i ∈ keysA g.edges := by
        intro i hi
        rcases List.mem_map.1 hi with ⟨p, hp, rfl⟩
        exact mem_keysA (List.mem_of_mem_filter hp)
      obtain ⟨wfg, wedges, wnodes, wvalues, wdirty, wtopo, wdata⟩ :=
        removeFold_spec _ g hw hidsnd hidsmem
      have hrows_out : outRowsA ((((g.edges.filter (fun p =>
          p.2.source == node_id || p.2.target == node_id)).map
            (fun p => p.1))).foldl eraseEdgeCore g).edges node_id = [] := by
        rw [wedges]
        rw [List.eq_nil_iff_forall_not_mem]
        intro r hr
        rcases mem_outRowsA hr with ⟨p, hp, _, hsrc⟩
        rw [List.mem_filter] at hp
        have hin : p.1 ∈ (g.edges.filter (fun p =>
            p.2.source == node_id || p.2.target == node_id)).map
              (fun p => p.1) := by
          refine List.mem_map_of_mem _ (List.mem_filter.2 ⟨hp.1, ?_⟩)
          simp [hsrc]
        revert hin
        simpa using hp.2
      have hrows_in : inRowsA ((((g.edges.filter (fun p =>
          p.2.source == node_id || p.2.target == node_id)).map
            (fun p => p.1))).foldl eraseEdgeCore g).edges node_id = [] := by
        rw [wedges]
        rw [List.eq_nil_iff_forall_not_mem]
        intro r hr
        rcases mem_inRowsA hr with ⟨p, hp, _, htgt⟩
        rw [List.mem_filter] at hp
        have hin : p.1 ∈ (g.edges.filter (fun p =>
            p.2.source == node_id || p.2.target == node_id)).map
              (fun p => p.1) := by
          refine List.mem_map_of_mem _ (List.mem_filter.2 ⟨hp.1, ?_⟩)
          simp [htgt]
        revert hin
        simpa using hp.2
      constructor
      · refine ⟨?_, ?_, rfl, ?_, ?_, ?_, ?_, ?_, ?_, ?_⟩
        · show eraseA _ node_id = []
          rw [wvalues, hw.values_nil]
          rfl
        · show _ = ([] : List (String × List F64))
          exact wdata.trans hw.datasets_nil
        · intro p hp
          exact hw.nodes_keyed p (wnodes ▸ eraseA_sub p hp)
        · show (keysA (eraseA _ node_id)).Nodup
          rw [keysA_eraseA, wnodes]
          exact hw.nodes_nodup.filter _
        · intro p hp
          rw [wedges] at hp
          exact hw.edges_keyed p (List.mem_of_mem_filter hp)
        · show (keysA _).Nodup
          rw [wedges]
          exact ((List.filter_sublist g.edges).map
            (fun p : String × EdgeDef => p.1)).nodup hw.edges_nodup
        · intro k
          show ((lookupA (eraseA _ node_id) k).getD []) = _
          rw [lookupA_eraseA]
          by_cases hk : k = node_id
          · subst hk
            simp [hrows_out]
          · simp only [hk, if_false, reduceIte]
            exact wfg.out_fid k
        · intro k
          show ((lookupA (eraseA _ node_id) k).getD []) = _
          rw [lookupA_eraseA]
          by_cases hk : k = node_id
          · subst hk
            simp [hrows_in]
          · simp only [hk, if_false, reduceIte]
            exact wfg.in_fid k
        · intro p hp
          show p.1 ∈ removeS _ node_id
          have hp2 := List.mem_filter.1 hp
          refine mem_removeS.2 ⟨?_, by simpa using hp2.2⟩
          rw [wdirty]
          exact hw.dirty_sup p (wnodes ▸ hp2.1)
      · intro k hk
        refine List.mem_append.2 (Or.inl ?_)
        show k ∈ keysA g.edges
        have : k ∈ keysA ((((g.edges.filter (fun p =>
            p.2.source == node_id || p.2.target == node_id)).map
              (fun p => p.1))).foldl eraseEdgeCore g).edges := hk
        rw [wedges] at this
        rcases List.mem_map.1 this with ⟨p, hp, rfl⟩
        exact mem_keysA (List.mem_of_mem_filter hp)
  | updateNodeData node_id data =>
      simp only [EngineGraph.applyOp]
      cases hl : lookupA g.nodes node_id with
      | none =>
          refine ⟨?_, ?_⟩
          · show Wf g
            exact hw
          · intro k hk
            exact List.mem_append.2 (Or.inl hk)
      | some node =>
          have hid : node.id = node_id := hw.nodes_keyed _ (lookupA_mem hl)
          have hmem : node_id ∈ keysA g.nodes := mem_keysA (lookupA_mem hl)
          constructor
          · refine Wf_mark node_id hw.values_nil hw.datasets_nil
              hw.topo_dirty_true
              (insertA_forall hw.nodes_keyed hid) ?_ hw.edges_keyed
              hw.edges_nodup hw.out_fid hw.in_fid ?_
            · rw [keysA_insertA]
              simp [hmem, hw.nodes_nodup]
            · intro p hp
              rcases insertA_mem_src hp with h | h
              · exact Or.inl (hw.dirty_sup p h)
              · rw [h]
                exact Or.inr rfl
          · intro k hk
            refine List.mem_append.2 (Or.inl ?_)
            rw [keysA_mark_edges] at hk
            exact hk
  | addEdge edge =>
      simp only [EngineGraph.applyOp]
      have hfr : edge.id ∉ keysA g.edges := hfresh edge rfl
      have hw2 : Wf (addEdgeCore g edge) := Wf_addEdgeCore hw hfr
      obtain ⟨a1, a2, a3, a4, a5, a6, a7, a8, a9⟩ := addEdgeCore_fields g edge
      constructor
      · exact Wf_mark_topo edge.target hw2.values_nil hw2.datasets_nil
          hw2.nodes_keyed hw2.nodes_nodup hw2.edges_keyed hw2.edges_nodup
          hw2.out_fid hw2.in_fid
          (fun p hp => Or.inl (hw2.dirty_sup p hp))
      · intro k hk
        rw [keysA_mark_edges] at hk
        have hk2 : k ∈ keysA (addEdgeCore g edge).edges := hk
        rw [a7, keysA_insertA] at hk2
        simp only [hfr, if_false, reduceIte] at hk2
        rcases List.mem_append.1 hk2 with h | h
        · exact List.mem_append.2 (Or.inl h)
        · refine List.mem_append.2 (Or.inr ?_)
          simpa [addEdgeIds] using h
  | removeEdge edge_id =>
      simp only [EngineGraph.applyOp]
      cases hl : lookupA g.edges edge_id with
      | none =>
          refine ⟨?_, ?_⟩
          · show Wf g
            exact hw
          · intro k hk
            exact List.mem_append.2 (Or.inl hk)
      | some edge =>
          have hw2 : Wf (eraseEdgeCore g edge_id) := Wf_eraseEdgeCore hw edge_id
          obtain ⟨c1, c2, c3, c4, c5, c6, c7⟩ := eraseEdgeCore_fields g edge_id
          constructor
          · exact Wf_mark_topo edge.target hw2.values_nil hw2.datasets_nil
              hw2.nodes_keyed hw2.nodes_nodup hw2.edges_keyed hw2.edges_nodup
              hw2.out_fid hw2.in_fid
              (fun p hp => Or.inl (hw2.dirty_sup p hp))
          · intro k hk
            refine List.mem_append.2 (Or.inl ?_)
            rw [keysA_mark_edges] at hk
            have hk2 : k ∈ keysA (eraseEdgeCore g edge_id).edges := hk
            rw [c7, keysA_eraseA] at hk2
            exact List.mem_of_mem_filter hk2

theorem Wf_apply_patch :
    ∀ (ops : List PatchOp) (g : EngineGraph) (avail : List String),
    Wf g → (∀ k ∈ keysA g.edges, k ∈ avail) →
    (avail ++ addEdgeIds ops).Nodup →
    Wf (g.apply_patch ops) := by
  intro ops
  induction ops with
  | nil =>
      intro g avail hw _ _
      exact hw
  | cons op rest ih =>
      intro g avail hw hsub hnd
      have hfresh : ∀ e, op = PatchOp.addEdge e → e.id ∉ keysA g.edges := by
        intro e heq hk
        subst heq
        have hmem : e.id ∈ avail := hsub _ hk
        exact (List.nodup_append.1 hnd).2.2 hmem (by simp [addEdgeIds])
      obtain ⟨hwop, hkeys⟩ := Wf_applyOp hw op hfresh
      have hsub2 : ∀ k ∈ keysA (g.applyOp op).edges,
          k ∈ avail ++ addEdgeIds [op] := by
        intro k hk
        rcases List.mem_append.1 (hkeys k hk) with h | h
        · exact List.mem_append.2 (Or.inl (hsub k h))
        · exact List.mem_append.2 (Or.inr h)
      have hres := ih (g.applyOp op) (avail ++ addEdgeIds [op]) hwop hsub2 ?_
      · exact hres
      · cases op <;> simp_all [addEdgeIds]

-- ── §13 Kahn topological sort: equality and no-duplicates ────────────

theorem USIZE_big : 2 ≤ USIZE := by decide

theorem listMapCongr {α β : Type} {l : List α} {f h : α → β}
    (hc : ∀ a ∈ l, f a = h a) : l.map f = l.map h := by
  induction l with
  | nil => simp
  | cons x t ih =>
      simp only [List.map_cons]
      rw [hc x (List.mem_cons_self _ _), ih (fun a ha => hc a (List.mem_cons_of_mem _ ha))]

theorem kahnGo_congr (f1 f2 : String → List String)
    (h : ∀ id, f1 id = f2 id) :
    ∀ (fuel : Nat) (rem : List (String × Nat)) (q order : List String),
    kahnGo f1 fuel rem q order = kahnGo f2 fuel rem q order := by
  intro fuel
  induction fuel with
  | zero =>
      intro rem q order
      simp [kahnGo]
  | succ n ih =>
      intro rem q order
      cases q with
      | nil => simp [kahnGo]
      | cons id qs =>
          simp only [kahnGo, h id]
          exact ih _ _ _

theorem inDegree_eq_stateless {g : EngineGraph} (hw : Wf g) :
    statelessInDegree g.toSnapshot = g.inDegree := by
  have hndB : (g.nodes.map (fun p : String × NodeDef => p.1)).Nodup :=
    hw.nodes_nodup
  have hidkey : g.nodes.map (fun p => p.2.id) = keysA g.nodes :=
    listMapCongr (fun p hp => hw.nodes_keyed p hp)
  have hndA : ((g.nodes.map (fun p => p.2)).map (fun n : NodeDef => n.id)).Nodup := by
    rw [List.map_map]
    show (g.nodes.map (fun p => p.2.id)).Nodup
    rw [hidkey]
    exact hw.nodes_nodup
  have h1 := foldl_orInsertA_fresh (fun n : NodeDef => n.id)
    (fun _ => (0 : Nat)) (g.nodes.map (fun p => p.2)) [] (by simp [keysA]) hndA
  have h2 := foldl_insertA_fresh (fun p : String × NodeDef => p.1)
    (fun _ => (0 : Nat)) g.nodes [] (by simp [keysA]) hndB
  have hbase : (g.nodes.map (fun p => p.2)).foldl
      (fun m n => orInsertA m n.id 0) []
      = g.nodes.foldl (fun m p => insertA m p.1 0) [] := by
    rw [h1, h2]
    simp only [List.nil_append, List.map_map]
    exact listMapCongr (fun p hp => by
      simp [Function.comp, hw.nodes_keyed p hp])
  simp only [statelessInDegree, EngineGraph.inDegree, EngineGraph.toSnapshot]
  rw [List.foldl_map, hbase]

theorem nbrs_eq_stateless {g : EngineGraph} (hw : Wf g) (id : String) :
    ((lookupA (statelessOutAdj g.toSnapshot) id).getD [])
      = ((lookupA g.out_adj id).getD []).map (fun r => r.2.1) := by
  have hchar := foldl_pushAdj_char (fun e => e.source) (fun e => e.target)
    ((g.toSnapshot).edges)
    ((g.toSnapshot).nodes.foldl (fun m n => entryOrDefault m n.id) []) id
  have hbase : (lookupA ((g.toSnapshot).nodes.foldl
      (fun m n => entryOrDefault m n.id)
      ([] : List (String × List String))) id).getD [] = [] :=
    getD_nil_of_forall (foldl_entry_nilvals _ [] (by simp)) id
  have hL : ((lookupA (statelessOutAdj g.toSnapshot) id).getD [])
      = ((g.toSnapshot).edges.filter (fun e => e.source == id)).map
          (fun e => e.target) := by
    show ((lookupA ((g.toSnapshot).edges.foldl
        (fun m e => pushAdj m e.source e.target)
        ((g.toSnapshot).nodes.foldl (fun m n => entryOrDefault m n.id) []))
          id).getD []) = _
    rw [hchar, hbase]
    simp
  rw [hL, hw.out_fid id]
  show _ = (outRowsA g.edges id).map (fun r => r.2.1)
  unfold outRowsA
  show ((g.edges.map (fun p => p.2)).filter (fun e => e.source == id)).map
      (fun e => e.target) = _
  rw [List.filter_map, List.map_map, List.map_map]
  rfl

theorem kahnDecrement_inv (b : Nat) (O : List String) :
    ∀ (targets : List String) (rem : List (String × Nat)) (queue : List String),
    (O ++ queue).Nodup →
    (∀ t d, lookupA rem t = some d → d < USIZE) →
    (∀ t ∈ O ++ queue, ∀ d, lookupA rem t = some d →
      d = 0 ∨ targets.length + b < d) →
    targets.length + b < USIZE →
    (O ++ (kahnDecrement (rem, queue) targets).2).Nodup ∧
    (∀ t d, lookupA (kahnDecrement (rem, queue) targets).1 t = some d →
      d < USIZE) ∧
    (∀ t ∈ O ++ (kahnDecrement (rem, queue) targets).2, ∀ d,
      lookupA (kahnDecrement (rem, queue) targets).1 t = some d →
      d = 0 ∨ b < d) := by
  intro targets
  induction targets with
  | nil =>
      intro rem queue h1 h2 h3 _
      exact ⟨h1, h2, fun t ht d hd => (h3 t ht d hd).imp_right
        (fun h => by simpa using h)⟩
  | cons u us ih =>
      intro rem queue h1 h2 h3 hU
      have hUb := USIZE_big
      simp only [List.length_cons] at h3 hU
      cases hl : lookupA rem u with
      | none =>
          have hstep : kahnDecrement (rem, queue) (u :: us)
              = kahnDecrement (rem, queue) us := by
            unfold kahnDecrement
            simp only [List.foldl_cons, hl]
          rw [hstep]
          refine ih rem queue h1 h2 (fun t ht d hd => (h3 t ht d hd).imp_right
            (fun h => by omega)) (by omega)
      | some d =>
          have hdU := h2 u d hl
          have hstep : kahnDecrement (rem, queue) (u :: us)
              = kahnDecrement (insertA rem u ((d + (USIZE - 1)) % USIZE),
                  if (d + (USIZE - 1)) % USIZE = 0 then queue ++ [u]
                  else queue) us := by
            unfold kahnDecrement
            simp only [List.foldl_cons, hl]
          rw [hstep]
          by_cases hd0 : d = 0
          · subst hd0
            have hd1 : (0 + (USIZE - 1)) % USIZE = USIZE - 1 := by
              rw [Nat.zero_add]
              exact Nat.mod_eq_of_lt (by omega)
            rw [hd1]
            have hne : ¬ (USIZE - 1 = 0) := by omega
            simp only [hne, if_false, reduceIte]
            refine ih _ queue h1 ?_ ?_ (by omega)
            · intro t dd hdd
              rw [lookupA_insertA] at hdd
              by_cases ht : u = t
              · simp only [ht, if_pos, Option.some.injEq] at hdd
                omega
              · simp only [ht, if_false, reduceIte] at hdd
                exact h2 t dd hdd
            · intro t ht dd hdd
              rw [lookupA_insertA] at hdd
              by_cases htu : u = t
              · simp only [htu, if_pos, Option.some.injEq] at hdd
                right
                omega
              · simp only [htu, if_false, reduceIte] at hdd
                exact (h3 t ht dd hdd).imp_right (fun h => by omega)
          · have hd1 : (d + (USIZE - 1)) % USIZE = d - 1 := by
              rw [show d + (USIZE - 1) = USIZE + (d - 1) by omega,
                Nat.add_mod_left]
              exact Nat.mod_eq_of_lt (by omega)
            rw [hd1]
            by_cases hm : u ∈ O ++ queue
            · have hdbig : us.length + 1 + b < d := by
                rcases h3 u hm d hl with h | h
                · exact (hd0 h).elim
                · exact h
              have hne : ¬ (d - 1 = 0) := by omega
              simp only [hne, if_false, reduceIte]
              refine ih _ queue h1 ?_ ?_ (by omega)
              · intro t dd hdd
                rw [lookupA_insertA] at hdd
                by_cases htu : u = t
                · simp only [htu, if_pos, Option.some.injEq] at hdd
                  omega
                · simp only [htu, if_false, reduceIte] at hdd
                  exact h2 t dd hdd
              · intro t ht dd hdd
                rw [lookupA_insertA] at hdd
                by_cases htu : u = t
                · simp only [htu, if_pos, Option.some.injEq] at hdd
                  right
                  omega
                · simp only [htu, if_false, reduceIte] at hdd
                  exact (h3 t ht dd hdd).imp_right (fun h => by omega)
            · by_cases hz : d - 1 = 0
              · simp only [hz, if_pos]
                refine ih _ (queue ++ [u]) ?_ ?_ ?_ (by omega)
                · rw [← List.append_assoc, List.nodup_append]
                  refine ⟨h1, by simp, ?_⟩
                  intro x hx
                  simp only [List.mem_singleton]
                  intro heq
                  exact hm (heq ▸ hx)
                · intro t dd hdd
                  rw [lookupA_insertA] at hdd
                  by_cases htu : u = t
                  · simp only [htu, if_pos, Option.some.injEq] at hdd
                    omega
                  · simp only [htu, if_false, reduceIte] at hdd
                    exact h2 t dd hdd
                · intro t ht dd hdd
                  rw [lookupA_insertA] at hdd
                  by_cases htu : u = t
                  · simp only [htu, if_pos, Option.some.injEq] at hdd
                    left
                    omega
                  · simp only [htu, if_false, reduceIte] at hdd
                    rw [← List.append_assoc] at ht
                    rcases List.mem_append.1 ht with ht2 | ht2
                    · exact (h3 t ht2 dd hdd).imp_right (fun h => by omega)
                    · simp only [List.mem_singleton] at ht2
                      exact (htu ht2.symm).elim
              · simp only [hz, if_false, reduceIte]
                refine ih _ queue h1 ?_ ?_ (by omega)
                · intro t dd hdd
                  rw [lookupA_insertA] at hdd
                  by_cases htu : u = t
                  · simp only [htu, if_pos, Option.some.injEq] at hdd
                    omega
                  · simp only [htu, if_false, reduceIte] at hdd
                    exact h2 t dd hdd
                · intro t ht dd hdd
                  rw [lookupA_insertA] at hdd
                  by_cases htu : u = t
                  · subst htu
                    exact (hm ht).elim
                  · simp only [htu, if_false, reduceIte] at hdd
                    exact (h3 t ht dd hdd).imp_right (fun h => by omega)

theorem kahnGo_nodup (nbrs : String → List String) (M : Nat)
    (hM : ∀ id, (nbrs id).length ≤ M) :
    ∀ (fuel : Nat) (rem : List (String × Nat)) (queue order : List String),
    (order ++ queue).Nodup →
    (∀ t d, lookupA rem t = some d → d < USIZE) →
    (∀ t ∈ order ++ queue, ∀ d, lookupA rem t = some d →
      d = 0 ∨ fuel * M < d) →
    fuel * M < USIZE →
    (kahnGo nbrs fuel rem queue order).Nodup := by
  intro fuel
  induction fuel with
  | zero =>
      intro rem queue order hnd _ _ _
      simp only [kahnGo]
      exact ((List.sublist_append_left order queue).nodup hnd)
  | succ n ih =>
      intro rem queue order hnd hlt hmem hU
      cases queue with
      | nil =>
          simp only [kahnGo]
          exact (by simpa using hnd)
      | cons id qs =>
          simp only [kahnGo]
          have hrearr : (order ++ [id]) ++ qs = order ++ id :: qs := by
            rw [List.append_assoc]
            rfl
          have hnd2 : ((order ++ [id]) ++ qs).Nodup := by
            rw [hrearr]
            exact hnd
          have hmem2 : ∀ t ∈ (order ++ [id]) ++ qs, ∀ d,
              lookupA rem t = some d →
              d = 0 ∨ (nbrs id).length + n * M < d := by
            intro t ht d hd
            rw [hrearr] at ht
            refine (hmem t ht d hd).imp_right (fun h => ?_)
            have := hM id
            have hle : (nbrs id).length + n * M ≤ (n + 1) * M := by
              rw [Nat.succ_mul]
              omega
            omega
          have hUb : (nbrs id).length + n * M < USIZE := by
            have := hM id
            have hle : (nbrs id).length + n * M ≤ (n + 1) * M := by
              rw [Nat.succ_mul]
              omega
            omega
          obtain ⟨k1, k2, k3⟩ := kahnDecrement_inv (n * M) (order ++ [id])
            (nbrs id) rem qs hnd2 hlt hmem2 hUb
          refine ih _ _ _ k1 k2 k3 ?_
          have : n * M ≤ (n + 1) * M := by
            rw [Nat.succ_mul]
            omega
          omega

theorem mem_seeds_zero {m : List (String × Nat)} {t : String}
    (hnd : (keysA m).Nodup)
    (ht : t ∈ (m.filter (fun p => p.2 == 0)).map (fun p => p.1)) :
    lookupA m t = some 0 := by
  rcases List.mem_map.1 ht with ⟨p, hp, rfl⟩
  rw [List.mem_filter] at hp
  have hz : p.2 = 0 := by simpa using hp.2
  have hpair : p = (p.1, 0) := by
    cases p
    simp_all
  rw [hpair] at hp
  exact mem_lookupA hnd hp.1

theorem kahnTopo_nodup (inDeg : List (String × Nat))
    (nbrs : String → List String) (M : Nat)
    (hM : ∀ id, (nbrs id).length ≤ M)
    (hkeys : (keysA inDeg).Nodup)
    (hvals : ∀ t d, lookupA inDeg t = some d → d < USIZE)
    (hU : (inDeg.length + 1) * M < USIZE) :
    (kahnTopo inDeg nbrs).Nodup := by
  unfold kahnTopo
  refine kahnGo_nodup nbrs M hM (inDeg.length + 1) inDeg _ [] ?_ hvals ?_ hU
  · simp only [List.nil_append]
    exact ((List.filter_sublist inDeg).map (fun p : String × Nat => p.1)).nodup
      hkeys
  · intro t ht d hd
    rw [List.nil_append] at ht
    rw [mem_seeds_zero hkeys ht] at hd
    left
    exact (Option.some_inj.1 hd).symm

theorem foldl_bumpA_nodup {α : Type} (key : α → String) :
    ∀ (xs : List α) (m : List (String × Nat)), (keysA m).Nodup →
    (keysA (xs.foldl (fun mm x => bumpA mm (key x)) m)).Nodup := by
  intro xs
  induction xs with
  | nil =>
      intro m hm
      simpa
  | cons x t ih =>
      intro m hm
      simp only [List.foldl_cons]
      refine ih _ ?_
      rw [keysA_bumpA]
      by_cases h : key x ∈ keysA m <;> simp [h, hm, List.nodup_append]

theorem foldl_bumpA_bound {α : Type} (key : α → String) :
    ∀ (xs : List α) (m : List (String × Nat)) (B : Nat),
    (∀ t d, lookupA m t = some d → d ≤ B) →
    ∀ t d, lookupA (xs.foldl (fun mm x => bumpA mm (key x)) m) t = some d →
    d ≤ B + xs.length := by
  intro xs
  induction xs with
  | nil =>
      intro m B hm t d hd
      simpa using hm t d hd
  | cons x tl ih =>
      intro m B hm t d hd
      simp only [List.foldl_cons] at hd
      have hstep : ∀ t2 d2, lookupA (bumpA m (key x)) t2 = some d2 →
          d2 ≤ B + 1 := by
        intro t2 d2 hd2
        rw [lookupA_bumpA] at hd2
        by_cases h : key x = t2
        · simp only [h, if_pos, Option.some.injEq] at hd2
          cases hl : lookupA m t2 with
          | none =>
              rw [hl] at hd2
              simp at hd2
              omega
          | some d3 =>
              rw [hl] at hd2
              simp at hd2
              have := hm t2 d3 hl
              omega
        · simp only [h, if_false, reduceIte] at hd2
          exact Nat.le_succ_of_le (hm t2 d2 hd2)
      have := ih (bumpA m (key x)) (B + 1) hstep t d hd
      simp only [List.length_cons]
      omega

theorem inDegree_keys_nodup (g : EngineGraph) : (keysA g.inDegree).Nodup := by
  show (keysA (g.edges.foldl (fun m p => bumpA m p.2.target)
    (g.nodes.foldl (fun m p => insertA m p.1 0) []))).Nodup
  exact foldl_bumpA_nodup (fun p : String × EdgeDef => p.2.target) g.edges _
    (foldl_insertA_nodup (fun p : String × NodeDef => p.1) (fun _ => 0)
      g.nodes [] (by simp [keysA]))

theorem inDegree_vals_bound (g : EngineGraph) :
    ∀ t d, lookupA g.inDegree t = some d → d ≤ g.edges.length := by
  intro t d hd
  have hbase : ∀ t2 d2,
      lookupA (g.nodes.foldl (fun m p => insertA m p.1 0) []) t2 = some d2 →
      d2 ≤ 0 := by
    intro t2 d2 hd2
    have hmem := lookupA_mem hd2
    have := foldl_insertA_forall (fun p : String × NodeDef => p.1)
      (fun _ => (0 : Nat)) (fun p => p.2 = 0) (fun _ => rfl) g.nodes []
      (by simp) _ hmem
    simp at this
    omega
  have := foldl_bumpA_bound (fun p : String × EdgeDef => p.2.target)
    g.edges _ 0 hbase t d hd
  omega

theorem nbrs_len_bound {g : EngineGraph} (hw : Wf g) (id : String) :
    (((lookupA g.out_adj id).getD []).map (fun r => r.2.1)).length
      ≤ g.edges.length := by
  rw [List.length_map, hw.out_fid id]
  unfold outRowsA
  rw [List.length_map]
  exact List.length_filter_le _ _

theorem topo_nodup {g : EngineGraph} (hw : Wf g)
    (hsz : (g.inDegree.length + 1) * g.edges.length < USIZE) :
    (kahnTopo g.inDegree
      (fun id => ((lookupA g.out_adj id).getD []).map (fun r => r.2.1))).Nodup := by
  have hE : g.edges.length < USIZE := by
    have h1 : g.edges.length ≤ (g.inDegree.length + 1) * g.edges.length :=
      Nat.le_mul_of_pos_left _ (by omega)
    omega
  refine kahnTopo_nodup g.inDegree _ g.edges.length
    (fun id => nbrs_len_bound hw id) (inDegree_keys_nodup g) ?_ hsz
  intro t d hd
  have := inDegree_vals_bound g t d hd
  omega

-- ── §13 the evaluation walk: incremental = stateless ─────────────────

theorem node_map_eq {g : EngineGraph} (hw : Wf g) :
    (g.toSnapshot).nodes.foldl (fun m n => insertA m n.id n) [] = g.nodes := by
  have hidkey : g.nodes.map (fun p => p.2.id) = keysA g.nodes :=
    listMapCongr (fun p hp => hw.nodes_keyed p hp)
  have hnd : ((g.nodes.map (fun p => p.2)).map (fun n : NodeDef => n.id)).Nodup := by
    rw [List.map_map]
    show (g.nodes.map (fun p => p.2.id)).Nodup
    rw [hidkey]
    exact hw.nodes_nodup
  show (g.nodes.map (fun p => p.2)).foldl (fun m n => insertA m n.id n) [] = _
  rw [foldl_insertA_fresh (fun n : NodeDef => n.id) (fun n => n) _ []
    (by simp [keysA]) hnd]
  simp only [List.nil_append, List.map_map]
  have hcg : ∀ p ∈ g.nodes,
      (((fun x : NodeDef => (x.id, x)) ∘ (fun p : String × NodeDef => p.2)) p)
        = id p := by
    intro p hp
    have := hw.nodes_keyed p hp
    cases p
    simp_all [Function.comp]
  rw [listMapCongr hcg, List.map_id]

theorem in_edges_rows {g : EngineGraph} (hw : Wf g) (k : String) :
    ((lookupA (statelessInEdges (g.toSnapshot).edges) k).getD [])
      = (inRowsA g.edges k).map (fun r => r.2) := by
  have hchar := foldl_pushAdj_char (fun e => e.target)
    (fun e => (e.source, e.source_handle, e.target_handle))
    ((g.toSnapshot).edges) [] k
  show ((lookupA ((g.toSnapshot).edges.foldl (fun m e =>
      pushAdj m e.target (e.source, e.source_handle, e.target_handle)) [])
        k).getD []) = _
  rw [hchar]
  simp only [lookupA, Option.getD_none, List.nil_append]
  unfold inRowsA
  show ((g.edges.map (fun p => p.2)).filter (fun e => e.target == k)).map
      (fun e => (e.source, e.source_handle, e.target_handle)) = _
  rw [List.filter_map, List.map_map, List.map_map]
  rfl

theorem gather_eq (vals : List (String × Value)) :
    ∀ (rows : List (String × String × String × String))
      (acc : List (String × Value)),
    rows.foldl (fun acc r =>
      match lookupA vals r.2.1 with
      | some val => insertA acc r.2.2.2 val
      | none => acc) acc
    = (rows.map (fun r => r.2)).foldl (fun acc r =>
      match lookupA vals r.1 with
      | some val => insertA acc r.2.2 val
      | none => acc) acc := by
  intro rows
  induction rows with
  | nil => intro acc; rfl
  | cons r t ih =>
      intro acc
      simp only [List.map_cons, List.foldl_cons]
      cases hl : lookupA vals r.2.1 <;> simp only [hl] <;> exact ih _

theorem gather_bridge {g : EngineGraph}
    {inE : List (String × List (String × String × String))}
    (hinE : ∀ k, ((lookupA inE k).getD [])
      = (inRowsA g.edges k).map (fun r => r.2))
    (hfid : ∀ k, ((lookupA g.in_adj k).getD []) = inRowsA g.edges k)
    (vals : List (String × Value)) (hv : g.values = vals) (id : String) :
    gatherInputs g.in_adj g.values id = gatherStateless inE vals id := by
  unfold gatherInputs gatherStateless
  rw [hfid id, hinE id, hv]
  exact gather_eq vals (inRowsA g.edges id) []

theorem walk_values (E : Dispatch) (opts : EvalOptions)
    (cb : Nat → Nat → EvalSignal) (dc : Nat)
    (hcb : ∀ a b, (cb a b == EvalSignal.Abort) = false)
    (nodeMap : List (String × NodeDef))
    (inE : List (String × List (String × String × String))) :
    ∀ (rest : List String) (g : EngineGraph) (acc : LoopAcc)
      (stVals : List (String × Value)) (stD : List Diagnostic),
    rest.Nodup →
    (keysA g.nodes).Nodup →
    g.datasets = [] →
    nodeMap = g.nodes →
    (∀ k, ((lookupA inE k).getD [])
      = (inRowsA g.edges k).map (fun r => r.2)) →
    (∀ k, ((lookupA g.in_adj k).getD []) = inRowsA g.edges k) →
    g.values = stVals →
    acc.changed_values = g.values →
    (∀ k ∈ keysA g.values, k ∉ rest) →
    (∀ p ∈ g.nodes, p.1 ∈ rest → p.1 ∈ g.dirty) →
    (evalDirtyGo E opts cb dc rest g acc).1.values
        = (evalStatelessGo E nodeMap inE rest (stVals, stD)).1 ∧
    (evalDirtyGo E opts cb dc rest g acc).2.changed_values
        = (evalDirtyGo E opts cb dc rest g acc).1.values := by
  intro rest
  induction rest with
  | nil =>
      intro g acc stVals stD _ _ _ _ _ _ hgv hch _ _
      exact ⟨hgv, hch.trans rfl⟩
  | cons id rest ih =>
      intro g acc stVals stD hnd hknd hds hnm hinE hfid hgv hch hvk hdirty
      rw [List.nodup_cons] at hnd
      by_cases hdid : id ∈ g.dirty
      · cases hl : lookupA g.nodes id with
        | none =>
            have hstep : evalDirtyGo E opts cb dc (id :: rest) g acc
                = evalDirtyGo E opts cb dc rest
                    { g with dirty := removeS g.dirty id } acc := by
              simp only [evalDirtyGo, hdid, not_true_eq_false, if_false, hl,
                reduceIte]
            have hstep2 : evalStatelessGo E nodeMap inE (id :: rest)
                (stVals, stD) = evalStatelessGo E nodeMap inE rest
                  (stVals, stD) := by
              simp only [evalStatelessGo, hnm, hl]
            rw [hstep, hstep2]
            refine ih _ acc stVals stD hnd.2 hknd hds hnm hinE hfid hgv hch
              (fun k hk => fun hkr => hvk k hk (List.mem_cons_of_mem _ hkr))
              ?_
            intro p hp hpr
            refine mem_removeS.2 ⟨hdirty p hp (List.mem_cons_of_mem _ hpr), ?_⟩
            intro heq
            rw [← heq] at hl
            exact ((lookupA_none_iff _ _).1 hl) (mem_keysA hp)
        | some node =>
            have hvid : lookupA g.values id = none := by
              rw [lookupA_none_iff]
              intro hk
              exact hvk id hk (List.mem_cons_self _ _)
            have hfr := processNode_fresh E opts node id
              { g with dirty := removeS g.dirty id } acc hvid
            have hac := processNode_acc E opts node id
              { g with dirty := removeS g.dirty id } acc
            have hstep : evalDirtyGo E opts cb dc (id :: rest) g acc
                = evalDirtyGo E opts cb dc rest
                    (processNode E opts node id
                      { g with dirty := removeS g.dirty id } acc).1
                    (processNode E opts node id
                      { g with dirty := removeS g.dirty id } acc).2 := by
              simp only [evalDirtyGo, hdid, not_true_eq_false, if_false, hl,
                hcb, Bool.false_eq_true, reduceIte]
            have hres : nodeResult E node id
                { g with dirty := removeS g.dirty id }
                = E node.block_type
                    (applyManuals node.data (gatherStateless inE stVals id))
                    node.data [] := by
              show E node.block_type (applyManuals node.data
                  (gatherInputs g.in_adj g.values id)) node.data g.datasets
                = _
              rw [hds, gather_bridge hinE hfid stVals hgv id]
            have hstep2 : evalStatelessGo E nodeMap inE (id :: rest)
                (stVals, stD)
                = evalStatelessGo E nodeMap inE rest
                    (insertA stVals id
                      (E node.block_type
                        (applyManuals node.data
                          (gatherStateless inE stVals id)) node.data []),
                     (match E node.block_type
                        (applyManuals node.data
                          (gatherStateless inE stVals id)) node.data [] with
                      | .error message =>
                          if message.startsWith "Unknown block type" then
                            stD ++ [{ node_id := some id,
                                      level := DiagLevel.Warning,
                                      code := "UNKNOWN_BLOCK",
                                      message := message }]
                          else stD
                      | _ => stD)) := by
              simp only [evalStatelessGo, hnm, hl]
            rw [hstep, hstep2, hfr, hac]
            refine ih _ _ _ _ hnd.2 hknd hds hnm hinE hfid ?_ ?_ ?_ ?_
            · show insertA g.values id _ = insertA stVals id _
              rw [hres, hgv]
            · show insertA acc.changed_values id _ = insertA g.values id _
              rw [hch]
            · intro k hk
              show k ∉ rest
              have : k ∈ keysA (insertA g.values id
                  (nodeResult E node id
                    { g with dirty := removeS g.dirty id })) := hk
              rw [keysA_insertA] at this
              by_cases hmem : id ∈ keysA g.values
              · rw [if_pos hmem] at this
                exact fun hr => hvk k this (List.mem_cons_of_mem _ hr)
              · rw [if_neg hmem] at this
                rcases List.mem_append.1 this with h | h
                · exact fun hr => hvk k h (List.mem_cons_of_mem _ hr)
                · simp only [List.mem_singleton] at h
                  rw [h]
                  exact hnd.1
            · intro p hp hpr
              show p.1 ∈ removeS g.dirty id
              refine mem_removeS.2
                ⟨hdirty p hp (List.mem_cons_of_mem _ hpr), ?_⟩
              intro heq
              rw [heq] at hpr
              exact hnd.1 hpr
      · have hlnone : lookupA g.nodes id = none := by
          rw [lookupA_none_iff]
          intro hk
          rcases List.mem_map.1 hk with ⟨p, hp, rfl⟩
          exact hdid (hdirty p hp (List.mem_cons_self _ _))
        have hstep : evalDirtyGo E opts cb dc (id :: rest) g acc
            = evalDirtyGo E opts cb dc rest g acc := by
          simp only [evalDirtyGo, hdid, not_false_eq_true, if_true, reduceIte]
        have hstep2 : evalStatelessGo E nodeMap inE (id :: rest)
            (stVals, stD) = evalStatelessGo E nodeMap inE rest
              (stVals, stD) := by
          simp only [evalStatelessGo, hnm, hlnone]
        rw [hstep, hstep2]
        exact ih _ acc stVals stD hnd.2 hknd hds hnm hinE hfid hgv hch
          (fun k hk hkr => hvk k hk (List.mem_cons_of_mem _ hkr))
          (fun p hp hpr => hdirty p hp (List.mem_cons_of_mem _ hpr))

theorem rebuiltOf_fields (g : EngineGraph) :
    (rebuiltOf g).nodes = g.nodes ∧ (rebuiltOf g).edges = g.edges ∧
    (rebuiltOf g).out_adj = g.out_adj ∧ (rebuiltOf g).in_adj = g.in_adj ∧
    (rebuiltOf g).values = g.values ∧ (rebuiltOf g).dirty = g.dirty ∧
    (rebuiltOf g).datasets = g.datasets ∧
    (rebuiltOf g).topo_order
      = kahnTopo g.inDegree
          (fun id => ((lookupA g.out_adj id).getD []).map
            (fun r => r.2.1)) := by
  unfold rebuiltOf EngineGraph.rebuild_topo
  simp

theorem with_callback_dirty_vals (E : Dispatch) (opts : EvalOptions)
    (cb : Nat → Nat → EvalSignal) (g : EngineGraph)
    (h : g.topo_dirty = true) :
    (g.evaluate_dirty_with_callback E opts cb).1.values
        = (evalDirtyGo E opts cb (rebuiltOf g).dirty.length
            (rebuiltOf g).topo_order (rebuiltOf g)
            { changed_values := [], diagnostics := rebuildDiags g,
              trace := [], evaluated_count := 0,
              isPartial := false }).1.values ∧
    (g.evaluate_dirty_with_callback E opts cb).2.changed_values
        = (evalDirtyGo E opts cb (rebuiltOf g).dirty.length
            (rebuiltOf g).topo_order (rebuiltOf g)
            { changed_values := [], diagnostics := rebuildDiags g,
              trace := [], evaluated_count := 0,
              isPartial := false }).2.changed_values := by
  constructor <;>
    · simp only [EngineGraph.evaluate_dirty_with_callback, h, rebuiltOf,
        rebuildDiags]
      simp

theorem topoSt_eq_topoInc {g : EngineGraph} (hw : Wf g) :
    kahnTopo (statelessInDegree g.toSnapshot)
        (fun id => (lookupA (statelessOutAdj g.toSnapshot) id).getD [])
      = kahnTopo g.inDegree
        (fun id => ((lookupA g.out_adj id).getD []).map (fun r => r.2.1)) := by
  rw [inDegree_eq_stateless hw]
  unfold kahnTopo
  exact kahnGo_congr _ _ (fun id => nbrs_eq_stateless hw id) _ _ _ _

theorem incremental_matches_stateless (E : Dispatch) (g : EngineGraph)
    (hw : Wf g)
    (hsz : (g.inDegree.length + 1) * g.edges.length < USIZE) :
    (g.evaluate_dirty E).1.values = (evaluate E g.toSnapshot).values ∧
    (g.evaluate_dirty E).2.changed_values
      = (evaluate E g.toSnapshot).values := by
  obtain ⟨r1, r2, r3, r4, r5, r6, r7, r8⟩ := rebuiltOf_fields g
  have hwc := with_callback_dirty_vals E {} (fun _ _ => EvalSignal.Continue)
    g hw.topo_dirty_true
  have hvals : (rebuiltOf g).values = [] := r5.trans hw.values_nil
  have hwalk := walk_values E {} (fun _ _ => EvalSignal.Continue)
    (rebuiltOf g).dirty.length (fun a b => rfl)
    ((g.toSnapshot).nodes.foldl (fun m n => insertA m n.id n) [])
    (statelessInEdges (g.toSnapshot).edges)
    ((rebuiltOf g).topo_order) (rebuiltOf g)
    { changed_values := [], diagnostics := rebuildDiags g, trace := [],
      evaluated_count := 0, isPartial := false }
    []
    (if (kahnTopo (statelessInDegree g.toSnapshot)
          (fun id => (lookupA (statelessOutAdj g.toSnapshot) id).getD
            [])).length < (g.toSnapshot).nodes.length then
        ((g.toSnapshot).nodes.filter (fun n => decide (n.id ∉
          kahnTopo (statelessInDegree g.toSnapshot)
            (fun id => (lookupA (statelessOutAdj g.toSnapshot) id).getD
              [])))).map (fun n => cycleDiag n.id)
      else [])
    (by rw [r8]; exact topo_nodup hw hsz)
    (by rw [r1]; exact hw.nodes_nodup)
    (r7.trans hw.datasets_nil)
    (by rw [r1]; exact node_map_eq hw)
    (by intro k; rw [r2]; exact in_edges_rows hw k)
    (by intro k; rw [r4, r2]; exact hw.in_fid k)
    hvals
    hvals.symm
    (by intro k hk; rw [hvals] at hk; simp [keysA] at hk)
    (by intro p hp _; rw [r6]; exact hw.dirty_sup p (r1 ▸ hp))
  constructor
  · show (g.evaluate_dirty_with_callback E {}
        (fun _ _ => EvalSignal.Continue)).1.values = _
    rw [hwc.1, hwalk.1]
    show (evalStatelessGo E _ _ (rebuiltOf g).topo_order _).1
      = (evalStatelessGo E _ _
          (kahnTopo (statelessInDegree g.toSnapshot)
            (fun id => (lookupA (statelessOutAdj g.toSnapshot) id).getD []))
          _).1
    rw [r8, topoSt_eq_topoInc hw]
  · show (g.evaluate_dirty_with_callback E {}
        (fun _ _ => EvalSignal.Continue)).2.changed_values = _
    rw [hwc.2, hwalk.2, hwalk.1]
    show (evalStatelessGo E _ _ (rebuiltOf g).topo_order _).1
      = (evalStatelessGo E _ _
          (kahnTopo (statelessInDegree g.toSnapshot)
            (fun id => (lookupA (statelessOutAdj g.toSnapshot) id).getD []))
          _).1
    rw [r8, topoSt_eq_topoInc hw]

/-- C1 counterexample: after loading `snapC1` (edge `e1 : a → t.value`)
and patching with `AddEdge` re-using the id `e1` (`b → t.other`), the
incremental engine shows `t = 1.0` while the one-shot stateless run of the
patched snapshot shows `t = NaN` — `insertA` replaced the edge-map entry
but `add_edge_internal` pushed a second (phantom) adjacency row, so the
two evaluators see different graphs. -/
theorem counterexample_C1_duplicate_edge_id :
    lookupA (run_patch evaluate_node_with_datasets
        (EngineGraph.new.load_snapshot snapC1) patchC1).1.values "t"
      = some (Value.scalar (F64.num 1))
    ∧ ((run evaluate_node_with_datasets
        ((EngineGraph.new.load_snapshot snapC1).apply_patch
          patchC1).toSnapshot).toOption.map
            (fun r => lookupA r.values "t"))
      = some (some (Value.scalar (F64.nan 0)))
    ∧ Value.scalar (F64.num 1) ≠ Value.scalar (F64.nan 0) := by
  decide

/-- C3 counterexample: `snapC3` carries two edges with the same id `e1`;
the incremental load keeps both adjacency rows but only the last edge-map
entry, while the stateless evaluator keeps both edges — the in-degree of
`t` differs (1 vs 2), `t` is reachable only incrementally (its stateless
in-degree never drops to 0 because of the `b↔c` cycle), so
`load→evaluate_dirty` shows `t = 1.0` while `run` has no value for `t`. -/
theorem counterexample_C3_duplicate_ids_divergence :
    ((run_load_snapshot evaluate_node_with_datasets EngineGraph.new
        snapC3).toOption.map (fun out => lookupA out.2.values "t"))
      = some (some (Value.scalar (F64.num 1)))
    ∧ ((run evaluate_node_with_datasets snapC3).toOption.map
        (fun r => lookupA r.values "t"))
      = some none := by
  decide

/-- C1 (amended): incremental ↔ full equivalence.  For every version-1
snapshot S and patch list P whose `AddEdge` ids together with S's edge ids
are pairwise distinct (the unconditional claim is refuted by
`counterexample_C1_duplicate_edge_id`), and whose in-degree table is small
enough that the `usize` decrements of Kahn's algorithm cannot wrap
(always true below 2⁶⁴ nodes + edges), loading S, applying P and running
`evaluate_dirty` yields a `values` map equal — bitwise, entry by entry —
to the one-shot stateless `run` of the patched snapshot S ⊕ P. -/
theorem claim_C1_incremental_full_equivalence (E : Dispatch)
    (S : EngineSnapshotV1) (P : List PatchOp)
    (hv : S.version = 1)
    (hids : (S.edges.map (fun e => e.id) ++ addEdgeIds P).Nodup)
    (hsz : ((((EngineGraph.new.load_snapshot S).apply_patch P).inDegree).length
          + 1) * ((EngineGraph.new.load_snapshot S).apply_patch P).edges.length
        < USIZE) :
    ∃ r, run E (((EngineGraph.new.load_snapshot S).apply_patch P).toSnapshot)
        = Except.ok r
      ∧ (run_patch E (EngineGraph.new.load_snapshot S) P).1.values
        = r.values := by
  obtain ⟨hwl, hedges, hnodes⟩ := Wf_load S (List.nodup_append.1 hids).1
  have hkeys : ∀ k ∈ keysA (EngineGraph.new.load_snapshot S).edges,
      k ∈ S.edges.map (fun e => e.id) := by
    intro k hk
    rw [hedges] at hk
    simpa [keysA, List.map_map] using hk
  have hwp : Wf ((EngineGraph.new.load_snapshot S).apply_patch P) :=
    Wf_apply_patch P _ (S.edges.map (fun e => e.id)) hwl hkeys hids
  obtain ⟨hv1, _⟩ := incremental_matches_stateless E _ hwp hsz
  exact ⟨_, rfl, hv1⟩

/-- C3 (amended): determinism.  Repeated `run`s of the same snapshot are
bit-identical and `evaluate_dirty` on a fixed graph is bit-identical
across calls (both are pure functions of their inputs in the model, with
canonicalized NaN and `to_bits` equality); and for every version-1
snapshot whose node ids and edge ids are each pairwise distinct (the
unconditional load-vs-run coincidence is refuted by
`counterexample_C3_duplicate_ids_divergence`) and small enough that the
`usize` in-degree decrements cannot wrap, `load → evaluate_dirty` returns
the same `values` map as the stateless `run`. -/
theorem claim_C3_determinism (E : Dispatch) (S : EngineSnapshotV1)
    (hv : S.version = 1)
    (hn : (S.nodes.map (fun n => n.id)).Nodup)
    (he : (S.edges.map (fun e => e.id)).Nodup)
    (hsz : ((EngineGraph.new.load_snapshot S).inDegree.length + 1)
        * (EngineGraph.new.load_snapshot S).edges.length < USIZE) :
    run E S = run E S ∧
    (∀ g : EngineGraph, g.evaluate_dirty E = g.evaluate_dirty E) ∧
    ∃ r out, run E S = Except.ok r
      ∧ run_load_snapshot E EngineGraph.new S = Except.ok out
      ∧ out.2.values = r.values := by
  obtain ⟨hwl, hedges, hnodes⟩ := Wf_load S he
  have hsnap : (EngineGraph.new.load_snapshot S).toSnapshot = S := by
    have hne : (EngineGraph.new.load_snapshot S).nodes
        = S.nodes.map (fun n => (n.id, n)) := by
      rw [hnodes, foldl_insertA_fresh (fun n : NodeDef => n.id) (fun n => n)
        S.nodes [] (by simp [keysA]) hn]
      simp
    unfold EngineGraph.toSnapshot
    rw [hne, hedges]
    cases S with
    | mk v ns es =>
        simp only at hv
        simp [List.map_map, hv, Function.comp]
        exact ⟨List.map_id ns, List.map_id es⟩
  have hwmain := incremental_matches_stateless E
    (EngineGraph.new.load_snapshot S) hwl hsz
  rw [hsnap] at hwmain
  have hval : validate S = Except.ok (validateDiags S) := by
    unfold validate
    rw [hv]
    simp
  refine ⟨rfl, fun g => rfl, ?_⟩
  unfold run run_load_snapshot
  rw [hval]
  exact ⟨_, _, rfl, rfl, hwmain.2⟩

theorem claim_C1_incremental_full_equivalence_witness :
    ∃ r, run evaluate_node_with_datasets
        (((EngineGraph.new.load_snapshot snap34).apply_patch
          [PatchOp.addEdge (mkEdge "e9" "n1" "out" "n3" "b")]).toSnapshot)
        = Except.ok r
      ∧ (run_patch evaluate_node_with_datasets
          (EngineGraph.new.load_snapshot snap34)
          [PatchOp.addEdge (mkEdge "e9" "n1" "out" "n3" "b")]).1.values
        = r.values :=
  claim_C1_incremental_full_equivalence evaluate_node_with_datasets snap34
    [PatchOp.addEdge (mkEdge "e9" "n1" "out" "n3" "b")]
    (by decide) (by decide) (by decide)

theorem claim_C3_determinism_witness :
    run evaluate_node_with_datasets snap34
        = run evaluate_node_with_datasets snap34 ∧
    (∀ g : EngineGraph, g.evaluate_dirty evaluate_node_with_datasets
        = g.evaluate_dirty evaluate_node_with_datasets) ∧
    ∃ r out, run evaluate_node_with_datasets snap34 = Except.ok r
      ∧ run_load_snapshot evaluate_node_with_datasets EngineGraph.new snap34
          = Except.ok out
      ∧ out.2.values = r.values :=
  claim_C3_determinism evaluate_node_with_datasets snap34
    (by decide) (by decide) (by decide) (by decide)

end ChainSolve
